import Mathlib

/-!
# Affine normalisation and condition compilation of `AffineCFG.cpp`

A shallow embedding of the value classifier (`isValidSymbolInt`, `isValidIndex`,
`legalCondition`), of `AffineApplyNormalizer`, of `fully2ComposeAffineMapAndOperands`,
of the condition compiler (`handleMinMax`, `handle`, the worklist of `MoveIfToAffine`),
of `valueCmp`, of the loop legality analysis (`isLoopParallel`,
`isLoopLockStepExecutable`) and of the rewrite patterns `AffineIfSimplification`,
`ForOpRaising`, `SimplifyAndOr` and `OptimizeRem`, followed by theorems about them.

SSA values are trees that carry their defining operation; every value has an
identifier and two values are the same SSA value when their identifiers agree.
-/

namespace AffineCFG

/-! ## Affine expressions, maps and integer sets -/

/-- Affine expression tree of MLIR (`AffineExpr`). -/
inductive AffineExpr where
  | const (c : Int)
  | dim (pos : Nat)
  | sym (pos : Nat)
  | add (lhs rhs : AffineExpr)
  | mul (lhs rhs : AffineExpr)
  | floorDiv (lhs rhs : AffineExpr)
  | ceilDiv (lhs rhs : AffineExpr)
  | mod (lhs rhs : AffineExpr)
deriving DecidableEq, Repr, Inhabited

/-- Affine map `(numDims, numSymbols, results)`. -/
structure AffineMap where
  numDims : Nat
  numSymbols : Nat
  results : List AffineExpr
deriving DecidableEq, Repr, Inhabited

/-- Integer set: constraints paired with equality flags. -/
structure IntegerSet where
  numDims : Nat
  numSymbols : Nat
  constraints : List AffineExpr
  eqFlags : List Bool
deriving DecidableEq, Repr, Inhabited

/-- Number of inputs of a map, `getNumInputs`. -/
def AffineMap.numInputs (m : AffineMap) : Nat := m.numDims + m.numSymbols

/-- Number of inputs of a set, `getNumInputs`. -/
def IntegerSet.numInputs (s : IntegerSet) : Nat := s.numDims + s.numSymbols

/-- The expression `-e`, built by MLIR as `e * -1`. -/
def AffineExpr.neg (e : AffineExpr) : AffineExpr := .mul e (.const (-1))

/-- The expression `a - b`, built by MLIR as `a + b * -1`. -/
def AffineExpr.sub (a b : AffineExpr) : AffineExpr := .add a b.neg

/-- The expression `a - c` for an integer `c`, built by MLIR as `a + (-c)`. -/
def AffineExpr.subConst (a : AffineExpr) (c : Int) : AffineExpr := .add a (.const (-c))

/-- Value of an affine expression at the given dimension and symbol values
(positions past the end of a list read as 0). -/
def AffineExpr.eval (dims syms : List Int) : AffineExpr → Int
  | .const c => c
  | .dim i => dims.getD i 0
  | .sym i => syms.getD i 0
  | .add l r => l.eval dims syms + r.eval dims syms
  | .mul l r => l.eval dims syms * r.eval dims syms
  | .floorDiv l r => Int.fdiv (l.eval dims syms) (r.eval dims syms)
  | .ceilDiv l r => - Int.fdiv (- l.eval dims syms) (r.eval dims syms)
  | .mod l r => Int.fmod (l.eval dims syms) (r.eval dims syms)

/-- Substitution `AffineExpr::replaceDimsAndSymbols`: a position past the end of
the replacement list is left as it is. -/
def AffineExpr.replaceDimsAndSymbols (dimRepl symRepl : List AffineExpr) :
    AffineExpr → AffineExpr
  | .const c => .const c
  | .dim i => if h : i < dimRepl.length then dimRepl.get ⟨i, h⟩ else .dim i
  | .sym i => if h : i < symRepl.length then symRepl.get ⟨i, h⟩ else .sym i
  | .add l r => .add (l.replaceDimsAndSymbols dimRepl symRepl)
      (r.replaceDimsAndSymbols dimRepl symRepl)
  | .mul l r => .mul (l.replaceDimsAndSymbols dimRepl symRepl)
      (r.replaceDimsAndSymbols dimRepl symRepl)
  | .floorDiv l r => .floorDiv (l.replaceDimsAndSymbols dimRepl symRepl)
      (r.replaceDimsAndSymbols dimRepl symRepl)
  | .ceilDiv l r => .ceilDiv (l.replaceDimsAndSymbols dimRepl symRepl)
      (r.replaceDimsAndSymbols dimRepl symRepl)
  | .mod l r => .mod (l.replaceDimsAndSymbols dimRepl symRepl)
      (r.replaceDimsAndSymbols dimRepl symRepl)

/-- Substitution `AffineMap::replaceDimsAndSymbols` with the new dim and symbol
counts given by the caller. -/
def AffineMap.replaceDimsAndSymbols (m : AffineMap) (dimRepl symRepl : List AffineExpr)
    (numResultDims numResultSyms : Nat) : AffineMap :=
  { numDims := numResultDims
    numSymbols := numResultSyms
    results := m.results.map (AffineExpr.replaceDimsAndSymbols dimRepl symRepl) }

/-- Shift of symbol positions `AffineExpr::shiftSymbols(numSymbols, shift)` (offset 0). -/
def AffineExpr.shiftSymbols (numSymbols shift : Nat) (e : AffineExpr) : AffineExpr :=
  e.replaceDimsAndSymbols [] ((List.range numSymbols).map (fun i => .sym (i + shift)))

/-! ## The IR: types, operations and values -/

/-- Integer-like types: `index` or a signless integer of the given width. -/
inductive Ty where
  | index
  | int (width : Nat)
deriving DecidableEq, Repr, Inhabited

/-- Bit width of the `APInt` of a constant of the type (`index` is stored on 64 bits). -/
def Ty.width : Ty → Nat
  | .index => 64
  | .int w => w

/-- Predicates of `arith.cmpi`. -/
inductive CmpIPredicate where
  | eq | ne | slt | sle | sgt | sge | ult | ule | ugt | uge
deriving DecidableEq, Repr, Inhabited

/-- Operation kinds the pass distinguishes; every other operation is `other`. -/
inductive OpKind where
  | constant (value : Int)
  | indexCast | indexCastUI | truncI | extUI | extSI
  | addI | subI | mulI | divSI | divUI | remSI | remUI | shRUI | shLI
  | andI | orI | xOrI
  | select
  | cmpI (pred : CmpIPredicate)
  | affineApply (map : AffineMap)
  | scfIf
  | affineIf (set : IntegerSet)
  | other (name : String)
deriving DecidableEq, Repr, Inhabited

/-- Where an operation stands: `top` when its parent operation has the
`AffineScope` trait (for instance directly in a function body), `nested` otherwise. -/
inductive Place where
  | top
  | nested
deriving DecidableEq, Repr, Inhabited

mutual
/-- SSA value: a block argument or a result of an operation. `id` is the identity of
the value. -/
inductive Value where
  | blockArg (id : Nat) (ty : Ty) (owner : Owner) (argNo : Nat)
  | opResult (id : Nat) (ty : Ty) (op : Operation) (resNo : Nat)
/-- Operation: kind, placement, operands, the operations of its then and else blocks
without their terminators, and the operands of the two terminators (all empty for an
operation without regions). -/
inductive Operation where
  | mk (kind : OpKind) (place : Place) (operands : List Value)
      (thenBlock elseBlock : List Operation) (thenYield elseYield : List Value)
/-- Parent operation of the block that owns a block argument. For loops the bounds
are recorded: an `affine.for` has one lower and one upper bound map, an
`affine.parallel` has per induction variable a group of lower and of upper bound
results over shared operand lists, the `scf` loops have bound values. -/
inductive Owner where
  | func
  | affineFor (lbMap : AffineMap) (lbOperands : List Value)
      (ubMap : AffineMap) (ubOperands : List Value)
  | affineParallel (lbNumDims : Nat) (lbGroups : List (List AffineExpr))
      (lbOperands : List Value) (ubNumDims : Nat) (ubGroups : List (List AffineExpr))
      (ubOperands : List Value)
  | scfFor (lb ub : Value)
  | scfParallel (lbs ubs : List Value)
  | otherOp
end

instance : Inhabited Value := ⟨.blockArg 0 .index .func 0⟩

/-- Identity of an SSA value. -/
def Value.id : Value → Nat
  | .blockArg id _ _ _ => id
  | .opResult id _ _ _ => id

/-- Type of a value. -/
def Value.ty : Value → Ty
  | .blockArg _ ty _ _ => ty
  | .opResult _ ty _ _ => ty

/-- Two handles denote the same SSA value (`==` on `mlir::Value`). -/
def Value.same (a b : Value) : Bool := a.id == b.id

/-- Defining operation, `getDefiningOp()`. -/
def Value.definingOp : Value → Option Operation
  | .blockArg _ _ _ _ => none
  | .opResult _ _ op _ => some op

/-- Kind of an operation. -/
def Operation.kind : Operation → OpKind
  | .mk k _ _ _ _ _ _ => k

/-- Placement of an operation. -/
def Operation.place : Operation → Place
  | .mk _ p _ _ _ _ _ => p

/-- Operand list of an operation. -/
def Operation.operands : Operation → List Value
  | .mk _ _ ops _ _ _ _ => ops

/-- Kind of the defining operation of a value, if it has one. -/
def Value.kind (v : Value) : Option OpKind := v.definingOp.map Operation.kind

/-- Operand `i` of the defining operation of a value. -/
def Value.operand (v : Value) (i : Nat) : Option Value :=
  match v.definingOp with
  | some op => op.operands.get? i
  | none => none

/-- Matcher `m_Constant`: the operation is constant-like. -/
def OpKind.isConstant : OpKind → Bool
  | .constant _ => true
  | _ => false

/-- Test `getDefiningOp<ConstantIntOp>()`: an `arith.constant` of integer type. -/
def Value.isConstantIntOp : Value → Bool
  | .opResult _ (.int _) (.mk (.constant _) _ _ _ _ _ _) _ => true
  | _ => false

/-- Test `getDefiningOp<ConstantIndexOp>()`: an `arith.constant` of index type. -/
def Value.isConstantIndexOp : Value → Bool
  | .opResult _ .index (.mk (.constant _) _ _ _ _ _ _) _ => true
  | _ => false

/-- Test `getDefiningOp<arith::ConstantOp>()`. -/
def Value.isConstantOp : Value → Bool
  | .opResult _ _ (.mk (.constant _) _ _ _ _ _ _) _ => true
  | _ => false

/-- Integer of a value that `m_Constant(&IntegerAttr)` or `m_ConstantInt` matches. -/
def Value.constantValue : Value → Option Int
  | .opResult _ _ (.mk (.constant c) _ _ _ _ _ _) _ => some c
  | _ => none

/-- Library predicate `affine::isTopLevelValue`: the parent operation of the defining
operation, or of the block owning the argument, has the `AffineScope` trait. -/
def isTopLevelValue : Value → Bool
  | .blockArg _ _ .func _ => true
  | .blockArg _ _ _ _ => false
  | .opResult _ _ (.mk _ .top _ _ _ _ _) _ => true
  | .opResult _ _ (.mk _ .nested _ _ _ _ _) _ => false

mutual
/-- Library predicate `affine::isValidSymbol(value, region)` for the local affine scope
of the value, the scope operation being isolated from above: an index value that is
top level, a constant, or an `affine.apply` of valid symbols. -/
def affineIsValidSymbol : Value → Bool
  | .blockArg _ ty .func _ => decide (ty = .index)
  | .blockArg _ _ _ _ => false
  | .opResult _ ty (.mk kind place operands _ _ _ _) _ =>
    decide (ty = .index) &&
      (decide (place = .top) ||
        (match kind with
          | .constant _ => true
          | .affineApply _ => affineIsValidSymbolAll operands
          | _ => false))
/-- All values of a list satisfy `affineIsValidSymbol`. -/
def affineIsValidSymbolAll : List Value → Bool
  | [] => true
  | v :: vs => affineIsValidSymbol v && affineIsValidSymbolAll vs
end

/-- The operation kinds `isValidSymbolInt` looks through when `recur` is set. -/
def OpKind.isSymbolArith : OpKind → Bool
  | .select | .indexCast | .indexCastUI | .addI | .mulI | .divSI | .divUI
  | .remSI | .remUI | .subI | .cmpI _ | .truncI | .extUI | .extSI => true
  | _ => false

mutual
/-- Source `isValidSymbolInt(Value, bool recur)`. -/
def isValidSymbolInt (recur : Bool) : Value → Bool
  | .blockArg id ty owner argNo => isTopLevelValue (.blockArg id ty owner argNo)
  | .opResult id ty op resNo =>
    isTopLevelValue (.opResult id ty op resNo) ||
      (isValidSymbolIntOp recur op || affineIsValidSymbol (.opResult id ty op resNo))
/-- Source `isValidSymbolInt(Operation *, bool recur)`. -/
def isValidSymbolIntOp (recur : Bool) : Operation → Bool
  | .mk kind _ operands thenBlock elseBlock _ _ =>
    kind.isConstant ||
      (recur &&
        ((kind.isSymbolArith && isValidSymbolIntAll recur operands) ||
          (match kind with
            | .scfIf =>
              (match operands with
                | cond :: _ => isValidSymbolInt recur cond
                | [] => false) &&
                (isValidSymbolIntOps recur thenBlock && isValidSymbolIntOps recur elseBlock)
            | .affineIf _ =>
              isValidSymbolIntAll recur operands &&
                (isValidSymbolIntOps recur thenBlock && isValidSymbolIntOps recur elseBlock)
            | _ => false)))
/-- All operands satisfy `isValidSymbolInt`. -/
def isValidSymbolIntAll (recur : Bool) : List Value → Bool
  | [] => true
  | v :: vs => isValidSymbolInt recur v && isValidSymbolIntAll recur vs
/-- All operations of a block satisfy `isValidSymbolInt`. -/
def isValidSymbolIntOps (recur : Bool) : List Operation → Bool
  | [] => true
  | o :: os => isValidSymbolIntOp recur o && isValidSymbolIntOps recur os
end

/-- Source `isAffineForArg`: a block argument of an `affine.for` or `affine.parallel`. -/
def isAffineForArg : Value → Bool
  | .blockArg _ _ (.affineFor _ _ _ _) _ => true
  | .blockArg _ _ (.affineParallel _ _ _ _ _ _) _ => true
  | _ => false

/-- Source `isValidIndex`. -/
def isValidIndex : Value → Bool
  | .blockArg id ty owner argNo =>
    isValidSymbolInt true (.blockArg id ty owner argNo) ||
      (match owner with
        | .func => true
        | .affineFor _ _ _ _ => argNo == 0
        | .affineParallel _ _ _ _ _ _ => true
        | _ => false)
  | .opResult id ty (.mk kind place operands tb eb ty1 ty2) resNo =>
    (match kind with
      | .affineApply _ => true
      | _ => false) ||
    isValidSymbolInt true (.opResult id ty (.mk kind place operands tb eb ty1 ty2) resNo) ||
    (match kind, operands with
      | .indexCast, x :: _ => isValidIndex x
      | .indexCastUI, x :: _ => isValidIndex x
      | .truncI, x :: _ => isValidIndex x
      | .extSI, x :: _ => isValidIndex x
      | .extUI, x :: _ => isValidIndex x
      | .addI, x :: y :: _ => isValidIndex x && isValidIndex y
      | .mulI, x :: y :: _ =>
        (isValidIndex x && isValidSymbolInt true y) ||
          (isValidIndex y && isValidSymbolInt true x)
      | .divSI, x :: y :: _ => isValidIndex x && isValidSymbolInt true y
      | .divUI, x :: y :: _ => isValidIndex x && isValidSymbolInt true y
      | .remSI, x :: y :: _ => isValidIndex x && y.isConstantOp
      | .remUI, x :: y :: _ => isValidIndex x && y.isConstantOp
      | .subI, x :: y :: _ => isValidIndex x && isValidIndex y
      | .shRUI, x :: y :: _ => isValidIndex x && y.isConstantOp
      | .shLI, x :: y :: _ => isValidIndex x && y.isConstantOp
      | .constant _, _ => true
      | _, _ => false)

/-! ## `ValueOrInt` and `valueCmp` -/

/-- Signed value of the low `w` bits of an integer: the wrap of `APInt` arithmetic. -/
def wrapSigned (w : Nat) (x : Int) : Int :=
  if w = 0 then 0
  else if x % 2 ^ w < 2 ^ (w - 1) then x % 2 ^ w else x % 2 ^ w - 2 ^ w

/-- Modelled from the spec: the tagged union `ValueOrInt`, declared in a header that is
not part of the sources: either a reference to a live IR value or a known integer
constant (with the bit width of its `APInt`, the integer being its signed value). -/
inductive ValueOrInt where
  | value (v : Value)
  | int (width : Nat) (i : Int)
deriving Inhabited

/-- Modelled from the spec: the constructor `ValueOrInt(Value)`: a value that matches an
integer constant becomes that integer, any other value stays a value. -/
def ValueOrInt.ofValue (v : Value) : ValueOrInt :=
  match v.constantValue with
  | some c => .int v.ty.width c
  | none => .value v

/-- Field `isValue`. -/
def ValueOrInt.isValue : ValueOrInt → Bool
  | .value _ => true
  | .int _ _ => false

/-- Modelled from the spec: `operator==` against an integer: false on a value. -/
def ValueOrInt.eqInt : ValueOrInt → Int → Bool
  | .value _, _ => false
  | .int _ i, c => decide (i = c)

/-- Modelled from the spec: `operator<` against an integer (signed): false on a value. -/
def ValueOrInt.ltInt : ValueOrInt → Int → Bool
  | .value _, _ => false
  | .int _ i, c => decide (i < c)

/-- Modelled from the spec: `operator<=` against an integer (signed): false on a value. -/
def ValueOrInt.leInt : ValueOrInt → Int → Bool
  | .value _, _ => false
  | .int _ i, c => decide (i ≤ c)

/-- Modelled from the spec: `operator>` against an integer (signed): false on a value. -/
def ValueOrInt.gtInt : ValueOrInt → Int → Bool
  | .value _, _ => false
  | .int _ i, c => decide (c < i)

/-- Modelled from the spec: `operator>=` against an integer (signed): false on a value. -/
def ValueOrInt.geInt : ValueOrInt → Int → Bool
  | .value _, _ => false
  | .int _ i, c => decide (c ≤ i)

/-- The constant `val.i_val + 1` (wrapping at the width of the `APInt`); only used on
integers. -/
def ValueOrInt.succ : ValueOrInt → ValueOrInt
  | .value v => .value v
  | .int w i => .int w (wrapSigned w (i + 1))

/-- Test `APInt::isMinSignedValue`. -/
def isMinSignedValue (w : Nat) (i : Int) : Bool := decide (0 < w ∧ i = -(2 ^ (w - 1)))

/-- Relations `valueCmp` can be asked to prove. -/
inductive Cmp where
  | EQ | LT | LE | GT | GE
deriving DecidableEq, Repr, Inhabited

/-- Source `valueCmp(Cmp, APInt expr, ValueOrInt val)`, also the constant cases of the
other overloads: `expr cmp val` for a constant `expr`. -/
def valueCmpConst (cmp : Cmp) (expr : Int) (val : ValueOrInt) : Bool :=
  match cmp with
  | .EQ => val.eqInt expr
  | .LT => val.gtInt expr
  | .LE => val.geInt expr
  | .GT => val.ltInt expr
  | .GE => val.leInt expr

/-- The integer `0` as `valueCmp` receives it from an `int64_t` argument. -/
def ValueOrInt.zero : ValueOrInt := .int 64 0

/-- Source `valueCmp(Cmp, AffineExpr, size_t numDim, ValueRange operands, ValueOrInt)`;
`leaf cmp i val` stands for `valueCmp(cmp, operands[i], val)`. -/
def valueCmpExpr (leaf : Cmp → Nat → ValueOrInt → Bool) (numDim : Nat) :
    Cmp → AffineExpr → ValueOrInt → Bool
  | cmp, .const c, val => valueCmpConst cmp c val
  | cmp, .dim pos, val => leaf cmp pos val
  | cmp, .sym pos, val => leaf cmp (pos + numDim) val
  | cmp, .add l r, val =>
    match cmp with
    | .EQ =>
      (valueCmpExpr leaf numDim .EQ l val && valueCmpExpr leaf numDim .EQ r .zero) ||
        (valueCmpExpr leaf numDim .EQ l .zero && valueCmpExpr leaf numDim .EQ r val)
    | .LT =>
      (valueCmpExpr leaf numDim .LT l val && valueCmpExpr leaf numDim .LE r .zero) ||
        (valueCmpExpr leaf numDim .LE l .zero && valueCmpExpr leaf numDim .LT r val) ||
        (valueCmpExpr leaf numDim .LE l val && valueCmpExpr leaf numDim .LT r .zero) ||
        (valueCmpExpr leaf numDim .LT l .zero && valueCmpExpr leaf numDim .LE r val)
    | .LE =>
      (valueCmpExpr leaf numDim .LE l val && valueCmpExpr leaf numDim .LE r .zero) ||
        (valueCmpExpr leaf numDim .LE l .zero && valueCmpExpr leaf numDim .LE r val)
    | .GT =>
      (valueCmpExpr leaf numDim .GT l val && valueCmpExpr leaf numDim .GE r .zero) ||
        (valueCmpExpr leaf numDim .GE l .zero && valueCmpExpr leaf numDim .GT r val) ||
        (valueCmpExpr leaf numDim .GE l val && valueCmpExpr leaf numDim .GT r .zero) ||
        (valueCmpExpr leaf numDim .GT l .zero && valueCmpExpr leaf numDim .GE r val)
    | .GE =>
      (valueCmpExpr leaf numDim .GE l val && valueCmpExpr leaf numDim .GE r .zero) ||
        (valueCmpExpr leaf numDim .GE l .zero && valueCmpExpr leaf numDim .GE r val)
  | cmp, .mul l r, val =>
    val.eqInt 0 &&
      (match cmp with
        | .EQ => valueCmpExpr leaf numDim .EQ l val || valueCmpExpr leaf numDim .EQ r val
        | .LT =>
          (valueCmpExpr leaf numDim .LT l val && valueCmpExpr leaf numDim .GT r .zero) ||
            (valueCmpExpr leaf numDim .GT l .zero && valueCmpExpr leaf numDim .LT r val)
        | .LE =>
          valueCmpExpr leaf numDim .EQ l val || valueCmpExpr leaf numDim .EQ r val ||
            ((valueCmpExpr leaf numDim .GE l .zero && valueCmpExpr leaf numDim .LE r val) ||
              (valueCmpExpr leaf numDim .LE l .zero && valueCmpExpr leaf numDim .GE r val))
        | .GT =>
          (valueCmpExpr leaf numDim .LT l val && valueCmpExpr leaf numDim .LT r .zero) ||
            (valueCmpExpr leaf numDim .GT l .zero && valueCmpExpr leaf numDim .GT r val)
        | .GE =>
          valueCmpExpr leaf numDim .EQ l val || valueCmpExpr leaf numDim .EQ r val ||
            ((valueCmpExpr leaf numDim .GE l .zero && valueCmpExpr leaf numDim .GE r val) ||
              (valueCmpExpr leaf numDim .LE l .zero && valueCmpExpr leaf numDim .LE r val)))
  | cmp, .mod l r, val =>
    val.eqInt 0 &&
      (match r with
        | .const c => decide (0 < c)
        | _ => false) &&
      (match cmp with
        | .GE => valueCmpExpr leaf numDim .GE l val
        | _ => false)
  | cmp, .floorDiv l r, val =>
    val.eqInt 0 &&
      (match r with
        | .const c => decide (0 < c)
        | _ => false) &&
      (match cmp with
        | .GE => valueCmpExpr leaf numDim .GE l val
        | _ => false)
  | _, .ceilDiv _ _, _ => false

/-- The last rule of `valueCmp`: `val` is the very value being compared. -/
def valueCmpSame (cmp : Cmp) (bval : Value) (val : ValueOrInt) : Bool :=
  match val with
  | .value v =>
    v.same bval &&
      (match cmp with
        | .EQ => true
        | .LT => false
        | .LE => true
        | .GT => false
        | .GE => true)
  | .int _ _ => false

/-- The guard `cmp == Cmp::GE && !val.isValue && val.i_val == 0`. -/
def isGEZero (cmp : Cmp) (val : ValueOrInt) : Bool :=
  decide (cmp = .GE) && val.eqInt 0

mutual
/-- Source `valueCmp(Cmp, Value bval, ValueOrInt val)`: true only when `bval cmp val` is
proved. A bound result or bound value selected by an argument number past the end of its
list (an out-of-bounds read in the source) gives `false`. -/
def valueCmp : Cmp → Value → ValueOrInt → Bool
  | cmp, .opResult id ty (.mk kind place operands tb eb y1 y2) resNo, val =>
    match kind, operands with
    | .indexCast, x :: _ => valueCmp cmp x val
    | .indexCastUI, x :: _ => valueCmp cmp x val
    | .constant c, _ => valueCmpConst cmp c val
    | .addI, x :: y :: _ =>
      if isGEZero cmp val then valueCmp cmp x val && valueCmp cmp y val
      else valueCmpSame cmp (.opResult id ty (.mk kind place operands tb eb y1 y2) resNo) val
    | .mulI, x :: y :: _ =>
      if isGEZero cmp val then
        match y.constantValue with
        | some c =>
          if c = 0 then true
          else if 0 < c then valueCmp cmp x val
          else valueCmp .LE x val
        | none =>
          valueCmpSame cmp (.opResult id ty (.mk kind place operands tb eb y1 y2) resNo) val
      else valueCmpSame cmp (.opResult id ty (.mk kind place operands tb eb y1 y2) resNo) val
    | .shRUI, x :: _ =>
      if isGEZero cmp val then valueCmp cmp x val
      else valueCmpSame cmp (.opResult id ty (.mk kind place operands tb eb y1 y2) resNo) val
    | .shLI, x :: _ =>
      if isGEZero cmp val then valueCmp cmp x val
      else valueCmpSame cmp (.opResult id ty (.mk kind place operands tb eb y1 y2) resNo) val
    | .divUI, x :: _ =>
      if isGEZero cmp val then valueCmp cmp x val
      else valueCmpSame cmp (.opResult id ty (.mk kind place operands tb eb y1 y2) resNo) val
    | _, _ => valueCmpSame cmp (.opResult id ty (.mk kind place operands tb eb y1 y2) resNo) val
  | cmp, .blockArg id ty owner argNo, val =>
    match owner with
    | .affineFor lbMap lbOperands ubMap ubOperands =>
      (match lbMap.results.get? argNo, ubMap.results.get? argNo with
        | some forLb, some forUb =>
          (match cmp with
            | .EQ =>
              valueCmpExpr (fun c i v => valueCmpAt c lbOperands i v) lbMap.numDims .EQ forLb val &&
                (!val.isValue &&
                  valueCmpExpr (fun c i v => valueCmpAt c ubOperands i v) ubMap.numDims .EQ forUb
                    val.succ)
            | .LT =>
              valueCmpExpr (fun c i v => valueCmpAt c ubOperands i v) ubMap.numDims .LE forUb val
            | .LE =>
              if !val.isValue then
                valueCmpExpr (fun c i v => valueCmpAt c ubOperands i v) ubMap.numDims .LE forUb
                  val.succ
              else
                valueCmpExpr (fun c i v => valueCmpAt c ubOperands i v) ubMap.numDims .LE forUb val
            | .GT =>
              valueCmpExpr (fun c i v => valueCmpAt c lbOperands i v) lbMap.numDims .GT forLb val
            | .GE =>
              valueCmpExpr (fun c i v => valueCmpAt c lbOperands i v) lbMap.numDims .GE forLb val)
        | _, _ => false)
    | .affineParallel lbNumDims lbGroups lbOperands ubNumDims ubGroups ubOperands =>
      (match lbGroups.get? argNo, ubGroups.get? argNo with
        | some lbs, some ubs =>
          (match cmp with
            | .EQ =>
              lbs.all (fun e =>
                  valueCmpExpr (fun c i v => valueCmpAt c lbOperands i v) lbNumDims .EQ e val) &&
                (!val.isValue &&
                  ubs.all (fun e =>
                    valueCmpExpr (fun c i v => valueCmpAt c ubOperands i v) ubNumDims .EQ e
                      val.succ))
            | .LT =>
              ubs.any (fun e =>
                valueCmpExpr (fun c i v => valueCmpAt c ubOperands i v) ubNumDims .LE e val)
            | .LE =>
              if !val.isValue then
                ubs.any (fun e =>
                  valueCmpExpr (fun c i v => valueCmpAt c ubOperands i v) ubNumDims .LE e
                    val.succ)
              else
                ubs.any (fun e =>
                  valueCmpExpr (fun c i v => valueCmpAt c ubOperands i v) ubNumDims .LE e val)
            | .GT =>
              lbs.any (fun e =>
                valueCmpExpr (fun c i v => valueCmpAt c lbOperands i v) lbNumDims .GT e val)
            | .GE =>
              lbs.any (fun e =>
                valueCmpExpr (fun c i v => valueCmpAt c lbOperands i v) lbNumDims .GE e val))
        | _, _ => false)
    | .scfFor lb ub =>
      if argNo = 0 then
        (match cmp with
          | .EQ => valueCmp .EQ lb val && (!val.isValue && valueCmp .EQ ub val.succ)
          | .LT => valueCmp .LE ub val
          | .LE => if !val.isValue then valueCmp .LE ub val.succ else valueCmp .LE ub val
          | .GT => valueCmp .GT lb val
          | .GE => valueCmp .GE lb val)
      else valueCmpSame cmp (.blockArg id ty (.scfFor lb ub) argNo) val
    | .scfParallel lbs ubs =>
      if argNo < lbs.length ∧ argNo < ubs.length then
        (match cmp with
          | .EQ => valueCmpAt .EQ lbs argNo val && (!val.isValue && valueCmpAt .EQ ubs argNo val.succ)
          | .LT => valueCmpAt .LE ubs argNo val
          | .LE =>
            if !val.isValue then valueCmpAt .LE ubs argNo val.succ
            else valueCmpAt .LE ubs argNo val
          | .GT => valueCmpAt .GT lbs argNo val
          | .GE => valueCmpAt .GE lbs argNo val)
      else false
    | .func => valueCmpSame cmp (.blockArg id ty .func argNo) val
    | .otherOp => valueCmpSame cmp (.blockArg id ty .otherOp argNo) val
/-- Answer of `valueCmp` on the `i`-th value of a list (`false` past its end). -/
def valueCmpAt : Cmp → List Value → Nat → ValueOrInt → Bool
  | _, [], _, _ => false
  | cmp, v :: _, 0, val => valueCmp cmp v val
  | cmp, _ :: vs, i + 1, val => valueCmpAt cmp vs i val
end

/-- Source `valueCmp(Cmp, ValueOrInt expr, ValueOrInt val)`. -/
def valueCmpVI (cmp : Cmp) (expr : ValueOrInt) (val : ValueOrInt) : Bool :=
  match expr with
  | .value v => valueCmp cmp v val
  | .int _ i => valueCmpConst cmp i val

/-- Source `valueCmp(Cmp, ValueOrInt expr, int64_t val)`. -/
def valueCmpInt (cmp : Cmp) (expr : ValueOrInt) (val : Int) : Bool :=
  valueCmpVI cmp expr (.int 64 val)

/-! ## `legalCondition` and `need` -/

/-- The loop `while (auto ic = en.getDefiningOp<IndexCastOp>()) en = ic.getIn();`. -/
def stripIndexCast : Value → Value
  | .opResult _ _ (.mk .indexCast _ (x :: _) _ _ _ _) _ => stripIndexCast x
  | v => v

/-- The loop `while (auto ic = en.getDefiningOp<IndexCastUIOp>()) en = ic.getIn();`. -/
def stripIndexCastUI : Value → Value
  | .opResult _ _ (.mk .indexCastUI _ (x :: _) _ _ _ _) _ => stripIndexCastUI x
  | v => v

/-- Whether operand 1 of the defining operation is a `ConstantIntOp` or a
`ConstantIndexOp`. -/
def Value.operand1IsConstant (v : Value) : Bool :=
  match v.operand 1 with
  | some y => y.isConstantIntOp || y.isConstantIndexOp
  | none => false

/-- Source `legalCondition(Value en, bool dim)`. -/
def legalCondition (en : Value) (dim : Bool) : Bool :=
  (match en.kind with
    | some (.affineApply _) => true
    | _ => false) ||
  (!dim && !isValidSymbolInt false en && (isValidIndex en || isValidSymbolInt true en)) ||
  ((match (stripIndexCastUI (stripIndexCast en)).kind with
      | some .addI | some .subI | some .mulI | some .remUI | some .remSI => true
      | _ => false) &&
    (stripIndexCastUI (stripIndexCast en)).operand1IsConstant) ||
  (!dim && isAffineForArg (stripIndexCastUI (stripIndexCast en)))

/-- The scan of `need`: operand `i` is tested as a dim when `i < numDims`. -/
def needFrom (numDims : Nat) : Nat → List Value → Bool
  | _, [] => false
  | i, v :: vs => legalCondition v (decide (i < numDims)) || needFrom numDims (i + 1) vs

/-- Source `need(AffineMap *, SmallVectorImpl<Value> *)` (its assertion on the operand
count is checked by the callers in this embedding). -/
def need (map : AffineMap) (operands : List Value) : Bool :=
  needFrom map.numDims 0 operands

/-! ## `AffineApplyNormalizer` -/

/-- Collaborators outside this embedding. `fix hasRewriter v index` is the outcome of
the hoisting helper `fix` of the normalizer, which clones operations through the pattern
rewriter and dominance information: `none` when it aborts, `some none` for a null result,
`some (some w)` for the value it returns. `canonicalizeMapAndOperands` and
`simplifyAffineMap` are MLIR library functions, `recreateExpr` a helper of the pass
declared elsewhere. `otherCasts v` lists the `arith.index_cast` users of `v` that dominate
the insertion point, and `castId v` names the `arith.index_cast` the pass inserts
after `v`. -/
structure Env where
  fix : Bool → Value → Bool → Option (Option Value)
  canonicalizeMapAndOperands : AffineMap → List Value → AffineMap × List Value
  recreateExpr : AffineMap → AffineMap
  simplifyAffineMap : AffineMap → AffineMap
  otherCasts : Value → List Value
  castId : Value → Nat

/-- Working lists of the constructor of `AffineApplyNormalizer`. `dimValueToPosition` is
the position of a value in `reorderedDims`. -/
structure NormState where
  reorderedDims : List Value
  addedValues : List Value
  dimReplacements : List AffineExpr
  symReplacements : List AffineExpr
deriving Inhabited

/-- Position of the first handle of `vs` that is the same value as `v`. -/
def findValue (v : Value) : List Value → Option Nat
  | [] => none
  | w :: ws => if w.same v then some 0 else (findValue v ws).map (· + 1)

/-- Source `AffineApplyNormalizer::renumberOneDim`. -/
def renumberOneDim (st : NormState) (v : Value) : AffineExpr × NormState :=
  match findValue v st.reorderedDims with
  | some pos => (.dim pos, st)
  | none => (.dim st.reorderedDims.length, { st with reorderedDims := st.reorderedDims ++ [v] })

/-- The lambda `renumberOneSymbol` of the constructor: a value already among
`addedValues` keeps its position, another one is appended. -/
def renumberOneSymbol (st : NormState) (v : Value) : AffineExpr × NormState :=
  match findValue v st.addedValues with
  | some pos => (.sym pos, st)
  | none => (.sym st.addedValues.length, { st with addedValues := st.addedValues ++ [v] })

/-- Apply `renumberOneDim` to the values of a list, in order. -/
def renumberDims (st : NormState) : List Value → List AffineExpr × NormState
  | [] => ([], st)
  | v :: vs =>
    let r := renumberOneDim st v
    let rest := renumberDims r.2 vs
    (r.1 :: rest.1, rest.2)

/-- Apply `renumberOneSymbol` to the values of a list, in order. -/
def renumberSymbols (st : NormState) : List Value → List AffineExpr × NormState
  | [] => ([], st)
  | v :: vs =>
    let r := renumberOneSymbol st v
    let rest := renumberSymbols r.2 vs
    (r.1 :: rest.1, rest.2)

/-- The cast-stripping loop of the constructor: `IndexCastOp`, `IndexCastUIOp`, `TruncIOp`,
`ExtUIOp` and `ExtSIOp` are looked through. -/
def decast : Value → Value
  | .opResult _ _ (.mk .indexCast _ (x :: _) _ _ _ _) _ => decast x
  | .opResult _ _ (.mk .indexCastUI _ (x :: _) _ _ _ _) _ => decast x
  | .opResult _ _ (.mk .truncI _ (x :: _) _ _ _ _) _ => decast x
  | .opResult _ _ (.mk .extUI _ (x :: _) _ _ _ _) _ => decast x
  | .opResult _ _ (.mk .extSI _ (x :: _) _ _ _ _) _ => decast x
  | v => v

/-- The C++ expression `1 << k` on `int`: `2 ^ k` below 31, the wrapped value at 31,
undefined (`none`) from 32 on. -/
def shlOne (k : Nat) : Option Int :=
  if k < 31 then some (2 ^ k) else if k = 31 then some (-(2 ^ 31)) else none

/-- Unsigned value of a constant of the given type, `APInt::getZExtValue`. -/
def zextValue (ty : Ty) (c : Int) : Nat := (c % 2 ^ ty.width).toNat

/-- The conjunction `fix(op0, false) && fix(op1, false)` of the promotion condition. -/
def fixBoth (env : Env) (hasRewriter : Bool) (x y : Value) : Option Bool :=
  match env.fix hasRewriter x false with
  | none => none
  | some none => some false
  | some (some _) =>
    match env.fix hasRewriter y false with
    | none => none
    | some none => some false
    | some (some _) => some true

/-- The first disjunct of the promotion condition, after `!isValidSymbolInt(t, false)`:
the shape tests on the defining operation of `t`. -/
def promoteInner (env : Env) (hasRewriter : Bool) (t : Value) : Option Bool :=
  match t.kind, t.operand 0, t.operand 1 with
  | some .addI, _, _ => some true
  | some .subI, _, _ => some true
  | some .mulI, some x, some y =>
    if (isValidIndex x && isValidSymbolInt true y) || (isValidIndex y && isValidSymbolInt true x)
    then (fixBoth env hasRewriter x y).map (fun b => !b)
    else some false
  | some .divUI, some x, some y =>
    if isValidIndex x && isValidSymbolInt true y then
      match fixBoth env hasRewriter x y with
      | none => none
      | some _ => some true
    else some false
  | some .divSI, some x, some y =>
    if isValidIndex x && isValidSymbolInt true y then
      match fixBoth env hasRewriter x y with
      | none => none
      | some _ => some true
    else some false
  | some .remUI, some x, some y => some (isValidIndex x && isValidSymbolInt true y)
  | some .remSI, some x, some y => some (isValidIndex x && isValidSymbolInt true y)
  | some (.constant _), _, _ => some true
  | _, _, _ => some false

/-- The second disjunct of the promotion condition, on the cast-stripped operand. -/
def promoteDecast (d : Value) : Bool :=
  (match d.kind with
    | some .addI | some .subI | some .mulI | some .remUI | some .remSI
    | some .shRUI | some .shLI => true
    | _ => false) && d.operand1IsConstant

/-- The promotion condition of the operand loop (`none` when `fix` aborts). -/
def promoteCond (env : Env) (hasRewriter : Bool) (t d : Value) : Option Bool :=
  if !isValidSymbolInt false t then
    match promoteInner env hasRewriter t with
    | none => none
    | some true => some true
    | some false => some (promoteDecast d)
  else some (promoteDecast d)

/-- The single-result map and operand list into which a promoted operand is decomposed
(`none` where the source reaches `llvm_unreachable` or an undefined shift). -/
def decompose (t : Value) : Option (AffineMap × List Value) :=
  match t.kind, t.operand 0, t.operand 1 with
  | some .addI, some x, some y => some (⟨0, 2, [.add (.sym 0) (.sym 1)]⟩, [x, y])
  | some .subI, some x, some y => some (⟨0, 2, [AffineExpr.sub (.sym 0) (.sym 1)]⟩, [x, y])
  | some .mulI, some x, some y =>
    match y.constantValue with
    | some c => some (⟨0, 1, [.mul (.sym 0) (.const c)]⟩, [x])
    | none => some (⟨0, 2, [.mul (.sym 0) (.sym 1)]⟩, [x, y])
  | some .divSI, some x, some y =>
    match y.constantValue with
    | some c => some (⟨0, 1, [.floorDiv (.sym 0) (.const c)]⟩, [x])
    | none => some (⟨0, 2, [.floorDiv (.sym 0) (.sym 1)]⟩, [x, y])
  | some .divUI, some x, some y =>
    match y.constantValue with
    | some c => some (⟨0, 1, [.floorDiv (.sym 0) (.const c)]⟩, [x])
    | none => some (⟨0, 2, [.floorDiv (.sym 0) (.sym 1)]⟩, [x, y])
  | some .remSI, some x, some y =>
    match y.constantValue with
    | some c => some (⟨0, 1, [.mod (.sym 0) (.const c)]⟩, [x])
    | none => some (⟨0, 2, [.mod (.sym 0) (.sym 1)]⟩, [x, y])
  | some .remUI, some x, some y =>
    match y.constantValue with
    | some c => some (⟨0, 1, [.mod (.sym 0) (.const c)]⟩, [x])
    | none => some (⟨0, 2, [.mod (.sym 0) (.sym 1)]⟩, [x, y])
  | some .shRUI, some x, some y =>
    match y.constantValue with
    | some c => (shlOne (zextValue y.ty c)).map (fun p => (⟨0, 1, [.floorDiv (.sym 0) (.const p)]⟩, [x]))
    | none => none
  | some .shLI, some x, some y =>
    match y.constantValue with
    | some c => (shlOne (zextValue y.ty c)).map (fun p => (⟨0, 1, [.mul (.sym 0) (.const p)]⟩, [x]))
    | none => none
  | some (.constant c), _, _ => some (⟨0, 0, [.const c]⟩, [])
  | _, _, _ => none

/-- Append a replacement: to `symReplacements` when `i >= numDims`, else to
`dimReplacements`. -/
def pushReplacement (numDims i : Nat) (e : AffineExpr) (st : NormState) : NormState :=
  if numDims ≤ i then { st with symReplacements := st.symReplacements ++ [e] }
  else { st with dimReplacements := st.dimReplacements ++ [e] }

/-- The last branch of the operand loop: an operand that is not a valid symbol must be
made one by `fix`, else the constructor aborts. -/
def fixOperand (env : Env) (hasRewriter : Bool) (t : Value) : Option Value :=
  if !isValidSymbolInt false t then
    match t.definingOp with
    | none => none
    | some _ =>
      match env.fix hasRewriter t false with
      | some (some t2) => if !isValidSymbolInt false t2 then none else some t2
      | _ => none
  else some t

/-- One iteration of the operand loop of the constructor, for operand `i` (`none` when
the constructor aborts). -/
def normalizeOperand (env : Env) (hasRewriter : Bool) (numDims i : Nat) (operand : Value)
    (st : NormState) : Option NormState :=
  let d := decast operand
  let t := if !isValidSymbolInt false operand then d else operand
  match promoteCond env hasRewriter t d with
  | none => none
  | some true =>
    match decompose d with
    | none => none
    | some (applyMap, applyOperands) =>
      let r := renumberSymbols st applyOperands
      let m := applyMap.replaceDimsAndSymbols [] r.1 r.2.reorderedDims.length
        r.2.addedValues.length
      match m.results.get? 0 with
      | none => none
      | some e => some (pushReplacement numDims i e r.2)
  | some false =>
    if isAffineForArg t then
      let r := renumberOneDim st t
      some (pushReplacement numDims i r.1 r.2)
    else
      match t.kind with
      | some (.affineApply applyMap) =>
        match t.definingOp with
        | none => none
        | some op =>
          if op.operands.length < applyMap.numDims then none
          else
            let rd := renumberDims st (op.operands.take applyMap.numDims)
            let rs := renumberSymbols rd.2 (op.operands.drop applyMap.numDims)
            let m := applyMap.replaceDimsAndSymbols rd.1 rs.1 rs.2.reorderedDims.length
              rs.2.addedValues.length
            match m.results.get? 0 with
            | none => none
            | some e => some (pushReplacement numDims i e rs.2)
      | _ =>
        match fixOperand env hasRewriter t with
        | none => none
        | some t2 =>
          if i < numDims then
            let r := renumberOneDim st t2
            some (pushReplacement numDims i r.1 r.2)
          else
            let r := renumberOneSymbol st t2
            some (pushReplacement numDims i r.1 r.2)

/-- The operand loop of the constructor, from operand `i` on. -/
def normalizeOperands (env : Env) (hasRewriter : Bool) (numDims : Nat) :
    Nat → List Value → NormState → Option NormState
  | _, [], st => some st
  | i, v :: vs, st =>
    match normalizeOperand env hasRewriter numDims i v st with
    | none => none
    | some st1 => normalizeOperands env hasRewriter numDims (i + 1) vs st1

/-- Fields of a constructed `AffineApplyNormalizer`. -/
structure AffineApplyNormalizer where
  reorderedDims : List Value
  concatenatedSymbols : List Value
  affineMap : AffineMap
deriving Inhabited

/-- Source `AffineApplyNormalizer::getAffineMap`. -/
def AffineApplyNormalizer.getAffineMap (n : AffineApplyNormalizer) : AffineMap := n.affineMap

/-- Source `AffineApplyNormalizer::getOperands`. -/
def AffineApplyNormalizer.getOperands (n : AffineApplyNormalizer) : List Value :=
  n.reorderedDims ++ n.concatenatedSymbols

/-- Source constructor `AffineApplyNormalizer::AffineApplyNormalizer(map, operands,
rewriter, DI)`; `none` when an assertion or `llvm_unreachable` stops it. -/
def AffineApplyNormalizer.new (env : Env) (hasRewriter : Bool) (map : AffineMap)
    (operands : List Value) : Option AffineApplyNormalizer :=
  if map.numInputs ≠ operands.length then none
  else
    match normalizeOperands env hasRewriter map.numDims 0 operands ⟨[], [], [], []⟩ with
    | none => none
    | some st =>
      if st.dimReplacements.length ≠ map.numDims then none
      else if st.symReplacements.length ≠ map.numSymbols then none
      else
        some
          { reorderedDims := st.reorderedDims
            concatenatedSymbols := st.addedValues
            affineMap := map.replaceDimsAndSymbols st.dimReplacements st.symReplacements
              st.reorderedDims.length st.addedValues.length }

/-! ## `fully2ComposeAffineMapAndOperands` -/

/-- Source `composeAffineMapAndOperands`. -/
def composeAffineMapAndOperands (env : Env) (hasRewriter : Bool) (map : AffineMap)
    (operands : List Value) : Option (AffineMap × List Value) :=
  match AffineApplyNormalizer.new env hasRewriter map operands with
  | none => none
  | some n =>
    let c := env.canonicalizeMapAndOperands n.getAffineMap n.getOperands
    some (env.recreateExpr c.1, c.2)

/-- The loop `while (need(map, operands)) composeAffineMapAndOperands(...)` with its
assertions; `none` when the fuel runs out or an assertion fails. -/
def composeLoop (env : Env) (hasRewriter : Bool) :
    Nat → AffineMap → List Value → Option (AffineMap × List Value)
  | 0, _, _ => none
  | fuel + 1, map, operands =>
    if need map operands then
      match composeAffineMapAndOperands env hasRewriter map operands with
      | none => none
      | some (m, ops) =>
        if m.numInputs ≠ ops.length then none
        else composeLoop env hasRewriter fuel m ops
    else some (map, operands)

/-- The value mapping `indexMap` of `fully2ComposeAffineMapAndOperands`: for an operand
defined by an `arith.index_cast`, the first valid symbol among that cast and the other
dominating casts of the same input is recorded for the input. Later entries win. -/
def buildIndexMap (env : Env) : List Value → List (Value × Value)
  | [] => []
  | op :: ops =>
    match op with
    | .opResult _ _ (.mk .indexCast _ (input :: _) _ _ _ _) _ =>
      match (op :: env.otherCasts input).find? affineIsValidSymbol with
      | some idx => buildIndexMap env ops ++ [(input, idx)]
      | none => buildIndexMap env ops
    | _ => buildIndexMap env ops

/-- Lookup `indexMap.lookupOrNull`. -/
def lookupIndexMap (m : List (Value × Value)) (v : Value) : Option Value :=
  (m.find? (fun kv => kv.1.same v)).map (·.2)

/-- The `arith.index_cast` to `index` inserted right after the definition of `v`. -/
def insertedIndexCast (env : Env) (v : Value) : Value :=
  .opResult (env.castId v) .index
    (.mk .indexCast (if isTopLevelValue v then .top else .nested) [v] [] [] [] []) 0

/-- The closing loop of `fully2ComposeAffineMapAndOperands`: an operand that is not
of index type is replaced by a cast of it. -/
def castOperands (env : Env) (indexMap : List (Value × Value)) (operands : List Value) :
    List Value :=
  operands.map (fun op =>
    if op.ty = .index then op
    else
      match lookupIndexMap indexMap op with
      | some v => v
      | none => insertedIndexCast env op)

/-- Source `fully2ComposeAffineMapAndOperands(builder, map, operands, DI)`; `hasBuilder`
tells whether `builder` is non-null. `none` when the loop does not finish within the
fuel or an assertion fails. -/
def fully2ComposeAffineMapAndOperands (env : Env) (hasBuilder : Bool) (fuel : Nat)
    (map : AffineMap) (operands : List Value) : Option (AffineMap × List Value) :=
  if map.numInputs ≠ operands.length then none
  else
    match composeLoop env hasBuilder fuel map operands with
    | none => none
    | some (m, ops) =>
      if hasBuilder then
        some (env.simplifyAffineMap m, castOperands env (buildIndexMap env operands) ops)
      else some (env.simplifyAffineMap m, ops)

/-! ## The condition compiler: `handleMinMax`, `handle` and the worklist -/

/-- Result of `handleMinMax`: the candidates `out` and the flags `min` and `max`. -/
structure MinMax where
  out : List Value
  min : Bool
  max : Bool
deriving Inhabited

/-- The work of `handleMinMax` for one popped value and everything it pushes. The source
keeps a stack: a select `cmp(l, r) ? l : r` pushes `l` then `r`, so `r` and all it pushes
are handled before `l`. `none` is the `return false` of the source. -/
def handleMinMaxFrom : Value → MinMax → Option MinMax
  | .opResult id ty (.mk kind place operands tb eb y1 y2) resNo, st =>
    if isValidIndex (.opResult id ty (.mk kind place operands tb eb y1 y2) resNo) then
      some { st with out := st.out ++ [.opResult id ty (.mk kind place operands tb eb y1 y2) resNo] }
    else
      match kind, operands with
      | .select, cond :: tv :: fv :: _ =>
        (match cond with
          | .opResult _ _ (.mk (.cmpI pred) _ (l :: r :: _) _ _ _ _) _ =>
            if l.same tv && r.same fv then
              if pred = .sle ∨ pred = .slt then
                match handleMinMaxFrom r { st with min := true } with
                | some st1 => handleMinMaxFrom l st1
                | none => none
              else if pred = .sge ∨ pred = .sgt then
                match handleMinMaxFrom r { st with max := true } with
                | some st1 => handleMinMaxFrom l st1
                | none => none
              else none
            else none
          | _ => none)
      | _, _ => none
  | .blockArg id ty owner argNo, st =>
    if isValidIndex (.blockArg id ty owner argNo) then
      some { st with out := st.out ++ [.blockArg id ty owner argNo] }
    else none

/-- Source `handleMinMax(start, out, min, max)` called with empty `out` and both flags
false; `none` when it returns false. -/
def handleMinMax (start : Value) : Option MinMax :=
  match handleMinMaxFrom start ⟨[], false, false⟩ with
  | some r => if r.min && r.max then none else some r
  | none => none

/-- Library function `arith::invertPredicate`. -/
def invertPredicate : CmpIPredicate → CmpIPredicate
  | .eq => .ne | .ne => .eq
  | .slt => .sge | .sle => .sgt | .sgt => .sle | .sge => .slt
  | .ult => .uge | .ule => .ugt | .ugt => .ule | .uge => .ult

/-- Predicate of the comparison with its two sides exchanged, `swapPredicate`. -/
def swapPredicate : CmpIPredicate → CmpIPredicate
  | .eq => .eq | .ne => .ne
  | .slt => .sgt | .sle => .sge | .sgt => .slt | .sge => .sle
  | .ult => .ugt | .ule => .uge | .ugt => .ult | .uge => .ule

/-- The three lists `handle` appends to: constraint expressions, equality flags and the
operands, two per constraint. -/
structure CondState where
  exprs : List AffineExpr
  eqflags : List Bool
  applies : List ValueOrInt
deriving Inhabited

/-- Append one constraint over the operand pair `(a, b)`; `mk` receives the two symbols
`2 * exprs.size()` and `2 * exprs.size() + 1`. -/
def CondState.push (st : CondState) (eq : Bool) (a b : ValueOrInt)
    (mk : AffineExpr → AffineExpr → AffineExpr) : CondState :=
  { exprs := st.exprs ++ [mk (.sym (2 * st.exprs.length)) (.sym (2 * st.exprs.length + 1))]
    eqflags := st.eqflags ++ [eq]
    applies := st.applies ++ [a, b] }

/-- The nested loops of the `sge`/`sgt` case: one inequality `lhs - rhs (- 1) >= 0` per
pair of candidates. -/
def emitGreater (strict : Bool) (lhs rhs : List ValueOrInt) (st : CondState) : CondState :=
  lhs.foldl (fun st1 l =>
    rhs.foldl (fun st2 r =>
      st2.push false l r (fun d0 d1 =>
        if strict then (AffineExpr.sub d0 d1).subConst 1 else AffineExpr.sub d0 d1)) st1) st

/-- The nested loops of the `slt`/`sle` case: one inequality `rhs - lhs (- 1) >= 0` per
pair of candidates. -/
def emitLess (strict : Bool) (lhs rhs : List ValueOrInt) (st : CondState) : CondState :=
  lhs.foldl (fun st1 l =>
    rhs.foldl (fun st2 r =>
      st2.push false l r (fun d0 d1 =>
        if strict then (AffineExpr.sub d1 d0).subConst 1 else AffineExpr.sub d1 d0)) st1) st

/-- The sign test of the `ugt`/`uge` case on one side: every candidate is proved
non-negative by `valueCmp`, or is a negative constant other than the minimum signed
value. -/
def unsignedGreaterSideOk (side : List ValueOrInt) : Bool :=
  side.all (fun p =>
    valueCmpInt .GE p 0 ||
      (match p with
        | .int w i => !isMinSignedValue w i
        | .value _ => false))

/-- The first loop of the `ult`/`ule` case: a constraint `lhs >= 0` for every left
candidate that `valueCmp` does not prove non-negative. -/
def emitLhsNonNeg (lhs : List ValueOrInt) (st : CondState) : CondState :=
  lhs.foldl (fun st1 l =>
    if !valueCmpInt .GE l 0 then st1.push false l l (fun d0 _ => d0) else st1) st

/-- The second proof attempt of the `ne` case for a value: compose the map
`()[s0] -> (s0)` on the value without a rewriter and ask `valueCmp` on the result
(`none` when the composition aborts or runs out of fuel). -/
def composedAtLeastZero (env : Env) (fuel : Nat) (v : Value) : Option Bool :=
  match fully2ComposeAffineMapAndOperands env false fuel ⟨0, 1, [.sym 0]⟩ [v] with
  | none => none
  | some (m, tmp) =>
    match (env.recreateExpr m).results.get? 0 with
    | none => none
    | some e =>
      some (valueCmpExpr (fun c i val => valueCmpAt c tmp i val) (env.recreateExpr m).numDims
        .GE e .zero)

/-- The loop of the `ne` case over the left candidates: `(legal, state)`. -/
def emitNonZero (env : Env) (fuel : Nat) :
    List ValueOrInt → CondState → Option (Bool × CondState)
  | [], st => some (true, st)
  | l :: ls, st =>
    if valueCmpInt .GE l 0 then
      emitNonZero env fuel ls (st.push false l l (fun d0 _ => d0.subConst 1))
    else
      match l with
      | .value v =>
        match composedAtLeastZero env fuel v with
        | none => none
        | some true => emitNonZero env fuel ls (st.push false l l (fun d0 _ => d0.subConst 1))
        | some false => some (false, st)
      | .int _ _ => some (false, st)

/-- The sides and predicate `handle` works on after the inversion for `negated`, the
exchange of the sides when the left one is a single integer constant, and the rewrite
of `a u< 1` and `a u>= 1`. -/
def normalizeCmp (pred : CmpIPredicate) (negated : Bool) (lhs rhs : List ValueOrInt) :
    CmpIPredicate × List ValueOrInt × List ValueOrInt :=
  let p1 := if negated then invertPredicate pred else pred
  let sw : Bool :=
    match lhs with
    | [l] => !l.isValue
    | _ => false
  let l2 := if sw then rhs else lhs
  let r2 := if sw then lhs else rhs
  let p2 := if sw then swapPredicate p1 else p1
  match r2 with
  | [.int w 1] =>
    (match p2 with
      | .ult => (.eq, l2, [.int w 0])
      | .uge => (.ne, l2, [.int w 0])
      | _ => (p2, l2, r2))
  | _ => (p2, l2, r2)

/-- The `switch (pred)` of `handle(CmpIOp)` on the normalized comparison. The flags are
those `handleMinMax` computed for the left and right side of the comparison as written.
The result is `(returned value, lists)`; `none` when the composition of the `ne` case
aborts. -/
def handleSwitch (env : Env) (fuel : Nat) (lhsMin lhsMax rhsMin rhsMax : Bool)
    (pred : CmpIPredicate) (lhs rhs : List ValueOrInt) (st : CondState) :
    Option (Bool × CondState) :=
  match pred with
  | .eq =>
    if lhsMin || lhsMax || rhsMin || rhsMax then some (false, st)
    else
      match lhs, rhs with
      | l :: _, r :: _ => some (true, st.push true l r (fun d0 d1 => AffineExpr.sub d0 d1))
      | _, _ => none
  | .ugt =>
    if !unsignedGreaterSideOk lhs then some (false, st)
    else if !unsignedGreaterSideOk rhs then some (false, st)
    else if lhsMax || rhsMin then some (false, st)
    else some (true, emitGreater true lhs rhs st)
  | .uge =>
    if !unsignedGreaterSideOk lhs then some (false, st)
    else if !unsignedGreaterSideOk rhs then some (false, st)
    else if lhsMax || rhsMin then some (false, st)
    else some (true, emitGreater false lhs rhs st)
  | .sgt =>
    if lhsMax || rhsMin then some (false, st)
    else some (true, emitGreater true lhs rhs st)
  | .sge =>
    if lhsMax || rhsMin then some (false, st)
    else some (true, emitGreater false lhs rhs st)
  | .ult =>
    if !rhs.all (fun r => valueCmpInt .GE r 0) then some (false, emitLhsNonNeg lhs st)
    else if lhsMin || rhsMax then some (false, emitLhsNonNeg lhs st)
    else some (true, emitLess true lhs rhs (emitLhsNonNeg lhs st))
  | .ule =>
    if !rhs.all (fun r => valueCmpInt .GE r 0) then some (false, emitLhsNonNeg lhs st)
    else if lhsMin || rhsMax then some (false, emitLhsNonNeg lhs st)
    else some (true, emitLess false lhs rhs (emitLhsNonNeg lhs st))
  | .slt =>
    if lhsMin || rhsMax then some (false, st)
    else some (true, emitLess true lhs rhs st)
  | .sle =>
    if lhsMin || rhsMax then some (false, st)
    else some (true, emitLess false lhs rhs st)
  | .ne =>
    match rhs with
    | [.int _ 0] => emitNonZero env fuel lhs st
    | _ => some (false, st)

/-- Source `handle(PatternRewriter &, CmpIOp, exprs, eqflags, applies, negated)` for the
comparison `lhsV pred rhsV`: `(returned value, lists)`. -/
def handleCmp (env : Env) (fuel : Nat) (pred : CmpIPredicate) (lhsV rhsV : Value)
    (st : CondState) (negated : Bool) : Option (Bool × CondState) :=
  match handleMinMax lhsV with
  | none => some (false, st)
  | some lm =>
    match handleMinMax rhsV with
    | none => some (false, st)
    | some rm =>
      let n := normalizeCmp pred negated (lm.out.map ValueOrInt.ofValue)
        (rm.out.map ValueOrInt.ofValue)
      handleSwitch env fuel lm.min lm.max rm.min rm.max n.1 n.2.1 n.2.2 st

/-- Matcher `m_One`: an integer constant whose bits are those of 1. -/
def Value.isOne (v : Value) : Bool :=
  match v.constantValue with
  | some c => decide (c % 2 ^ v.ty.width = 1)
  | none => false

/-- Matcher `m_Zero`: an integer constant whose bits are all zero. -/
def Value.isZero (v : Value) : Bool :=
  match v.constantValue with
  | some c => decide (c % 2 ^ v.ty.width = 0)
  | none => false

/-- Source `handle(PatternRewriter &, AffineIfOp, idx, exprs, eqflags, applies, negated)`.
Both `tval` and `fval` are read from the terminator of the then block, as in the
source. `none` when `idx` is not an operand position of that terminator. -/
def handleAffineIf (set : IntegerSet) (operands thenYield : List Value) (idx : Nat)
    (st : CondState) (negated : Bool) : Option (Bool × CondState) :=
  match thenYield.get? idx, thenYield.get? idx with
  | some tval, some fval =>
    if !negated && tval.isOne && fval.isZero then
      some (true,
        { exprs := st.exprs ++
            set.constraints.map (AffineExpr.shiftSymbols set.numSymbols st.applies.length)
          eqflags := st.eqflags ++ set.eqFlags
          applies := st.applies ++ operands.map ValueOrInt.ofValue })
    else some (false, st)
  | _, _ => none

/-- The worklist loop of `MoveIfToAffine::matchAndRewrite` for one polarity: items are
popped at the front and pushed at the back. The result is `(legal, lists)`; `none` when
the fuel runs out or a callee aborts. -/
def compileLoop (env : Env) (fuel : Nat) :
    Nat → List (Value × Bool) → CondState → Option (Bool × CondState)
  | _, [], st => some (true, st)
  | 0, _ :: _, _ => none
  | steps + 1, (cur, negated) :: todo, st =>
    match cur with
    | .opResult _ _ (.mk (.cmpI pred) _ (l :: r :: _) _ _ _ _) _ =>
      (match handleCmp env fuel pred l r st negated with
        | none => none
        | some (true, st1) => compileLoop env fuel steps todo st1
        | some (false, st1) => some (false, st1))
    | .opResult _ _ (.mk .andI _ (a :: b :: _) _ _ _ _) _ =>
      if !negated then compileLoop env fuel steps (todo ++ [(a, negated), (b, negated)]) st
      else some (false, st)
    | .opResult _ _ (.mk .orI _ (a :: b :: _) _ _ _ _) _ =>
      if negated then compileLoop env fuel steps (todo ++ [(a, negated), (b, negated)]) st
      else some (false, st)
    | .opResult _ _ (.mk .xOrI _ (a :: b :: _) _ _ _ _) _ =>
      if b.isOne then compileLoop env fuel steps (todo ++ [(a, !negated)]) st
      else some (false, st)
    | .opResult _ _ (.mk (.affineIf set) _ operands _ _ thenYield _) resNo =>
      (match handleAffineIf set operands thenYield resNo st negated with
        | none => none
        | some (true, st1) => compileLoop env fuel steps todo st1
        | some (false, st1) => some (false, st1))
    | _ => some (false, st)

/-- One attempt of `MoveIfToAffine` on a condition with the given starting polarity. -/
def compileCondition (env : Env) (fuel steps : Nat) (cond : Value) (tryNegate : Bool) :
    Option (Bool × CondState) :=
  compileLoop env fuel steps [(cond, tryNegate)] ⟨[], [], []⟩

/-! ## Meaning of values, comparisons and compiled constraints -/

/-- Run-time integer of a value under an assignment of integers to value identities; a
constant denotes itself. -/
def Value.denote (ρ : Nat → Int) (v : Value) : Int :=
  match v.constantValue with
  | some c => c
  | none => ρ v.id

/-- Run-time integer of a `ValueOrInt`. -/
def ValueOrInt.denote (ρ : Nat → Int) : ValueOrInt → Int
  | .value v => ρ v.id
  | .int _ i => i

/-- Unsigned reading of a `w`-bit two's-complement integer. -/
def toUnsigned (w : Nat) (x : Int) : Int := x % 2 ^ w

/-- Truth of `a pred b` on `w`-bit integers given by their signed values. -/
def evalCmp (w : Nat) (pred : CmpIPredicate) (a b : Int) : Bool :=
  match pred with
  | .eq => decide (a = b)
  | .ne => decide (a ≠ b)
  | .slt => decide (a < b)
  | .sle => decide (a ≤ b)
  | .sgt => decide (b < a)
  | .sge => decide (b ≤ a)
  | .ult => decide (toUnsigned w a < toUnsigned w b)
  | .ule => decide (toUnsigned w a ≤ toUnsigned w b)
  | .ugt => decide (toUnsigned w b < toUnsigned w a)
  | .uge => decide (toUnsigned w b ≤ toUnsigned w a)

/-- One constraint holds: `e == 0` for an equality flag, `e >= 0` otherwise. -/
def constraintHolds (syms : List Int) (e : AffineExpr) (eq : Bool) : Bool :=
  if eq then decide (e.eval [] syms = 0) else decide (0 ≤ e.eval [] syms)

/-- All constraints of paired lists hold. -/
def constraintsHold (syms : List Int) : List AffineExpr → List Bool → Bool
  | e :: es, f :: fs => constraintHolds syms e f && constraintsHold syms es fs
  | _, _ => true

/-- The integer set `MoveIfToAffine` builds from the lists (no dims, the operands as
symbols) is satisfied under the assignment. -/
def CondState.satisfied (ρ : Nat → Int) (st : CondState) : Bool :=
  constraintsHold (st.applies.map (ValueOrInt.denote ρ)) st.exprs st.eqflags

/-- Signed maximum or minimum of the candidates of a min/max select (`max` when the flag
is set); the single candidate when there is one. -/
def candidatesValue (ρ : Nat → Int) (isMax : Bool) : List ValueOrInt → Int
  | [] => 0
  | [a] => a.denote ρ
  | a :: as => if isMax then max (a.denote ρ) (candidatesValue ρ isMax as)
      else min (a.denote ρ) (candidatesValue ρ isMax as)

/-! ## Reference forms of the compiled constraints -/

/-- The inequality the specification gives for a signed comparison over the symbols
`d0` (left operand) and `d1` (right operand): `d0 - d1 >= 0` for `sge`,
`d0 - d1 - 1 >= 0` for `sgt`, `d1 - d0 >= 0` for `sle`, `d1 - d0 - 1 >= 0` for `slt`. -/
def signedConstraint (pred : CmpIPredicate) (d0 d1 : AffineExpr) : AffineExpr :=
  match pred with
  | .sge => AffineExpr.sub d0 d1
  | .sgt => (AffineExpr.sub d0 d1).subConst 1
  | .sle => AffineExpr.sub d1 d0
  | .slt => (AffineExpr.sub d1 d0).subConst 1
  | _ => d0

/-- The integer that must be non-negative for a signed comparison of `l` and `r`. -/
def signedSlack (pred : CmpIPredicate) (l r : Int) : Int :=
  match pred with
  | .sge => l - r
  | .sgt => l - r - 1
  | .sle => r - l
  | .slt => r - l - 1
  | _ => 0

/-! ## Concrete IR for the examples -/

/-- Collaborators that change nothing: `fix` is never reached in the examples, and the
maps of the examples are already canonical and simplified. -/
def exampleEnv : Env :=
  { fix := fun _ _ _ => none
    canonicalizeMapAndOperands := fun m ops => (m, ops)
    recreateExpr := fun m => m
    simplifyAffineMap := fun m => m
    otherCasts := fun _ => []
    castId := fun v => v.id + 1000 }

/-- An `arith.constant`. -/
def mkConstant (id : Nat) (ty : Ty) (c : Int) (place : Place) : Value :=
  .opResult id ty (.mk (.constant c) place [] [] [] [] []) 0

/-- Induction variable of an `affine.for` from the constant `lb` to the constant `ub`. -/
def inductionVar (id : Nat) (lb ub : Int) : Value :=
  .blockArg id .index (.affineFor ⟨0, 0, [.const lb]⟩ [] ⟨0, 0, [.const ub]⟩ []) 0

/-- An `arith.cmpi` inside a loop body. -/
def cmpValue (id : Nat) (pred : CmpIPredicate) (a b : Value) : Value :=
  .opResult id (.int 1) (.mk (.cmpI pred) .nested [a, b] [] [] [] []) 0

/-- An `arith.select` of index type inside a loop body. -/
def selectValue (id : Nat) (cond a b : Value) : Value :=
  .opResult id .index (.mk .select .nested [cond, a, b] [] [] [] []) 0

/-- The idiom `max(a, b)`: `select (a sgt b), a, b`. -/
def maxSelect (id : Nat) (a b : Value) : Value :=
  selectValue id (cmpValue (id + 1) .sgt a b) a b

/-- The idiom `min(a, b)`: `select (a slt b), a, b`. -/
def minSelect (id : Nat) (a b : Value) : Value :=
  selectValue id (cmpValue (id + 1) .slt a b) a b

/-- Loop variable `i` of the scenarios, ranging over `[0, 10)`. -/
def scenarioI : Value := inductionVar 1 0 10

/-- Loop variable `j` of the scenarios, ranging over `[0, 10)`. -/
def scenarioJ : Value := inductionVar 2 0 10

/-- A function argument `k` of index type. -/
def scenarioK : Value := .blockArg 3 .index .func 0

/-- The operand `affine.apply (d)[s] -> (d + s) (j)[k]` of the scenario. -/
def scenarioApply : Value :=
  .opResult 4 .index
    (.mk (.affineApply ⟨1, 1, [.add (.dim 0) (.sym 0)]⟩) .nested [scenarioJ, scenarioK]
      [] [] [] []) 0

/-- The map `(d0)[s0] -> (d0 + s0)` of the scenario. -/
def scenarioMap : AffineMap := ⟨1, 1, [.add (.dim 0) (.sym 0)]⟩

/-- Loop variable ranging over `[-5, 10)`. -/
def signedVarA : Value := inductionVar 5 (-5) 10

/-- A second loop variable ranging over `[-5, 10)`. -/
def signedVarB : Value := inductionVar 6 (-5) 10

/-- The constant `5 : i32` inside a loop body. -/
def nestedConstant32 : Value := mkConstant 7 (.int 32) 5 .nested

/-- Result of a `func.call` standing at the given place. -/
def callResult (id : Nat) (place : Place) : Value :=
  .opResult id .index (.mk (.other "func.call") place [] [] [] [] []) 0

/-- Result of the dependence test `checkMemrefAccessDependence`. -/
inductive DependenceResult where
  | NoDependence
  | HasDependence
  | Failure
deriving DecidableEq, Repr, Inhabited

/-- A memref value as `isLocallyDefined` looks at it: a block argument, or the result of
an operation, which may have the single effect of allocating the value, may lie inside
the loop under analysis (the loop is a proper ancestor of it), and may be a view of
another memref (`ViewLikeOpInterface`). -/
inductive MemRefValue where
  | blockArg (id : Nat)
  | result (id : Nat) (allocates insideLoop : Bool)
  | view (id : Nat) (allocates insideLoop : Bool) (source : MemRefValue)
deriving DecidableEq, Repr, Inhabited

/-- Identity of a memref value. -/
def MemRefValue.id : MemRefValue → Nat
  | .blockArg id => id
  | .result id _ _ => id
  | .view id _ _ _ => id

/-- Source `isLocallyDefined(v, enclosingOp)` for the loop under analysis. -/
def isLocallyDefined : MemRefValue → Bool
  | .blockArg _ => false
  | .result _ allocates insideLoop => allocates && insideLoop
  | .view _ allocates insideLoop source =>
    (allocates && insideLoop) || isLocallyDefined source

/-- How the walks of the legality analysis classify an operation. -/
inductive LoopOpKind where
  | affineRead
  | affineWrite
  | affineFor
  | affineYield
  | affineIf
  | other
deriving DecidableEq, Repr, Inhabited

/-- An operation met by `forOp.walk`. `memref` and `indices` are the accessed memref and
the access function over the loop variables (for reads and writes); `allocOnly`,
`memoryEffectFree` and `readNone` are the answers of
`hasSingleEffect<MemoryEffects::Allocate>`, `isMemoryEffectFree` and `isReadNone`;
`parentFor` is the identity of `getParentOfType<AffineForOp>()`; `ancestors` lists, from
the block at the affine scope inwards, each block that contains the operation together
with the position in it of the operation or of its ancestor. -/
structure LoopOp where
  id : Nat
  kind : LoopOpKind
  memref : MemRefValue
  indices : List AffineExpr
  allocOnly : Bool
  memoryEffectFree : Bool
  readNone : Bool
  parentFor : Nat
  ancestors : List (Nat × Nat)
deriving DecidableEq, Repr, Inhabited

/-- A parent operation as `getNestingDepth` counts it. -/
inductive EnclosingOp where
  | affineFor
  | affineParallel (numDims : Nat)
  | otherOp
deriving DecidableEq, Repr, Inhabited

/-- An `affine.for` as the legality analysis reads it: for each result type whether it
is a memref type, the number of iter operands, the chain of parent operations from the
nearest one outwards, and the operations `forOp.walk` visits, in order. -/
structure AffineForLoop where
  id : Nat
  resultIsMemRef : List Bool
  numIterOperands : Nat
  parents : List EnclosingOp
  walk : List LoopOp
deriving Repr, Inhabited

/-- Source `getNestingDepth`, on the chain of parent operations. -/
def getNestingDepth : List EnclosingOp → Nat
  | [] => 0
  | .affineFor :: ps => getNestingDepth ps + 1
  | .affineParallel n :: ps => getNestingDepth ps + n
  | .otherOp :: ps => getNestingDepth ps

/-- The dependence test `checkMemrefAccessDependence(src, dst, depth)` of MLIR, a
collaborator of the analysis. -/
abbrev DependenceOracle := LoopOp → LoopOp → Nat → DependenceResult

/-- The walk callback of `isLoopMemoryParallel` from the given operation on: the
collected loads and stores, or `none` when the walk is interrupted. -/
def collectParallel : List LoopOp → Option (List LoopOp)
  | [] => some []
  | op :: ops =>
    match op.kind with
    | .affineRead =>
      (collectParallel ops).map (fun r => if !isLocallyDefined op.memref then op :: r else r)
    | .affineWrite =>
      (collectParallel ops).map (fun r => if !isLocallyDefined op.memref then op :: r else r)
    | .affineFor => collectParallel ops
    | .affineYield => collectParallel ops
    | .affineIf => collectParallel ops
    | .other =>
      if !op.allocOnly && !op.memoryEffectFree then none else collectParallel ops

/-- The inner loop of `isLoopMemoryParallel` over `dstOp`. -/
def noDependenceFrom (oracle : DependenceOracle) (depth : Nat) (src : LoopOp) :
    List LoopOp → Bool
  | [] => true
  | dst :: ds =>
    if oracle src dst depth ≠ .NoDependence then false
    else noDependenceFrom oracle depth src ds

/-- The outer loop of `isLoopMemoryParallel` over `srcOp`. -/
def noDependenceAmong (oracle : DependenceOracle) (depth : Nat) (all : List LoopOp) :
    List LoopOp → Bool
  | [] => true
  | src :: ss =>
    if !noDependenceFrom oracle depth src all then false
    else noDependenceAmong oracle depth all ss

/-- Source `isLoopMemoryParallel`. -/
def isLoopMemoryParallel (oracle : DependenceOracle) (forOp : AffineForLoop) : Bool :=
  if forOp.resultIsMemRef.any id then false
  else
    match collectParallel forOp.walk with
    | none => false
    | some loadAndStoreOps =>
      noDependenceAmong oracle (getNestingDepth forOp.parents + 1) loadAndStoreOps
        loadAndStoreOps

/-- Descriptor of a recognized reduction (`LoopReduction` of MLIR): the position of the
iter argument it reduces. -/
structure LoopReduction where
  iterArgPosition : Nat
deriving DecidableEq, Repr, Inhabited

/-- Source `isLoopParallel(forOp, parallelReductions)`. `parallelReductions` is `none`
for a null pointer, else the contents of the vector at the call; `supported` is what
`getSupportedReductions` appends to it for this loop. -/
def isLoopParallel (oracle : DependenceOracle) (supported : List LoopReduction)
    (forOp : AffineForLoop) (parallelReductions : Option (List LoopReduction)) : Bool :=
  if 0 < forOp.numIterOperands ∧ parallelReductions.isNone then false
  else
    match parallelReductions with
    | some given =>
      if (given ++ supported).length ≠ forOp.numIterOperands then false
      else isLoopMemoryParallel oracle forOp
    | none => isLoopMemoryParallel oracle forOp

/-- Sources `getCommonBlockInAffineScope` and `srcAppearsBeforeDstInAncestralBlock` on the
two chains of ancestor blocks: in the innermost block common to both chains, the position
of the source ancestor is before that of the destination ancestor. `none` when the chains
have no common block (the assertion of the source). -/
def srcAppearsBeforeDstInAncestralBlock : List (Nat × Nat) → List (Nat × Nat) → Option Bool
  | (b1, p1) :: r1, (b2, p2) :: r2 =>
    if b1 ≠ b2 then none
    else
      match srcAppearsBeforeDstInAncestralBlock r1 r2 with
      | some b => some b
      | none => some (decide (p1 < p2))
  | _, _ => none

/-- Kinds of dependence. -/
inductive DepType where
  | RAW
  | WAR
  | RAR
  | WAW
deriving DecidableEq, Repr, Inhabited

/-- Test `isa<AffineWriteOpInterface>`. -/
def LoopOp.isWrite (op : LoopOp) : Bool := decide (op.kind = .affineWrite)

/-- Source `getDepType`. -/
def getDepType (src dst : LoopOp) : DepType :=
  if src.isWrite && dst.isWrite then .WAW
  else if src.isWrite && !dst.isWrite then .RAW
  else if !src.isWrite && dst.isWrite then .WAR
  else .RAR

/-- The walk callback of `isLoopMemoryLockStepExecutable` from the given operation on. -/
def collectLockStep : List LoopOp → Option (List LoopOp)
  | [] => some []
  | op :: ops =>
    match op.kind with
    | .affineRead =>
      (collectLockStep ops).map (fun r => if !isLocallyDefined op.memref then op :: r else r)
    | .affineWrite =>
      (collectLockStep ops).map (fun r => if !isLocallyDefined op.memref then op :: r else r)
    | .affineFor => collectLockStep ops
    | .affineYield => collectLockStep ops
    | .affineIf => collectLockStep ops
    | .other => if !op.readNone then none else collectLockStep ops

/-- The body of the inner loop of `isLoopMemoryLockStepExecutable` for one ordered pair:
`some false` when the function returns false there, `some true` when the loops go on,
`none` when the assertion on the common block fails. -/
def lockStepPair (oracle : DependenceOracle) (forId depth : Nat) (src dst : LoopOp) :
    Option Bool :=
  if oracle src dst depth = .Failure then some false
  else if dst.parentFor ≠ forId ∨ src.parentFor ≠ forId then some false
  else if src.id = dst.id ∧ oracle src dst depth = .HasDependence then some false
  else
    match srcAppearsBeforeDstInAncestralBlock src.ancestors dst.ancestors with
    | none => none
    | some true => some true
    | some false =>
      if oracle src dst depth = .HasDependence then
        match getDepType src dst with
        | .WAR => some true
        | .RAR => some true
        | .WAW => some false
        | .RAW => some false
      else some true

/-- The inner loop of `isLoopMemoryLockStepExecutable` over `dstOp`. -/
def lockStepFrom (oracle : DependenceOracle) (forId depth : Nat) (src : LoopOp) :
    List LoopOp → Option Bool
  | [] => some true
  | dst :: ds =>
    match lockStepPair oracle forId depth src dst with
    | none => none
    | some false => some false
    | some true => lockStepFrom oracle forId depth src ds

/-- The outer loop of `isLoopMemoryLockStepExecutable` over `srcOp`. -/
def lockStepAmong (oracle : DependenceOracle) (forId depth : Nat) (all : List LoopOp) :
    List LoopOp → Option Bool
  | [] => some true
  | src :: ss =>
    match lockStepFrom oracle forId depth src all with
    | none => none
    | some false => some false
    | some true => lockStepAmong oracle forId depth all ss

/-- Source `isLoopMemoryLockStepExecutable`; `none` when an assertion fails. -/
def isLoopMemoryLockStepExecutable (oracle : DependenceOracle) (forOp : AffineForLoop) :
    Option Bool :=
  if forOp.resultIsMemRef.any id then some false
  else
    match collectLockStep forOp.walk with
    | none => some false
    | some loadAndStoreOps =>
      lockStepAmong oracle forOp.id (getNestingDepth forOp.parents + 1) loadAndStoreOps
        loadAndStoreOps

/-- Source `isLoopLockStepExecutable(forOp, parallelReductions)`; `hasReductions` tells
whether the pointer `parallelReductions` is non-null. -/
def isLoopLockStepExecutable (oracle : DependenceOracle) (forOp : AffineForLoop)
    (hasReductions : Bool) : Option Bool :=
  if 0 < forOp.numIterOperands ∧ hasReductions = false then some false
  else isLoopMemoryLockStepExecutable oracle forOp

/-! ## Reference predicates for the legality analysis -/

/-- An operation the walks collect: an affine read or write of a memref that is not
allocated inside the loop. -/
def LoopOp.isCollected (op : LoopOp) : Bool :=
  (decide (op.kind = .affineRead) || decide (op.kind = .affineWrite)) &&
    !isLocallyDefined op.memref

/-- An operation with unmodelled memory effects for the parallel analysis: not an affine
read, write, `for`, `yield` or `if`, not allocation-only and not memory-effect free. -/
def LoopOp.unmodelledEffect (op : LoopOp) : Bool :=
  decide (op.kind = .other) && !op.allocOnly && !op.memoryEffectFree

/-- An operation that interrupts the walk of the lock-step analysis: not an affine read,
write, `for`, `yield` or `if`, and not `isReadNone`. -/
def LoopOp.notReadNone (op : LoopOp) : Bool :=
  decide (op.kind = .other) && !op.readNone

/-- The conditions under which one ordered pair of accesses disqualifies a loop from
lock-step execution: the oracle fails; an access whose nearest enclosing `affine.for` is
not the loop; a dependence of an access on itself; or a RAW or WAW dependence whose source
does not appear before its destination. -/
def lockStepDisqualifies (oracle : DependenceOracle) (forId depth : Nat)
    (src dst : LoopOp) : Bool :=
  decide (oracle src dst depth = .Failure) ||
    decide (src.parentFor ≠ forId) || decide (dst.parentFor ≠ forId) ||
    (decide (src.id = dst.id) && decide (oracle src dst depth = .HasDependence)) ||
    (decide (srcAppearsBeforeDstInAncestralBlock src.ancestors dst.ancestors = some false) &&
      decide (oracle src dst depth = .HasDependence) &&
      (decide (getDepType src dst = .RAW) || decide (getDepType src dst = .WAW)))

/-! ## The legality analysis in the words of the specification -/

/-- The memref and the memrefs it is a view of, from the value itself outwards. -/
def MemRefValue.viewChain : MemRefValue → List MemRefValue
  | .blockArg id => [.blockArg id]
  | .result id allocates insideLoop => [.result id allocates insideLoop]
  | .view id allocates insideLoop source =>
    .view id allocates insideLoop source :: source.viewChain

/-- The value is the result of an operation that allocates it and lies inside the loop. -/
def MemRefValue.allocatedHere : MemRefValue → Bool
  | .blockArg _ => false
  | .result _ allocates insideLoop => allocates && insideLoop
  | .view _ allocates insideLoop _ => allocates && insideLoop

/-- A memref allocated inside the loop: the memref itself, or a memref it is a view of,
is allocated by an operation inside the loop. -/
def MemRefValue.allocatedInside (v : MemRefValue) : Bool :=
  v.viewChain.any MemRefValue.allocatedHere

/-- The enclosing affine nesting depth: the number of loop dimensions around an operation
with the given parents, one for an `affine.for` and the number of its dims for an
`affine.parallel`. -/
def enclosingLoopDims (parents : List EnclosingOp) : Nat :=
  (parents.map (fun p =>
    match p with
    | .affineFor => 1
    | .affineParallel n => n
    | .otherOp => 0)).sum

/-- A collected access: an affine read or write of a memref that is not allocated inside
the loop. -/
def LoopOp.isOutsideAccess (op : LoopOp) : Bool :=
  (decide (op.kind = .affineRead) || decide (op.kind = .affineWrite)) &&
    !op.memref.allocatedInside

/-- The collected accesses of a loop, in the order of the walk. -/
def AffineForLoop.accesses (forOp : AffineForLoop) : List LoopOp :=
  forOp.walk.filter LoopOp.isOutsideAccess

/-- The blocks two chains of ancestors have in common, from the affine scope inwards, each
as the pair of the positions the two chains have in it. -/
def commonBlocks (a b : List (Nat × Nat)) : List (Nat × Nat) :=
  ((a.zip b).takeWhile (fun p => p.1.1 == p.2.1)).map (fun p => (p.1.2, p.2.2))

/-- The source appears before the destination in their innermost common block; `none`
when the chains have no common block. -/
def appearsBefore (a b : List (Nat × Nat)) : Option Bool :=
  (commonBlocks a b).getLast?.map (fun p => decide (p.1 < p.2))

/-- The kind of a dependence from `src` to `dst`: a write followed by a write is WAW, a
write followed by a read RAW, a read followed by a write WAR, two reads RAR. -/
def dependenceKind (src dst : LoopOp) : DepType :=
  match decide (src.kind = .affineWrite), decide (dst.kind = .affineWrite) with
  | true, true => .WAW
  | true, false => .RAW
  | false, true => .WAR
  | false, false => .RAR

/-- The conditions under which one ordered pair of accesses rules out lock-step
execution of loop `forId`: the oracle fails; the nearest enclosing `affine.for` of one of
the two is another loop; the pair is an access with itself and the oracle reports a
dependence; or the source does not appear before the destination in their common block,
the oracle reports a dependence and its kind is RAW or WAW. -/
def pairDisqualifies (oracle : DependenceOracle) (forId depth : Nat) (src dst : LoopOp) :
    Bool :=
  decide (oracle src dst depth = .Failure) ||
    decide (src.parentFor ≠ forId) || decide (dst.parentFor ≠ forId) ||
    (decide (src.id = dst.id) && decide (oracle src dst depth = .HasDependence)) ||
    (decide (appearsBefore src.ancestors dst.ancestors = some false) &&
      decide (oracle src dst depth = .HasDependence) &&
      (decide (dependenceKind src dst = .RAW) || decide (dependenceKind src dst = .WAW)))

/-! ## An exact dependence test for one loop -/

/-- Source iteration `iS` and destination iteration `iD` of a loop touch the same
element: same memref and equal values of the access functions (the loop variable is
dimension 0). -/
def sameElement (iS iD : Int) (src dst : LoopOp) : Bool :=
  decide (src.memref.id = dst.memref.id) &&
    decide (src.indices.map (AffineExpr.eval [iS] []) =
      dst.indices.map (AffineExpr.eval [iD] []))

/-- Dependence from `src` to `dst` carried by an `affine.for` over `[lb, ub)` with step 1
whose body holds both accesses: one of the two writes, and an iteration of `src` touches
the element that a strictly later iteration of `dst` touches. -/
def dependsInLoop (lb ub : Int) (src dst : LoopOp) : Bool :=
  (src.isWrite || dst.isWrite) &&
    (List.range (ub - lb).toNat).any (fun a =>
      (List.range (ub - lb).toNat).any (fun b =>
        decide (a < b) && sameElement (lb + a) (lb + b) src dst))

/-- The answer `checkMemrefAccessDependence` gives at depth 1 for two accesses in the body
of one outermost `affine.for` over `[lb, ub)` when it is exact, as MLIR documents the
test (at the depth of a common loop the source iteration precedes the destination
iteration in that loop; two reads never depend). Other depths are not modelled. -/
def exactOracle (lb ub : Int) : DependenceOracle := fun src dst depth =>
  if depth = 1 then
    if dependsInLoop lb ub src dst then .HasDependence else .NoDependence
  else .Failure

/-! ## Concrete loops for the examples -/

/-- The array `a` of the example loops, a function argument. -/
def arrayA : MemRefValue := .blockArg 90

/-- An access to `a` at the given index, at position `pos` of the body of loop 100. -/
def accessOp (id : Nat) (kind : LoopOpKind) (index : AffineExpr) (pos : Nat) : LoopOp :=
  { id := id, kind := kind, memref := arrayA, indices := [index], allocOnly := false,
    memoryEffectFree := false, readNone := false, parentFor := 100,
    ancestors := [(0, 0), (1, pos)] }

/-- A pure arithmetic operation at position `pos` of the body of loop 100. -/
def pureOp (id pos : Nat) : LoopOp :=
  { id := id, kind := .other, memref := arrayA, indices := [], allocOnly := false,
    memoryEffectFree := true, readNone := true, parentFor := 100,
    ancestors := [(0, 0), (1, pos)] }

/-- The terminator of the body of loop 100. -/
def yieldOp (id pos : Nat) : LoopOp :=
  { id := id, kind := .affineYield, memref := arrayA, indices := [], allocOnly := false,
    memoryEffectFree := true, readNone := true, parentFor := 100,
    ancestors := [(0, 0), (1, pos)] }

/-- Loop 100 itself, which its own walk visits last. -/
def selfOp : LoopOp :=
  { id := 100, kind := .affineFor, memref := arrayA, indices := [], allocOnly := false,
    memoryEffectFree := false, readNone := false, parentFor := 0, ancestors := [(0, 0)] }

/-- An outermost `affine.for` without iter args and results whose body is a load, a pure
operation and a store. -/
def loadComputeStore (load store : LoopOp) : AffineForLoop :=
  { id := 100, resultIsMemRef := [], numIterOperands := 0, parents := [.otherOp],
    walk := [load, pureOp 102 1, store, yieldOp 104 3, selfOp] }

/-- The loop `a[i] = a[i] + 1`: load of `a[i]`, add, store to `a[i]`. Also the loop
`tmp = a[i]; a[i] = tmp * 2`, whose accesses are the same. -/
def loopSameElement : AffineForLoop :=
  loadComputeStore (accessOp 101 .affineRead (.dim 0) 0) (accessOp 103 .affineWrite (.dim 0) 2)

/-- The loop `a[i] = a[i + 1]`: load of `a[i + 1]`, then store to `a[i]`. -/
def loopReadAhead : AffineForLoop :=
  loadComputeStore (accessOp 101 .affineRead (.add (.dim 0) (.const 1)) 0)
    (accessOp 103 .affineWrite (.dim 0) 2)

/-- The loop `a[i] = a[i - 1]`: load of `a[i - 1]`, then store to `a[i]`. -/
def loopReadBehind : AffineForLoop :=
  loadComputeStore (accessOp 101 .affineRead (.add (.dim 0) (.const (-1))) 0)
    (accessOp 103 .affineWrite (.dim 0) 2)

/-- The loop `a[i] = x; y = a[i + 1]`: store to `a[i]`, then load of `a[i + 1]`. -/
def loopStoreThenReadAhead : AffineForLoop :=
  loadComputeStore (accessOp 101 .affineWrite (.dim 0) 0)
    (accessOp 103 .affineRead (.add (.dim 0) (.const 1)) 2)

/-- The loop `a[i - 1] = x; a[i] = y`: two stores, the later one to the element the
earlier one writes in the next iteration. -/
def loopTwoStores : AffineForLoop :=
  loadComputeStore (accessOp 101 .affineWrite (.add (.dim 0) (.const (-1))) 0)
    (accessOp 103 .affineWrite (.dim 0) 2)

/-- The loop `x = a[i]; y = a[i + 1]`: two loads. -/
def loopTwoLoads : AffineForLoop :=
  loadComputeStore (accessOp 101 .affineRead (.dim 0) 0)
    (accessOp 103 .affineRead (.add (.dim 0) (.const 1)) 2)

/-- A dependence test that reports a dependence between every two different accesses and
none of an access on itself. -/
def distinctOracle : DependenceOracle := fun src dst _ =>
  if src.id = dst.id then .NoDependence else .HasDependence

/-- The exact test of `exactOracle` for a loop at depth `d` whose accesses are indexed by
its own variable only: it answers at depth `d` and fails at every other depth. -/
def exactOracleAt (d : Nat) (lb ub : Int) : DependenceOracle := fun src dst depth =>
  if depth = d then
    if dependsInLoop lb ub src dst then .HasDependence else .NoDependence
  else .Failure

/-- A scratch buffer allocated by a `memref.alloca` in the body of loop 200. -/
def scratchBuffer : MemRefValue := .result 91 true true

/-- A `memref.subview` of the scratch buffer, taken in the body of loop 200. -/
def scratchView : MemRefValue := .view 92 false true scratchBuffer

/-- An operation at position `pos` of the body of loop 200. -/
def nestedOp (id : Nat) (kind : LoopOpKind) (memref : MemRefValue) (indices : List AffineExpr)
    (allocOnly pure : Bool) (pos : Nat) : LoopOp :=
  { id := id, kind := kind, memref := memref, indices := indices, allocOnly := allocOnly,
    memoryEffectFree := pure, readNone := pure, parentFor := 200,
    ancestors := [(0, 0), (1, 0), (2, 0), (3, pos)] }

/-- Loop 200, nested in an `affine.for` inside an `affine.parallel` over two dims:
`%t = alloca; %v = subview %t; x = a[i]; %t[0] = x; %v[0] = x; a[i] = x`, with `i` its
own variable. Every iteration writes element 0 of its scratch buffer, directly and
through the view. -/
def nestedLoopWithScratch : AffineForLoop :=
  { id := 200, resultIsMemRef := [], numIterOperands := 0,
    parents := [.affineFor, .affineParallel 2, .otherOp],
    walk := [nestedOp 201 .other arrayA [] true false 0,
      nestedOp 202 .other arrayA [] false true 1,
      nestedOp 203 .affineRead arrayA [.dim 0] false false 2,
      nestedOp 204 .affineWrite scratchBuffer [.const 0] false false 3,
      nestedOp 205 .affineWrite scratchView [.const 0] false false 4,
      nestedOp 206 .affineWrite arrayA [.dim 0] false false 5,
      nestedOp 207 .affineYield arrayA [] false true 6,
      { id := 200, kind := .affineFor, memref := arrayA, indices := [], allocOnly := false,
        memoryEffectFree := false, readNone := false, parentFor := 199,
        ancestors := [(0, 0), (1, 0), (2, 0)] }] }

/-! ## Concrete IR for the range, affine.if and valid-index examples -/

/-- The iter argument `%acc` (argument number 1) of
`affine.for %i = max (0, 5) to min (10, 20) iter_args(%acc = %init)`. -/
def iterArgAcc : Value :=
  .blockArg 80 .index
    (.affineFor ⟨0, 0, [.const 0, .const 5]⟩ [] ⟨0, 0, [.const 10, .const 20]⟩ []) 1

/-- An `affine.if` on the set `(s0 >= 0)` over `[k]` with one `i1` result, whose then
block yields the constant `t` and whose else block yields the constant `f`. -/
def affineIfValue (t f : Int) : Value :=
  .opResult 85 (.int 1)
    (.mk (.affineIf ⟨0, 1, [.sym 0], [false]⟩) .nested [scenarioK] [] []
      [mkConstant 86 (.int 1) t .nested] [mkConstant 87 (.int 1) f .nested]) 0

/-- A binary arithmetic operation inside a loop body. -/
def binaryOp (id : Nat) (ty : Ty) (kind : OpKind) (a b : Value) : Value :=
  .opResult id ty (.mk kind .nested [a, b] [] [] [] []) 0

/-! ## Meaning of an `i1` condition and of the worklist -/

/-- Truth of an `i1` value, read as its lowest bit: `arith.andi`, `arith.ori` and
`arith.xori` act bitwise and a constant gives its own bit; for any other value the
truth is given by `truth`. -/
def evalCond (truth : Value → Bool) : Value → Bool
  | .blockArg id ty owner argNo => truth (.blockArg id ty owner argNo)
  | .opResult id ty (.mk kind place operands tb eb y1 y2) resNo =>
    match kind, operands with
    | .andI, a :: b :: _ => evalCond truth a && evalCond truth b
    | .orI, a :: b :: _ => evalCond truth a || evalCond truth b
    | .xOrI, a :: b :: _ => xor (evalCond truth a) (evalCond truth b)
    | .constant c, _ => decide (c % 2 = 1)
    | _, _ => truth (.opResult id ty (.mk kind place operands tb eb y1 y2) resNo)

/-- The values the worklist can reach below a condition without passing a comparison:
through both operands of `and` and `or`, and through operand 0 of `xor`. -/
def condLeaves : Value → List Value
  | .blockArg id ty owner argNo => [.blockArg id ty owner argNo]
  | .opResult id ty (.mk kind place operands tb eb y1 y2) resNo =>
    match kind, operands with
    | .andI, a :: b :: _ => condLeaves a ++ condLeaves b
    | .orI, a :: b :: _ => condLeaves a ++ condLeaves b
    | .xOrI, a :: _ :: _ => condLeaves a
    | _, _ => [.opResult id ty (.mk kind place operands tb eb y1 y2) resNo]

/-- The two `handle` calls of the worklist, on a comparison and on an `affine.if`
result; any other value is not handled. -/
def handleLeaf (env : Env) (fuel : Nat) (leaf : Value) (st : CondState) (negated : Bool) :
    Option (Bool × CondState) :=
  match leaf with
  | .opResult _ _ (.mk (.cmpI pred) _ (l :: r :: _) _ _ _ _) _ =>
    handleCmp env fuel pred l r st negated
  | .opResult _ _ (.mk (.affineIf set) _ operands _ _ thenYield _) resNo =>
    handleAffineIf set operands thenYield resNo st negated
  | _ => some (false, st)

/-- A leaf is compiled soundly: whenever its `handle` call succeeds from lists that
satisfy the invariant `inv`, the new lists satisfy `inv` and are satisfied exactly when
the old ones are and the leaf has the truth value the polarity asks for. -/
def LeafSound (env : Env) (fuel : Nat) (ρ : Nat → Int) (truth : Value → Bool)
    (inv : CondState → Prop) (leaf : Value) : Prop :=
  ∀ (st : CondState) (negated : Bool) (st1 : CondState), inv st →
    handleLeaf env fuel leaf st negated = some (true, st1) →
    inv st1 ∧ st1.satisfied ρ = (st.satisfied ρ && (truth leaf != negated))

/-- Whether the worklist has a case for the defining operation: `arith.cmpi`,
`arith.andi`, `arith.ori`, `arith.xori` or `affine.if`. -/
def isCondNode : Option OpKind → Bool
  | some (.cmpI _) => true
  | some .andI => true
  | some .orI => true
  | some .xOrI => true
  | some (.affineIf _) => true
  | _ => false

/-- What the items of a worklist ask for together: each value has the truth value
opposite to its `negated` flag. -/
def todoTruth (truth : Value → Bool) (todo : List (Value × Bool)) : Bool :=
  todo.all (fun item => evalCond truth item.1 != item.2)

/-- One more than the largest symbol position of an expression (0 without symbols). -/
def AffineExpr.symBound : AffineExpr → Nat
  | .const _ => 0
  | .dim _ => 0
  | .sym i => i + 1
  | .add l r => max l.symBound r.symBound
  | .mul l r => max l.symBound r.symBound
  | .floorDiv l r => max l.symBound r.symBound
  | .ceilDiv l r => max l.symBound r.symBound
  | .mod l r => max l.symBound r.symBound

/-- Shape of the lists between two `handle` calls on comparisons: one flag and two
operands per constraint, and every constraint over operands already present. -/
def CondState.wellFormed (st : CondState) : Prop :=
  st.eqflags.length = st.exprs.length ∧ st.applies.length = 2 * st.exprs.length ∧
    ∀ e ∈ st.exprs, e.symBound ≤ st.applies.length

/-- Truth of a comparison leaf under an assignment: `arith.cmpi` on the run-time values
of its operands. -/
def cmpTruth (ρ : Nat → Int) : Value → Bool
  | .opResult _ _ (.mk (.cmpI pred) _ (l :: r :: _) _ _ _ _) _ =>
    evalCmp l.ty.width pred (l.denote ρ) (r.denote ρ)
  | _ => false

/-- The constant `1 : i1`. -/
def trueConstant : Value := mkConstant 112 (.int 1) 1 .nested

/-- The condition `(i < j) and not (j < k)` of the example: `arith.andi` of
`arith.cmpi slt, %i, %j` and `arith.xori (arith.cmpi slt, %j, %k), 1`. -/
def exampleCondition : Value :=
  binaryOp 115 (.int 1) .andI (cmpValue 110 .slt scenarioI scenarioJ)
    (binaryOp 114 (.int 1) .xOrI (cmpValue 111 .slt scenarioJ scenarioK) trueConstant)

/-! ## Meaning of `arith` operations on fixed-width integers -/

/-- Result of a binary `arith` operation on `w`-bit integers given by their signed
values, as the arith dialect defines it: `addi`, `subi` and `muli` wrap, `divsi` and
`remsi` round towards zero, `divui`, `remui` and `shrui` read their operands as unsigned,
`andi`, `ori` and `xori` act on the bits. `none` where the dialect leaves the result
undefined (division by zero, shift by the width or more) and for other operations. -/
def arithBinary (w : Nat) : OpKind → Int → Int → Option Int
  | .addI, a, b => some (wrapSigned w (a + b))
  | .subI, a, b => some (wrapSigned w (a - b))
  | .mulI, a, b => some (wrapSigned w (a * b))
  | .divSI, a, b => if b = 0 then none else some (wrapSigned w (Int.tdiv a b))
  | .divUI, a, b =>
    if toUnsigned w b = 0 then none
    else some (wrapSigned w (toUnsigned w a / toUnsigned w b))
  | .remSI, a, b => if b = 0 then none else some (wrapSigned w (Int.tmod a b))
  | .remUI, a, b =>
    if toUnsigned w b = 0 then none
    else some (wrapSigned w (toUnsigned w a % toUnsigned w b))
  | .shLI, a, b =>
    if toUnsigned w b < w then some (wrapSigned w (a * 2 ^ (toUnsigned w b).toNat)) else none
  | .shRUI, a, b =>
    if toUnsigned w b < w then
      some (wrapSigned w (toUnsigned w a / 2 ^ (toUnsigned w b).toNat))
    else none
  | .andI, a, b => some (wrapSigned w ((toUnsigned w a).toNat &&& (toUnsigned w b).toNat))
  | .orI, a, b => some (wrapSigned w ((toUnsigned w a).toNat ||| (toUnsigned w b).toNat))
  | .xOrI, a, b => some (wrapSigned w ((toUnsigned w a).toNat ^^^ (toUnsigned w b).toNat))
  | _, _, _ => none

/-- Value of the single result of a map without dims at the run-time values of its
symbol operands. -/
def evalPromoted (ρ : Nat → Int) (m : AffineMap) (operands : List Value) : Option Int :=
  match m.results with
  | [e] => some (e.eval [] (operands.map (Value.denote ρ)))
  | _ => none

/-- The loop variable `%i` shifted by the constant amount `k`: `arith.shli %i, k` or
`arith.shrui %i, k` on `i64`. -/
def shiftByConstant (kind : OpKind) (k : Int) : Value :=
  binaryOp 120 (.int 64) kind (.blockArg 121 (.int 64) .func 0)
    (mkConstant 122 (.int 64) k .nested)

/-- Collaborators of the examples in which `fix` gives up on every value (it returns a
null value, as it does on a loop variable, which cannot be hoisted). -/
def nullFixEnv : Env := { exampleEnv with fix := fun _ _ _ => some none }

/-! ## The lists of the condition compiler in step -/

/-- An expression reads no dim and only the symbols `2 * j` and `2 * j + 1`. -/
def AffineExpr.readsPair (j : Nat) : AffineExpr → Bool
  | .const _ => true
  | .dim _ => false
  | .sym i => i == 2 * j || i == 2 * j + 1
  | .add l r => l.readsPair j && r.readsPair j
  | .mul l r => l.readsPair j && r.readsPair j
  | .floorDiv l r => l.readsPair j && r.readsPair j
  | .ceilDiv l r => l.readsPair j && r.readsPair j
  | .mod l r => l.readsPair j && r.readsPair j

/-- Every constraint of a list whose first index is `j` reads the pair of its own
index. -/
def pairsFrom : Nat → List AffineExpr → Bool
  | _, [] => true
  | j, e :: es => e.readsPair j && pairsFrom (j + 1) es

/-- The lists are in step: one flag and two operands per constraint, and constraint `j`
reads only the symbols `2 * j` and `2 * j + 1`. -/
def CondState.inStep (st : CondState) : Prop :=
  st.eqflags.length = st.exprs.length ∧ st.applies.length = 2 * st.exprs.length ∧
    pairsFrom 0 st.exprs = true

/-- The integer set `MoveIfToAffine` builds from the lists: no dims, `2 * exprs.size()`
symbols. -/
def CondState.integerSet (st : CondState) : IntegerSet :=
  ⟨0, 2 * st.exprs.length, st.exprs, st.eqflags⟩

/-! ## Meaning of the relations `valueCmp` proves -/

/-- Truth of `a cmp b` over the integers. -/
def Cmp.eval : Cmp → Int → Int → Bool
  | .EQ, a, b => decide (a = b)
  | .LT, a, b => decide (a < b)
  | .LE, a, b => decide (a ≤ b)
  | .GT, a, b => decide (b < a)
  | .GE, a, b => decide (b ≤ a)

/-- One more than the largest dim position of an expression (0 without dims). -/
def AffineExpr.dimBound : AffineExpr → Nat
  | .const _ => 0
  | .dim i => i + 1
  | .sym _ => 0
  | .add l r => max l.dimBound r.dimBound
  | .mul l r => max l.dimBound r.dimBound
  | .floorDiv l r => max l.dimBound r.dimBound
  | .ceilDiv l r => max l.dimBound r.dimBound
  | .mod l r => max l.dimBound r.dimBound

/-- The answer to `valueCmp(cmp, operands[i], val)` that is the truth of the fact it
stands for, the operands having the values `xs`. -/
def truthLeaf (ρ : Nat → Int) (xs : List Int) (cmp : Cmp) (i : Nat) (val : ValueOrInt) :
    Bool :=
  Cmp.eval cmp (xs.getD i 0) (val.denote ρ)

/-! ## `AffineIfSimplification` -/

/-- An `affine.if` that encloses the operation being simplified, as the parent walk sees
it: its integer set, its operands, and whether its else region contains the operation. -/
structure EnclosingIf where
  set : IntegerSet
  operands : List Value
  inElse : Bool
deriving Inhabited

/-- An `affine.parallel` that encloses the operation being simplified: for each
induction variable the results of its upper-bound map, the number of dims of the
upper-bounds map, the upper-bound operands and the induction variables. -/
structure EnclosingParallel where
  ubGroups : List (List AffineExpr)
  ubNumDims : Nat
  ubOperands : List Value
  ivs : List Value
deriving Inhabited

/-- The expression `expr + 1` as MLIR builds it: constants are folded, also into the
constant summand of a sum, and a summand `0` is dropped. -/
def addOne : AffineExpr → AffineExpr
  | .const c => .const (c + 1)
  | .add e (.const c) => if c + 1 = 0 then e else .add e (.const (c + 1))
  | e => .add e (.const 1)

/-- The test `llvm::all_of(llvm::zip(paren.getOperands(), op.getOperands()), ==)`; the
zip stops at the shorter list. -/
def sameOperands : List Value → List Value → Bool
  | a :: as, b :: bs => a.same b && sameOperands as bs
  | _, _ => true

/-- The walk over the enclosing `affine.if` operations: some enclosing `affine.if` whose
else region does not contain the operation has the same constraint expression, the same
numbers of dims and symbols and the same operands. The equality flags are not looked
at. -/
def canRemoveByIf (numDims numSymbols : Nat) (operands : List Value) (cst : AffineExpr)
    (parents : List EnclosingIf) : Bool :=
  parents.any (fun paren =>
    paren.set.constraints.any (fun cst2 =>
      !paren.inElse &&
        (decide (cst2 = cst) && decide (paren.set.numDims = numDims) &&
          decide (paren.set.numSymbols = numSymbols) &&
          sameOperands paren.operands operands)))

/-- The test on one induction variable of an enclosing `affine.parallel`: `expr` is a
symbol whose operand is the operand of a symbol among the upper bounds of the variable,
and the variable is proved non-negative. -/
def parallelBoundFound (numDims : Nat) (operands : List Value) (expr : AffineExpr)
    (paren : EnclosingParallel) (idx : Nat) : Bool :=
  (match paren.ubGroups.get? idx with
    | some ubs =>
      ubs.any (fun ub =>
        match expr, ub with
        | .sym p, .sym q =>
          (match operands.get? (p + numDims), paren.ubOperands.get? (q + paren.ubNumDims) with
            | some a, some b => a.same b
            | _, _ => false)
        | _, _ => false)
    | none => false) &&
  (match paren.ivs.get? idx with
    | some iv => valueCmp .GE iv (.int 64 0)
    | none => false)

/-- The walk over the enclosing `affine.parallel` operations for an inequality
`cst >= 0`, with `expr = cst + 1`. -/
def canRemoveByParallel (numDims : Nat) (operands : List Value) (cst : AffineExpr)
    (parents : List EnclosingParallel) : Bool :=
  parents.any (fun paren =>
    (List.range paren.ubGroups.length).any (fun idx =>
      parallelBoundFound numDims operands (addOne cst) paren idx))

/-- Working state of `AffineIfSimplification::matchAndRewrite`. -/
structure IfSimpState where
  todo : List AffineExpr
  eqFlags : List Bool
  knownFalse : Bool
  removed : Bool
deriving DecidableEq, Repr, Inhabited

/-- Whether the split of an equality over a sum applies: the constraint is an equality
on a sum that `valueCmp` proves non-negative. -/
def splitsSum (numDims : Nat) (operands : List Value) (cst : AffineExpr) : Bool :=
  match cst with
  | .add l r =>
    valueCmpExpr (fun c i v => valueCmpAt c operands i v) numDims .GE (.add l r) .zero
  | _ => false

/-- The body of the loop over the constraints for one constraint that is not reached
after a `break`. -/
def simplifyConstraint (numDims numSymbols : Nat) (operands : List Value)
    (ifs : List EnclosingIf) (pars : List EnclosingParallel) (cst : AffineExpr)
    (isEq : Bool) (st : IfSimpState) : IfSimpState :=
  match cst with
  | .const c =>
    if isEq && decide (c ≠ 0) then { st with removed := true, knownFalse := true }
    else if !decide (0 ≤ c) then { st with removed := true, knownFalse := true }
    else { st with removed := true }
  | _ =>
    match isEq, cst with
    | true, .mul l (.const c) =>
      if c ≠ 0 then
        { st with removed := true, todo := st.todo ++ [l], eqFlags := st.eqFlags ++ [isEq] }
      else { st with removed := true }
    | _, _ =>
      if isEq && splitsSum numDims operands cst then
        match cst with
        | .add l r =>
          { st with removed := true, todo := st.todo ++ [l, r],
                    eqFlags := st.eqFlags ++ [isEq, isEq] }
        | _ => st
      else if canRemoveByIf numDims numSymbols operands cst ifs ||
          (!isEq && canRemoveByParallel numDims operands cst pars) then
        { st with removed := true }
      else { st with todo := st.todo ++ [cst], eqFlags := st.eqFlags ++ [isEq] }

/-- The loop over the constraints, which stops once a constraint is known false. -/
def simplifyConstraints (numDims numSymbols : Nat) (operands : List Value)
    (ifs : List EnclosingIf) (pars : List EnclosingParallel) :
    List AffineExpr → List Bool → IfSimpState → IfSimpState
  | cst :: csts, isEq :: flags, st =>
    if (simplifyConstraint numDims numSymbols operands ifs pars cst isEq st).knownFalse then
      simplifyConstraint numDims numSymbols operands ifs pars cst isEq st
    else
      simplifyConstraints numDims numSymbols operands ifs pars csts flags
        (simplifyConstraint numDims numSymbols operands ifs pars cst isEq st)
  | _, _, st => st

/-- What `AffineIfSimplification` does with the `affine.if`. -/
inductive IfRewrite where
  | inlineThen
  | inlineElse
  | erase
  | failure
  | newIf (set : IntegerSet)
deriving DecidableEq, Repr, Inhabited

/-- Source `AffineIfSimplification::matchAndRewrite` on an `affine.if` with the given
set and operands, `hasElse` telling whether its else region is non-empty. -/
def affineIfSimplification (set : IntegerSet) (operands : List Value) (hasElse : Bool)
    (ifs : List EnclosingIf) (pars : List EnclosingParallel) : IfRewrite :=
  let st := simplifyConstraints set.numDims set.numSymbols operands ifs pars set.constraints
    set.eqFlags ⟨[], [], false, false⟩
  let todo := if st.knownFalse then [] else st.todo
  if todo.length = 0 then
    if !st.knownFalse then .inlineThen
    else if hasElse then .inlineElse
    else .erase
  else if !st.removed then .failure
  else .newIf ⟨set.numDims, set.numSymbols, todo, st.eqFlags⟩

/-- Truth of one constraint at the values of the dims and symbols. -/
def constraintHoldsAt (dims syms : List Int) (e : AffineExpr) (eq : Bool) : Bool :=
  if eq then decide (e.eval dims syms = 0) else decide (0 ≤ e.eval dims syms)

/-- Truth of paired constraints and flags at the values of the dims and symbols. -/
def constraintsHoldAt (dims syms : List Int) : List AffineExpr → List Bool → Bool
  | e :: es, f :: fs => constraintHoldsAt dims syms e f && constraintsHoldAt dims syms es fs
  | _, _ => true

/-- An integer set is satisfied at the run-time values of its operands (dims first). -/
def IntegerSet.satisfied (set : IntegerSet) (operandValues : List Int) : Bool :=
  constraintsHoldAt (operandValues.take set.numDims) (operandValues.drop set.numDims)
    set.constraints set.eqFlags

/-! ## `ForOpRaising` -/

/-- How the step of an `scf.for` is defined: by an `arith.constant` of index type
(`ConstantIndexOp`), by an `arith.constant` of a fixed-width integer type, or by another
valid symbol. -/
inductive StepKind where
  | indexConstant
  | intConstant
  | symbol
deriving DecidableEq, Repr, Inhabited

/-- An `scf.for` with single-candidate bounds: the bit width of its induction variable
and the run-time values of lower bound, upper bound and step. -/
structure ScfForLoop where
  width : Nat
  lb : Int
  ub : Int
  step : Int
  stepKind : StepKind
deriving DecidableEq, Repr, Inhabited

/-- The values a loop variable takes that starts at `lb`, advances by a positive `step`
and stays below `ub`: `lb, lb + step, lb + 2 * step, ...`, in that order. -/
def loopValues (lb ub step : Int) : List Int :=
  if 0 < step ∧ lb < ub then
    (List.range ((ub - lb + step - 1) / step).toNat).map
      (fun (i : Nat) => lb + (i : Int) * step)
  else []

/-- Source `ForOpRaising::getStep`: the zero-extended constant when the step matches
`m_ConstantInt`, else 1. -/
def ForOpRaising.getStep (loop : ScfForLoop) : Int :=
  match loop.stepKind with
  | .symbol => 1
  | _ => toUnsigned loop.width loop.step

/-- The flag `rewrittenStep`: the step is not defined by a `ConstantIndexOp`. -/
def ForOpRaising.rewrittenStep (loop : ScfForLoop) : Bool :=
  decide (loop.stepKind ≠ .indexConstant)

/-- The bounds of the raised `affine.for`: those of the `scf.for`, or `0` and
`(step - 1 + (ub - lb)) /u step` when the step is rewritten (`none` when the division is
undefined). -/
def ForOpRaising.bounds (loop : ScfForLoop) : Option (Int × Int) :=
  if ForOpRaising.rewrittenStep loop then
    match arithBinary loop.width .subI loop.step 1,
        arithBinary loop.width .subI loop.ub loop.lb with
    | some s1, some d =>
      match arithBinary loop.width .addI s1 d with
      | some n =>
        match arithBinary loop.width .divUI n loop.step with
        | some q => some (0, q)
        | none => none
      | none => none
    | _, _ => none
  else some (loop.lb, loop.ub)

/-- The value passed for the original induction variable inside the raised loop: the
new variable cast to the type of the old one and, when the step is rewritten,
`lb + iv * step`. -/
def ForOpRaising.inductionValue (loop : ScfForLoop) (iv : Int) : Int :=
  if ForOpRaising.rewrittenStep loop then
    wrapSigned loop.width
      (loop.lb + wrapSigned loop.width (wrapSigned loop.width iv * loop.step))
  else wrapSigned loop.width iv

/-- The values of the original induction variable in the iterations of the raised
`affine.for`, in order. -/
def ForOpRaising.raisedValues (loop : ScfForLoop) : Option (List Int) :=
  (ForOpRaising.bounds loop).map (fun b =>
    (loopValues b.1 b.2 (ForOpRaising.getStep loop)).map (ForOpRaising.inductionValue loop))

/-- The values of the induction variable of the `scf.for` itself. -/
def ScfForLoop.values (loop : ScfForLoop) : List Int :=
  loopValues loop.lb loop.ub loop.step

/-! ## `SimplifyAndOr` and `OptimizeRem` -/

/-- The binary integer operations `arithBinary` gives a meaning to. -/
def OpKind.isArith : OpKind → Bool
  | .addI | .subI | .mulI | .divSI | .divUI | .remSI | .remUI | .shRUI | .shLI
  | .andI | .orI | .xOrI => true
  | _ => false

/-- Run-time value of a tree of integer operations on `w`-bit integers: a constant gives
its value, a binary operation the result of `arithBinary` on the values of its operands,
and any other value is read from the assignment. -/
def evalArith (w : Nat) (ρ : Nat → Int) : Value → Option Int
  | .blockArg id _ _ _ => some (wrapSigned w (ρ id))
  | .opResult id _ (.mk kind _ operands _ _ _ _) _ =>
    match kind, operands with
    | .constant c, _ => some (wrapSigned w c)
    | k, a :: b :: _ =>
      if k.isArith then
        match evalArith w ρ a, evalArith w ρ b with
        | some x, some y => arithBinary w k x y
        | _, _ => none
      else some (wrapSigned w (ρ id))
    | _, _ => some (wrapSigned w (ρ id))

/-- Source `areOpposite`. -/
def areOpposite (lhs rhs : Value) : Bool :=
  (match lhs with
    | .opResult _ _ (.mk .xOrI _ (a :: b :: _) _ _ _ _) _ => a.same rhs && b.isOne
    | _ => false) ||
  (match rhs with
    | .opResult _ _ (.mk .xOrI _ (a :: b :: _) _ _ _ _) _ => a.same lhs && b.isOne
    | _ => false)

/-- The inner loop of `SimplifyAndOr::matchAndRewrite` for operand `i` of the `and`,
which is `or(o0, o1)`, `other` being the other operand of the `and`: the value that
replaces the `and` (`Sum.inl`), the new operand `i` (`Sum.inr`), or nothing. -/
def simplifyAndOrAt (o0 o1 other : Value) : Option (Value ⊕ Value) :=
  if o0.same other then some (.inl o0)
  else if areOpposite o0 other then some (.inr o1)
  else if o1.same other then some (.inl o1)
  else if areOpposite o1 other then some (.inr o0)
  else none

/-- Source `SimplifyAndOr::matchAndRewrite` on the value of an `arith.andi`: the value
that stands for it afterwards, `none` on failure. -/
def simplifyAndOr : Value → Option Value
  | .opResult id ty (.mk .andI place (x0 :: x1 :: rest) tb eb y1 y2) resNo =>
    let first :=
      match x0 with
      | .opResult _ _ (.mk .orI _ (o0 :: o1 :: _) _ _ _ _) _ =>
        (simplifyAndOrAt o0 o1 x1).map (fun (r : Value ⊕ Value) =>
          match r with
          | Sum.inl v => v
          | Sum.inr v =>
            Value.opResult id ty (.mk .andI place (v :: x1 :: rest) tb eb y1 y2) resNo)
      | _ => none
    match first with
    | some v => some v
    | none =>
      match x1 with
      | .opResult _ _ (.mk .orI _ (o0 :: o1 :: _) _ _ _ _) _ =>
        (simplifyAndOrAt o0 o1 x0).map (fun (r : Value ⊕ Value) =>
          match r with
          | Sum.inl v => v
          | Sum.inr v =>
            Value.opResult id ty (.mk .andI place (x0 :: v :: rest) tb eb y1 y2) resNo)
      | _ => none
  | _ => none

/-- The loop of `OptimizeRem::matchAndRewrite` over the operands of the sum: the operand
that replaces the sum. -/
def optimizeRemOperand (s0 s1 rhs : Value) : Option Value :=
  match s0 with
  | .opResult _ _ (.mk .mulI _ (_ :: m1 :: _) _ _ _ _) _ =>
    if m1.same rhs then some s1
    else
      match s1 with
      | .opResult _ _ (.mk .mulI _ (_ :: n1 :: _) _ _ _ _) _ =>
        if n1.same rhs then some s0 else none
      | _ => none
  | _ =>
    match s1 with
    | .opResult _ _ (.mk .mulI _ (_ :: n1 :: _) _ _ _ _) _ =>
      if n1.same rhs then some s0 else none
    | _ => none

/-- Source `OptimizeRem::matchAndRewrite` on the value of an `arith.remui`: the
`arith.remui` that replaces it, `none` on failure. -/
def optimizeRem : Value → Option Value
  | .opResult id ty (.mk .remUI place (lhs :: rhs :: rest) tb eb y1 y2) resNo =>
    match lhs with
    | .opResult _ _ (.mk .addI _ (s0 :: s1 :: _) _ _ _ _) _ =>
      (optimizeRemOperand s0 s1 rhs).map (fun v =>
        .opResult id ty (.mk .remUI place (v :: rhs :: rest) tb eb y1 y2) resNo)
    | _ => none
  | _ => none

/-! ## Concrete IR for the rewrite examples -/

/-- The loop `a[i] = a[i] + 1` with one loop-carried scalar that is no reduction. -/
def loopWithCarriedScalar : AffineForLoop :=
  { loopSameElement with resultIsMemRef := [false], numIterOperands := 1 }

/-- An 8-bit function argument. -/
def byteArg (id : Nat) : Value := .blockArg id (.int 8) .func 0

/-- The value `and(xor(a, 1), or(a, b))` on 8-bit function arguments `a` and `b`. -/
def andOfOpposite : Value :=
  binaryOp 145 (.int 8) .andI
    (binaryOp 143 (.int 8) .xOrI (byteArg 140) (mkConstant 142 (.int 8) 1 .nested))
    (binaryOp 144 (.int 8) .orI (byteArg 140) (byteArg 141))

/-- The value `remui(addi(muli(a, c), b), c)` on values `a`, `b` and `c`. -/
def remOfSum (a b c : Value) : Value :=
  binaryOp 153 (.int 8) .remUI
    (binaryOp 152 (.int 8) .addI (binaryOp 151 (.int 8) .mulI a c) b) c

/-- The value `remui(addi(b, muli(a, c)), c)`, the sum with its operands exchanged. -/
def remOfSumSwapped (a b c : Value) : Value :=
  binaryOp 153 (.int 8) .remUI
    (binaryOp 152 (.int 8) .addI b (binaryOp 151 (.int 8) .mulI a c)) c

/-! ## Theorems -/

theorem handleMinMax_of_isValidIndex (v : Value) (h : isValidIndex v = true) :
    handleMinMax v = some ⟨[v], false, false⟩ := by
  cases v with
  | blockArg id ty owner argNo => simp [handleMinMax, handleMinMaxFrom, h]
  | opResult id ty op resNo =>
    cases op with
    | mk kind place operands tb eb y1 y2 =>
      unfold handleMinMax handleMinMaxFrom
      simp [h]

theorem ofValue_denote (ρ : Nat → Int) (v : Value) :
    (ValueOrInt.ofValue v).denote ρ = v.denote ρ := by
  unfold ValueOrInt.ofValue Value.denote
  cases h : v.constantValue <;> simp [ValueOrInt.denote]

theorem getD_append_pair0 (xs : List Int) (a b : Int) (n : Nat) (h : xs.length = n) :
    (xs ++ [a, b]).getD n 0 = a := by
  subst h
  rw [List.getD_append_right _ _ _ _ (le_refl _)]
  simp

theorem getD_append_pair1 (xs : List Int) (a b : Int) (n : Nat) (h : xs.length = n) :
    (xs ++ [a, b]).getD (n + 1) 0 = b := by
  subst h
  rw [List.getD_append_right _ _ _ _ (Nat.le_succ _)]
  simp

/-- On a single pair of candidates without min/max flags, a signed inequality predicate
makes `handleSwitch` append the one constraint of `signedConstraint`. -/
theorem handleSwitch_signed_single (env : Env) (fuel : Nat) (pred : CmpIPredicate)
    (a b : ValueOrInt) (st : CondState)
    (hp : pred = .sge ∨ pred = .sgt ∨ pred = .sle ∨ pred = .slt) :
    handleSwitch env fuel false false false false pred [a] [b] st =
      some (true, st.push false a b (signedConstraint pred)) := by
  rcases hp with h | h | h | h <;> subst h <;>
    simp [handleSwitch, emitGreater, emitLess, signedConstraint, CondState.push]

/-- The rewrite of `a u< 1` and `a u>= 1` leaves the signed inequality predicates alone. -/
theorem normalizeCmp_signed (pred : CmpIPredicate) (a b : ValueOrInt)
    (hp : pred = .sge ∨ pred = .sgt ∨ pred = .sle ∨ pred = .slt) :
    normalizeCmp pred false [a] [b] =
      if a.isValue then (pred, [a], [b]) else (swapPredicate pred, [b], [a]) := by
  unfold normalizeCmp
  cases a with
  | value v =>
    simp only [ValueOrInt.isValue, Bool.not_true, Bool.false_eq_true, if_false]
    split
    · rcases hp with h | h | h | h <;> subst h <;> simp
    · simp
  | int w i =>
    simp only [ValueOrInt.isValue, Bool.not_false, if_true]
    split
    · rcases hp with h | h | h | h <;> subst h <;> simp [swapPredicate]
    · simp

theorem swapPredicate_signed (pred : CmpIPredicate)
    (hp : pred = .sge ∨ pred = .sgt ∨ pred = .sle ∨ pred = .slt) :
    swapPredicate pred = .sge ∨ swapPredicate pred = .sgt ∨ swapPredicate pred = .sle ∨
      swapPredicate pred = .slt := by
  rcases hp with h | h | h | h <;> subst h <;> simp [swapPredicate]

theorem normalizeCmp_negated (pred : CmpIPredicate) (lhs rhs : List ValueOrInt) :
    normalizeCmp pred true lhs rhs = normalizeCmp (invertPredicate pred) false lhs rhs := by
  simp [normalizeCmp]

theorem handleCmp_negated (env : Env) (fuel : Nat) (pred : CmpIPredicate) (l r : Value)
    (st : CondState) :
    handleCmp env fuel pred l r st true =
      handleCmp env fuel (invertPredicate pred) l r st false := by
  simp only [handleCmp, normalizeCmp_negated]

/-- What `handle` does on a signed inequality comparison of two single valid indices. -/
theorem handleCmp_signed (env : Env) (fuel : Nat) (pred : CmpIPredicate)
    (lhs rhs : Value) (st : CondState)
    (hp : pred = .sge ∨ pred = .sgt ∨ pred = .sle ∨ pred = .slt)
    (hl : isValidIndex lhs = true) (hr : isValidIndex rhs = true) :
    handleCmp env fuel pred lhs rhs st false =
      some (true,
        if (ValueOrInt.ofValue lhs).isValue then
          st.push false (ValueOrInt.ofValue lhs) (ValueOrInt.ofValue rhs) (signedConstraint pred)
        else
          st.push false (ValueOrInt.ofValue rhs) (ValueOrInt.ofValue lhs)
            (signedConstraint (swapPredicate pred))) := by
  have hh : handleCmp env fuel pred lhs rhs st false =
      handleSwitch env fuel false false false false
        (normalizeCmp pred false [ValueOrInt.ofValue lhs] [ValueOrInt.ofValue rhs]).1
        (normalizeCmp pred false [ValueOrInt.ofValue lhs] [ValueOrInt.ofValue rhs]).2.1
        (normalizeCmp pred false [ValueOrInt.ofValue lhs] [ValueOrInt.ofValue rhs]).2.2 st := by
    simp [handleCmp, handleMinMax_of_isValidIndex lhs hl, handleMinMax_of_isValidIndex rhs hr]
  rw [hh, normalizeCmp_signed pred _ _ hp]
  cases hv : (ValueOrInt.ofValue lhs).isValue
  · simp [handleSwitch_signed_single env fuel _ _ _ st (swapPredicate_signed pred hp)]
  · simp [handleSwitch_signed_single env fuel _ _ _ st hp]

theorem signedConstraint_eval (pred : CmpIPredicate) (xs : List Int) (x y : Int) (n : Nat)
    (hn : xs.length = 2 * n)
    (hp : pred = .sge ∨ pred = .sgt ∨ pred = .sle ∨ pred = .slt) :
    (signedConstraint pred (.sym (2 * n)) (.sym (2 * n + 1))).eval [] (xs ++ [x, y]) =
      signedSlack pred x y := by
  have h0 := getD_append_pair0 xs x y (2 * n) hn
  have h1 := getD_append_pair1 xs x y (2 * n) hn
  rcases hp with h | h | h | h <;> subst h <;>
    simp only [signedConstraint, signedSlack, AffineExpr.sub, AffineExpr.neg,
      AffineExpr.subConst, AffineExpr.eval, h0, h1] <;> ring

theorem signedSlack_swap (pred : CmpIPredicate) (x y : Int)
    (hp : pred = .sge ∨ pred = .sgt ∨ pred = .sle ∨ pred = .slt) :
    signedSlack (swapPredicate pred) y x = signedSlack pred x y := by
  rcases hp with h | h | h | h <;> subst h <;> simp [signedSlack, swapPredicate]

theorem signedSlack_nonneg (w : Nat) (pred : CmpIPredicate) (x y : Int)
    (hp : pred = .sge ∨ pred = .sgt ∨ pred = .sle ∨ pred = .slt) :
    decide (0 ≤ signedSlack pred x y) = evalCmp w pred x y := by
  rcases hp with h | h | h | h <;> subst h <;>
    simp only [signedSlack, evalCmp, decide_eq_decide] <;> omega

/-- Value and truth of the constraint `handle` appends for a signed comparison, in both
orientations of the operand pair. -/
theorem signed_constraint_meaning (pred : CmpIPredicate) (lhs rhs : Value) (st : CondState)
    (hp : pred = .sge ∨ pred = .sgt ∨ pred = .sle ∨ pred = .slt)
    (hst : st.applies.length = 2 * st.exprs.length) (ρ : Nat → Int) (w : Nat) :
    ((signedConstraint pred (.sym (2 * st.exprs.length)) (.sym (2 * st.exprs.length + 1))).eval []
          ((st.applies ++ [ValueOrInt.ofValue lhs, ValueOrInt.ofValue rhs]).map
            (ValueOrInt.denote ρ)) = signedSlack pred (lhs.denote ρ) (rhs.denote ρ) ∧
        constraintHolds
          ((st.applies ++ [ValueOrInt.ofValue lhs, ValueOrInt.ofValue rhs]).map
            (ValueOrInt.denote ρ))
          (signedConstraint pred (.sym (2 * st.exprs.length)) (.sym (2 * st.exprs.length + 1)))
          false = evalCmp w pred (lhs.denote ρ) (rhs.denote ρ)) ∧
      ((signedConstraint (swapPredicate pred) (.sym (2 * st.exprs.length))
            (.sym (2 * st.exprs.length + 1))).eval []
          ((st.applies ++ [ValueOrInt.ofValue rhs, ValueOrInt.ofValue lhs]).map
            (ValueOrInt.denote ρ)) = signedSlack pred (lhs.denote ρ) (rhs.denote ρ) ∧
        constraintHolds
          ((st.applies ++ [ValueOrInt.ofValue rhs, ValueOrInt.ofValue lhs]).map
            (ValueOrInt.denote ρ))
          (signedConstraint (swapPredicate pred) (.sym (2 * st.exprs.length))
            (.sym (2 * st.exprs.length + 1)))
          false = evalCmp w pred (lhs.denote ρ) (rhs.denote ρ)) := by
  have hlen : (st.applies.map (ValueOrInt.denote ρ)).length = 2 * st.exprs.length := by
    simpa using hst
  have he := signedConstraint_eval pred (st.applies.map (ValueOrInt.denote ρ))
    (lhs.denote ρ) (rhs.denote ρ) st.exprs.length hlen hp
  have hs := signedConstraint_eval (swapPredicate pred) (st.applies.map (ValueOrInt.denote ρ))
    (rhs.denote ρ) (lhs.denote ρ) st.exprs.length hlen (swapPredicate_signed pred hp)
  rw [signedSlack_swap pred _ _ hp] at hs
  have he2 : (signedConstraint pred (.sym (2 * st.exprs.length))
      (.sym (2 * st.exprs.length + 1))).eval []
        ((st.applies ++ [ValueOrInt.ofValue lhs, ValueOrInt.ofValue rhs]).map
          (ValueOrInt.denote ρ)) = signedSlack pred (lhs.denote ρ) (rhs.denote ρ) := by
    simpa [ofValue_denote] using he
  have hs2 : (signedConstraint (swapPredicate pred) (.sym (2 * st.exprs.length))
      (.sym (2 * st.exprs.length + 1))).eval []
        ((st.applies ++ [ValueOrInt.ofValue rhs, ValueOrInt.ofValue lhs]).map
          (ValueOrInt.denote ρ)) = signedSlack pred (lhs.denote ρ) (rhs.denote ρ) := by
    simpa [ofValue_denote] using hs
  refine ⟨⟨he2, ?_⟩, ⟨hs2, ?_⟩⟩
  · simp only [constraintHolds, Bool.false_eq_true, if_false, he2]
    exact signedSlack_nonneg w pred _ _ hp
  · simp only [constraintHolds, Bool.false_eq_true, if_false, hs2]
    exact signedSlack_nonneg w pred _ _ hp

/-- C1: when the constructor of `AffineApplyNormalizer` completes on a map and operand
list (which requires `map.numInputs == |operands|`), the map it holds has as many dims as
`reorderedDims` has values and as many symbols as `concatenatedSymbols` has values, so
`numDims + numSymbols` is the length of `getOperands()`. -/
theorem C1_normalizer_operand_count (env : Env) (hasRewriter : Bool) (map : AffineMap)
    (operands : List Value) (n : AffineApplyNormalizer)
    (h : AffineApplyNormalizer.new env hasRewriter map operands = some n) :
    map.numInputs = operands.length ∧
      n.getAffineMap.numDims = n.reorderedDims.length ∧
      n.getAffineMap.numSymbols = n.concatenatedSymbols.length ∧
      n.getAffineMap.numDims + n.getAffineMap.numSymbols = n.getOperands.length := by
  unfold AffineApplyNormalizer.new at h
  split at h
  · simp at h
  · rename_i hin
    split at h
    · simp at h
    · split at h
      · simp at h
      · split at h
        · simp at h
        · simp only [Option.some.injEq] at h
          subst h
          simp [AffineApplyNormalizer.getAffineMap, AffineApplyNormalizer.getOperands,
            AffineMap.replaceDimsAndSymbols]
          simpa using hin

/-- C1 at the scenario `(d0)[s0] -> (d0 + s0)` on `[i, affine.apply (j)[k]]`: the
constructor completes with two dims, one symbol and three operands. -/
theorem C1_normalizer_operand_count_witness :
    AffineApplyNormalizer.new exampleEnv true scenarioMap [scenarioI, scenarioApply] =
        some ⟨[scenarioI, scenarioJ], [scenarioK],
          ⟨2, 1, [.add (.dim 0) (.add (.dim 1) (.sym 0))]⟩⟩ ∧
      (scenarioMap.numInputs = [scenarioI, scenarioApply].length ∧
        (2 : Nat) = [scenarioI, scenarioJ].length ∧
        (1 : Nat) = [scenarioK].length ∧
        2 + 1 = ([scenarioI, scenarioJ] ++ [scenarioK]).length) :=
  ⟨rfl, C1_normalizer_operand_count exampleEnv true scenarioMap [scenarioI, scenarioApply]
    ⟨[scenarioI, scenarioJ], [scenarioK], ⟨2, 1, [.add (.dim 0) (.add (.dim 1) (.sym 0))]⟩⟩ rfl⟩

/-- C2: for a signed inequality comparison of two single valid indices, `handle` with
`negated = false` returns true and appends exactly one inequality (flag false) over the
two sides: over `(lhs, rhs)` with the form of the predicate, or, when the left side is an
integer constant, over `(rhs, lhs)` with the form of the swapped predicate. In both cases
its expression has the value `lhs - rhs` for `sge`, `lhs - rhs - 1` for `sgt`,
`rhs - lhs` for `sle`, `rhs - lhs - 1` for `slt`, and the constraint holds exactly when
the comparison is true. -/
theorem C2_signed_comparison_constraint (env : Env) (fuel : Nat) (pred : CmpIPredicate)
    (lhs rhs : Value) (st : CondState)
    (hp : pred = .sge ∨ pred = .sgt ∨ pred = .sle ∨ pred = .slt)
    (hl : isValidIndex lhs = true) (hr : isValidIndex rhs = true) :
    ∃ e a b,
      handleCmp env fuel pred lhs rhs st false =
        some (true, ⟨st.exprs ++ [e], st.eqflags ++ [false], st.applies ++ [a, b]⟩) ∧
      ((ValueOrInt.ofValue lhs).isValue = true →
        a = ValueOrInt.ofValue lhs ∧ b = ValueOrInt.ofValue rhs ∧
          e = signedConstraint pred (.sym (2 * st.exprs.length))
            (.sym (2 * st.exprs.length + 1))) ∧
      ((ValueOrInt.ofValue lhs).isValue = false →
        a = ValueOrInt.ofValue rhs ∧ b = ValueOrInt.ofValue lhs ∧
          e = signedConstraint (swapPredicate pred) (.sym (2 * st.exprs.length))
            (.sym (2 * st.exprs.length + 1))) ∧
      (st.applies.length = 2 * st.exprs.length → ∀ (ρ : Nat → Int) (w : Nat),
        e.eval [] ((st.applies ++ [a, b]).map (ValueOrInt.denote ρ)) =
            signedSlack pred (lhs.denote ρ) (rhs.denote ρ) ∧
          constraintHolds ((st.applies ++ [a, b]).map (ValueOrInt.denote ρ)) e false =
            evalCmp w pred (lhs.denote ρ) (rhs.denote ρ)) := by
  rw [handleCmp_signed env fuel pred lhs rhs st hp hl hr]
  cases hv : (ValueOrInt.ofValue lhs).isValue
  · refine ⟨signedConstraint (swapPredicate pred) (.sym (2 * st.exprs.length))
      (.sym (2 * st.exprs.length + 1)), ValueOrInt.ofValue rhs, ValueOrInt.ofValue lhs,
      ?_, ?_, ?_, ?_⟩
    · simp [CondState.push]
    · intro h; cases h
    · intro _; exact ⟨rfl, rfl, rfl⟩
    · intro hst ρ w
      exact (signed_constraint_meaning pred lhs rhs st hp hst ρ w).2
  · refine ⟨signedConstraint pred (.sym (2 * st.exprs.length))
      (.sym (2 * st.exprs.length + 1)), ValueOrInt.ofValue lhs, ValueOrInt.ofValue rhs,
      ?_, ?_, ?_, ?_⟩
    · simp [CondState.push]
    · intro _; exact ⟨rfl, rfl, rfl⟩
    · intro h; cases h
    · intro hst ρ w
      exact (signed_constraint_meaning pred lhs rhs st hp hst ρ w).1

/-- C2 at `i sgt j` for two loop variables: the one constraint `s0 - s1 - 1 >= 0` over
`(i, j)` is appended to the empty lists. -/
theorem C2_signed_comparison_constraint_witness :
    isValidIndex scenarioI = true ∧ isValidIndex scenarioJ = true ∧
      ∃ e a b,
        handleCmp exampleEnv 1 .sgt scenarioI scenarioJ ⟨[], [], []⟩ false =
          some (true, ⟨[] ++ [e], [] ++ [false], [] ++ [a, b]⟩) ∧
        ((ValueOrInt.ofValue scenarioI).isValue = true →
          a = ValueOrInt.ofValue scenarioI ∧ b = ValueOrInt.ofValue scenarioJ ∧
            e = signedConstraint .sgt (.sym (2 * 0)) (.sym (2 * 0 + 1))) ∧
        ((ValueOrInt.ofValue scenarioI).isValue = false →
          a = ValueOrInt.ofValue scenarioJ ∧ b = ValueOrInt.ofValue scenarioI ∧
            e = signedConstraint (swapPredicate .sgt) (.sym (2 * 0)) (.sym (2 * 0 + 1))) ∧
        ((0 : Nat) = 2 * 0 → ∀ (ρ : Nat → Int) (w : Nat),
          e.eval [] (([] ++ [a, b]).map (ValueOrInt.denote ρ)) =
              signedSlack .sgt (scenarioI.denote ρ) (scenarioJ.denote ρ) ∧
            constraintHolds (([] ++ [a, b]).map (ValueOrInt.denote ρ)) e false =
              evalCmp w .sgt (scenarioI.denote ρ) (scenarioJ.denote ρ)) :=
  ⟨by decide, by decide,
    C2_signed_comparison_constraint exampleEnv 1 .sgt scenarioI scenarioJ ⟨[], [], []⟩
      (by decide) (by decide) (by decide)⟩

/-- C3: on `i uge -1` with `i` a loop variable proved non-negative and the constant
`-1` (negative, not the minimum signed value), `handle` returns true and emits
`s0 - s1 >= 0` over `(i, -1)`; at `i = 0` that constraint holds although
`0 u>= 0xFFFF_FFFF_FFFF_FFFF` is false. -/
theorem C3_unsigned_ge_negative_constant :
    valueCmpInt .GE (.value scenarioI) 0 = true ∧
      handleCmp exampleEnv 1 .uge scenarioI (mkConstant 20 .index (-1) .nested) ⟨[], [], []⟩
          false =
        some (true,
          ⟨[AffineExpr.sub (.sym 0) (.sym 1)], [false], [.value scenarioI, .int 64 (-1)]⟩) ∧
      CondState.satisfied (fun _ => 0)
          ⟨[AffineExpr.sub (.sym 0) (.sym 1)], [false], [.value scenarioI, .int 64 (-1)]⟩ =
        true ∧
      evalCmp 64 .uge (scenarioI.denote (fun _ => 0))
          ((mkConstant 20 .index (-1) .nested).denote (fun _ => 0)) = false :=
  ⟨rfl, rfl, rfl, rfl⟩

/-- C4: on `max(a, b) ult 5` with loop variables `a`, `b` ranging from `-5` (not proved
non-negative), `handle` returns true and emits `b >= 0`, `a >= 0`, `5 - b - 1 >= 0` and
`5 - a - 1 >= 0`; at `a = -1`, `b = 1` the comparison `max(a, b) u< 5` is true but the
constraints are not satisfied. -/
theorem C4_unsigned_lt_max_select :
    handleMinMax (maxSelect 30 signedVarA signedVarB) =
        some ⟨[signedVarB, signedVarA], false, true⟩ ∧
      handleCmp exampleEnv 1 .ult (maxSelect 30 signedVarA signedVarB)
          (mkConstant 32 .index 5 .nested) ⟨[], [], []⟩ false =
        some (true,
          ⟨[.sym 0, .sym 2, (AffineExpr.sub (.sym 5) (.sym 4)).subConst 1,
              (AffineExpr.sub (.sym 7) (.sym 6)).subConst 1],
            [false, false, false, false],
            [.value signedVarB, .value signedVarB, .value signedVarA, .value signedVarA,
              .value signedVarB, .int 64 5, .value signedVarA, .int 64 5]⟩) ∧
      CondState.satisfied (fun id => if id = 5 then -1 else 1)
          ⟨[.sym 0, .sym 2, (AffineExpr.sub (.sym 5) (.sym 4)).subConst 1,
              (AffineExpr.sub (.sym 7) (.sym 6)).subConst 1],
            [false, false, false, false],
            [.value signedVarB, .value signedVarB, .value signedVarA, .value signedVarA,
              .value signedVarB, .int 64 5, .value signedVarA, .int 64 5]⟩ = false ∧
      evalCmp 64 .ult
          (candidatesValue (fun id => if id = 5 then -1 else 1) true
            [.value signedVarB, .value signedVarA]) 5 = true :=
  ⟨rfl, rfl, rfl, rfl⟩

/-- C5: on `max(i, j) ne 0` with loop variables `i`, `j` proved non-negative, `handle`
returns true and emits `j - 1 >= 0` and `i - 1 >= 0`; at `i = 0`, `j = 1` the value
`max(i, j)` is non-zero but the constraints are not satisfied. -/
theorem C5_ne_zero_max_select :
    handleMinMax (maxSelect 30 scenarioI scenarioJ) =
        some ⟨[scenarioJ, scenarioI], false, true⟩ ∧
      handleCmp exampleEnv 1 .ne (maxSelect 30 scenarioI scenarioJ)
          (mkConstant 32 .index 0 .nested) ⟨[], [], []⟩ false =
        some (true,
          ⟨[(AffineExpr.sym 0).subConst 1, (AffineExpr.sym 2).subConst 1], [false, false],
            [.value scenarioJ, .value scenarioJ, .value scenarioI, .value scenarioI]⟩) ∧
      CondState.satisfied (fun id => if id = 1 then 0 else 1)
          ⟨[(AffineExpr.sym 0).subConst 1, (AffineExpr.sym 2).subConst 1], [false, false],
            [.value scenarioJ, .value scenarioJ, .value scenarioI, .value scenarioI]⟩ = false ∧
      evalCmp 64 .ne
          (candidatesValue (fun id => if id = 1 then 0 else 1) true
            [.value scenarioJ, .value scenarioI]) 0 = true :=
  ⟨rfl, rfl, rfl, rfl⟩

/-- C6: on `5 sge min(i, j)`, a `>=` comparison whose right side is a min-select and
whose left side is an integer constant, `handle` returns true (the sides are swapped,
the min/max flags are not) and emits `5 - j >= 0` and `5 - i >= 0`; with a loop variable
on the left the same comparison is rejected. At `i = 0`, `j = 9` the comparison is true
but the constraints are not satisfied. -/
theorem C6_constant_side_min_select :
    handleMinMax (minSelect 30 scenarioI scenarioJ) =
        some ⟨[scenarioJ, scenarioI], true, false⟩ ∧
      handleCmp exampleEnv 1 .sge (mkConstant 32 .index 5 .nested)
          (minSelect 30 scenarioI scenarioJ) ⟨[], [], []⟩ false =
        some (true,
          ⟨[AffineExpr.sub (.sym 1) (.sym 0), AffineExpr.sub (.sym 3) (.sym 2)], [false, false],
            [.value scenarioJ, .int 64 5, .value scenarioI, .int 64 5]⟩) ∧
      handleCmp exampleEnv 1 .sge signedVarA (minSelect 30 scenarioI scenarioJ) ⟨[], [], []⟩
          false = some (false, ⟨[], [], []⟩) ∧
      CondState.satisfied (fun id => if id = 1 then 0 else 9)
          ⟨[AffineExpr.sub (.sym 1) (.sym 0), AffineExpr.sub (.sym 3) (.sym 2)], [false, false],
            [.value scenarioJ, .int 64 5, .value scenarioI, .int 64 5]⟩ = false ∧
      evalCmp 64 .sge 5
          (candidatesValue (fun id => if id = 1 then 0 else 9) false
            [.value scenarioJ, .value scenarioI]) = true :=
  ⟨rfl, rfl, rfl, rfl, rfl⟩

/-- C7: compiling `xor(a slt b, 1)` from polarity `false` reaches the comparison with
`negated = true`; for single valid indices `a` and `b` the result is exactly one
constraint with equality flag false whose expression is `a - b`: the expression
`s0 - s1` over `(a, b)`, or `s1 - s0` over `(b, a)` when `a` is an integer constant.
It holds exactly when `a < b` is false, and its value is not `b - a` unless `a = b`. -/
theorem C7_negated_slt_constraint (env : Env) (fuel steps : Nat) (a b one : Value)
    (xid cid : Nat) (xty cty : Ty) (xplace cplace : Place)
    (ha : isValidIndex a = true) (hb : isValidIndex b = true) (hone : one.isOne = true) :
    ∃ e p q,
      handleCmp env fuel .slt a b ⟨[], [], []⟩ true = some (true, ⟨[e], [false], [p, q]⟩) ∧
      compileCondition env fuel (steps + 2)
          (.opResult xid xty
            (.mk .xOrI xplace
              [.opResult cid cty (.mk (.cmpI .slt) cplace [a, b] [] [] [] []) 0, one]
              [] [] [] []) 0) false =
        some (true, ⟨[e], [false], [p, q]⟩) ∧
      ((ValueOrInt.ofValue a).isValue = true →
        p = ValueOrInt.ofValue a ∧ q = ValueOrInt.ofValue b ∧
          e = AffineExpr.sub (.sym 0) (.sym 1)) ∧
      ((ValueOrInt.ofValue a).isValue = false →
        p = ValueOrInt.ofValue b ∧ q = ValueOrInt.ofValue a ∧
          e = AffineExpr.sub (.sym 1) (.sym 0)) ∧
      ∀ (ρ : Nat → Int) (w : Nat),
        e.eval [] ([p, q].map (ValueOrInt.denote ρ)) = a.denote ρ - b.denote ρ ∧
          (a.denote ρ ≠ b.denote ρ →
            e.eval [] ([p, q].map (ValueOrInt.denote ρ)) ≠ b.denote ρ - a.denote ρ) ∧
          constraintHolds ([p, q].map (ValueOrInt.denote ρ)) e false =
            !evalCmp w .slt (a.denote ρ) (b.denote ρ) := by
  have hp : CmpIPredicate.sge = .sge ∨ CmpIPredicate.sge = .sgt ∨ CmpIPredicate.sge = .sle ∨
      CmpIPredicate.sge = .slt := Or.inl rfl
  have hh : handleCmp env fuel .slt a b ⟨[], [], []⟩ true =
      some (true,
        if (ValueOrInt.ofValue a).isValue then
          (⟨[], [], []⟩ : CondState).push false (ValueOrInt.ofValue a) (ValueOrInt.ofValue b)
            (signedConstraint .sge)
        else
          (⟨[], [], []⟩ : CondState).push false (ValueOrInt.ofValue b) (ValueOrInt.ofValue a)
            (signedConstraint (swapPredicate .sge))) := by
    rw [handleCmp_negated]
    exact handleCmp_signed env fuel .sge a b ⟨[], [], []⟩ hp ha hb
  have hc : ∀ r, handleCmp env fuel .slt a b ⟨[], [], []⟩ true = some (true, r) →
      compileCondition env fuel (steps + 2)
          (.opResult xid xty
            (.mk .xOrI xplace
              [.opResult cid cty (.mk (.cmpI .slt) cplace [a, b] [] [] [] []) 0, one]
              [] [] [] []) 0) false = some (true, r) := by
    intro r hr
    simp [compileCondition, compileLoop, hone, hr]
  have hm := fun ρ w => signed_constraint_meaning .sge a b ⟨[], [], []⟩ hp rfl ρ w
  have hneg : ∀ (w : Nat) (x y : Int), evalCmp w .sge x y = !evalCmp w .slt x y := by
    intro w x y
    by_cases hxy : x < y
    · have hyx : ¬ y ≤ x := by omega
      simp [evalCmp, hxy, hyx]
    · have hyx : y ≤ x := by omega
      simp [evalCmp, hxy, hyx]
  cases hv : (ValueOrInt.ofValue a).isValue
  · rw [hv] at hh
    refine ⟨AffineExpr.sub (.sym 1) (.sym 0), ValueOrInt.ofValue b, ValueOrInt.ofValue a,
      ?_, ?_, ?_, ?_, ?_⟩
    · simpa [CondState.push, signedConstraint, swapPredicate] using hh
    · apply hc
      simpa [CondState.push, signedConstraint, swapPredicate] using hh
    · intro h; cases h
    · intro _; exact ⟨rfl, rfl, rfl⟩
    · intro ρ w
      have h2 := (hm ρ w).2
      simp only [signedConstraint, swapPredicate, signedSlack, List.nil_append,
        List.length_nil, Nat.mul_zero, Nat.zero_add] at h2
      refine ⟨h2.1, ?_, ?_⟩
      · intro hne
        rw [h2.1]
        omega
      · rw [h2.2, hneg]
  · rw [hv] at hh
    refine ⟨AffineExpr.sub (.sym 0) (.sym 1), ValueOrInt.ofValue a, ValueOrInt.ofValue b,
      ?_, ?_, ?_, ?_, ?_⟩
    · simpa [CondState.push, signedConstraint] using hh
    · apply hc
      simpa [CondState.push, signedConstraint] using hh
    · intro _; exact ⟨rfl, rfl, rfl⟩
    · intro h; cases h
    · intro ρ w
      have h2 := (hm ρ w).1
      simp only [signedConstraint, signedSlack, List.nil_append,
        List.length_nil, Nat.mul_zero, Nat.zero_add] at h2
      refine ⟨h2.1, ?_, ?_⟩
      · intro hne
        rw [h2.1]
        omega
      · rw [h2.2, hneg]

/-- C7 at `xor(i slt j, true)` for two loop variables: the single constraint is
`s0 - s1 >= 0` over `(i, j)`. -/
theorem C7_negated_slt_constraint_witness :
    isValidIndex scenarioI = true ∧ isValidIndex scenarioJ = true ∧
      (mkConstant 9 (.int 1) 1 .nested).isOne = true ∧
      ∃ e p q,
        handleCmp exampleEnv 1 .slt scenarioI scenarioJ ⟨[], [], []⟩ true =
          some (true, ⟨[e], [false], [p, q]⟩) ∧
        compileCondition exampleEnv 1 (0 + 2)
            (.opResult 11 (.int 1)
              (.mk .xOrI .nested
                [.opResult 10 (.int 1)
                  (.mk (.cmpI .slt) .nested [scenarioI, scenarioJ] [] [] [] []) 0,
                  mkConstant 9 (.int 1) 1 .nested]
                [] [] [] []) 0) false =
          some (true, ⟨[e], [false], [p, q]⟩) ∧
        ((ValueOrInt.ofValue scenarioI).isValue = true →
          p = ValueOrInt.ofValue scenarioI ∧ q = ValueOrInt.ofValue scenarioJ ∧
            e = AffineExpr.sub (.sym 0) (.sym 1)) ∧
        ((ValueOrInt.ofValue scenarioI).isValue = false →
          p = ValueOrInt.ofValue scenarioJ ∧ q = ValueOrInt.ofValue scenarioI ∧
            e = AffineExpr.sub (.sym 1) (.sym 0)) ∧
        ∀ (ρ : Nat → Int) (w : Nat),
          e.eval [] ([p, q].map (ValueOrInt.denote ρ)) =
              scenarioI.denote ρ - scenarioJ.denote ρ ∧
            (scenarioI.denote ρ ≠ scenarioJ.denote ρ →
              e.eval [] ([p, q].map (ValueOrInt.denote ρ)) ≠
                scenarioJ.denote ρ - scenarioI.denote ρ) ∧
            constraintHolds ([p, q].map (ValueOrInt.denote ρ)) e false =
              !evalCmp w .slt (scenarioI.denote ρ) (scenarioJ.denote ρ) :=
  ⟨by decide, by decide, by decide,
    C7_negated_slt_constraint exampleEnv 1 0 scenarioI scenarioJ (mkConstant 9 (.int 1) 1 .nested)
      11 10 (.int 1) (.int 1) .nested .nested (by decide) (by decide) (by decide)⟩

theorem composeLoop_exit (env : Env) (hasRewriter : Bool) (fuel : Nat) (map : AffineMap)
    (operands : List Value) (m : AffineMap) (ops : List Value)
    (hin : map.numInputs = operands.length)
    (h : composeLoop env hasRewriter fuel map operands = some (m, ops)) :
    need m ops = false ∧ m.numInputs = ops.length := by
  induction fuel generalizing map operands with
  | zero => simp [composeLoop] at h
  | succ k ih =>
    simp only [composeLoop] at h
    by_cases hn : need map operands = true
    · simp only [hn, if_true] at h
      cases hc : composeAffineMapAndOperands env hasRewriter map operands with
      | none => simp [hc] at h
      | some r =>
        obtain ⟨m1, ops1⟩ := r
        simp only [hc] at h
        by_cases hi : m1.numInputs = ops1.length
        · simp only [hi, ne_eq, not_true_eq_false, if_false] at h
          exact ih m1 ops1 hi h
        · simp [hi] at h
    · simp only [hn, Bool.false_eq_true, if_false, Option.some.injEq, Prod.mk.injEq] at h
      obtain ⟨h1, h2⟩ := h
      subst h1 h2
      exact ⟨by simpa using hn, hin⟩

theorem composeLoop_done (env : Env) (hasRewriter : Bool) (fuel : Nat) (map : AffineMap)
    (operands : List Value) (hn : need map operands = false) :
    composeLoop env hasRewriter (fuel + 1) map operands = some (map, operands) := by
  simp [composeLoop, hn]

theorem castOperands_index (env : Env) (indexMap : List (Value × Value)) (ops : List Value)
    (h : ∀ v ∈ ops, v.ty = .index) : castOperands env indexMap ops = ops := by
  unfold castOperands
  induction ops with
  | nil => rfl
  | cons v vs ih =>
    have hv : v.ty = .index := h v (List.mem_cons_self _ _)
    have hvs : ∀ w ∈ vs, w.ty = .index := fun w hw => h w (List.mem_cons_of_mem _ hw)
    simp [hv, ih hvs]

theorem castOperands_length (env : Env) (indexMap : List (Value × Value)) (ops : List Value) :
    (castOperands env indexMap ops).length = ops.length := by
  simp [castOperands]

theorem need_simplified (env : Env) (m : AffineMap) (ops : List Value)
    (hd : ∀ x, (env.simplifyAffineMap x).numDims = x.numDims) :
    need (env.simplifyAffineMap m) ops = need m ops := by
  simp [need, hd]

theorem fully2Compose_fixed (env : Env) (hasBuilder : Bool) (m : AffineMap) (ops : List Value)
    (hmm : env.simplifyAffineMap m = m) (hmi : m.numInputs = ops.length)
    (hn : need m ops = false) (hty : hasBuilder = true → ∀ v ∈ ops, v.ty = .index)
    (fuel2 : Nat) (hf : 0 < fuel2) :
    composeLoop env hasBuilder fuel2 m ops = some (m, ops) ∧
      fully2ComposeAffineMapAndOperands env hasBuilder fuel2 m ops = some (m, ops) := by
  obtain ⟨k, rfl⟩ : ∃ k, fuel2 = k + 1 := ⟨fuel2 - 1, by omega⟩
  have hloop := composeLoop_done env hasBuilder k m ops hn
  refine ⟨hloop, ?_⟩
  unfold fully2ComposeAffineMapAndOperands
  simp only [hmi, ne_eq, not_true_eq_false, if_false, hloop, hmm]
  cases hasBuilder
  · simp
  · simp [castOperands_index env _ ops (hty rfl)]

/-- C9 (as the code has it): a pair `(m, ops)` returned by
`fully2ComposeAffineMapAndOperands` without a builder, or with a builder when every operand
the composition loop ends with is of index type (so that the closing loop inserts no
cast), has `need(m, ops)` false, and a second call on it with any positive fuel runs no
composition step and returns the same map and the same operand list. `simplifyAffineMap`
is taken to keep the dim and symbol counts and to be idempotent. -/
theorem C9_normalization_idempotent (env : Env) (hasBuilder : Bool) (fuel : Nat)
    (map : AffineMap) (operands : List Value) (m : AffineMap) (ops : List Value)
    (hd : ∀ x, (env.simplifyAffineMap x).numDims = x.numDims)
    (hs : ∀ x, (env.simplifyAffineMap x).numSymbols = x.numSymbols)
    (hi : ∀ x, env.simplifyAffineMap (env.simplifyAffineMap x) = env.simplifyAffineMap x)
    (h : fully2ComposeAffineMapAndOperands env hasBuilder fuel map operands = some (m, ops))
    (hcast : hasBuilder = true → ∀ mL opsL,
      composeLoop env hasBuilder fuel map operands = some (mL, opsL) →
        ∀ v ∈ opsL, v.ty = .index) :
    need m ops = false ∧
      ∀ fuel2, 0 < fuel2 →
        composeLoop env hasBuilder fuel2 m ops = some (m, ops) ∧
          fully2ComposeAffineMapAndOperands env hasBuilder fuel2 m ops = some (m, ops) := by
  unfold fully2ComposeAffineMapAndOperands at h
  by_cases hin : map.numInputs = operands.length
  · simp only [hin, ne_eq, not_true_eq_false, if_false] at h
    cases hl : composeLoop env hasBuilder fuel map operands with
    | none => simp [hl] at h
    | some r =>
      obtain ⟨mL, opsL⟩ := r
      obtain ⟨hneed, hlen⟩ := composeLoop_exit env hasBuilder fuel map operands mL opsL hin hl
      simp only [hl] at h
      have hm : m = env.simplifyAffineMap mL := by
        cases hasBuilder <;> simp at h <;> exact h.1.symm
      have hops : ops = opsL := by
        cases hasBuilder
        · simp at h
          exact h.2.symm
        · simp at h
          rw [← h.2]
          exact castOperands_index env _ opsL (hcast rfl mL opsL hl)
      have hmi : m.numInputs = ops.length := by
        rw [hm, hops, ← hlen]
        simp [AffineMap.numInputs, hd, hs]
      have hmm : env.simplifyAffineMap m = m := by rw [hm, hi]
      have hn : need m ops = false := by
        rw [hm, hops, need_simplified env mL opsL hd]
        exact hneed
      have hty : hasBuilder = true → ∀ v ∈ ops, v.ty = .index := by
        intro hb
        rw [hops]
        exact hcast hb mL opsL hl
      exact ⟨hn, fun fuel2 hf => fully2Compose_fixed env hasBuilder m ops hmm hmi hn hty fuel2 hf⟩
  · simp [hin] at h

/-- C9 at the scenario with a builder: the composition loop ends with the operands
`[i, j, k]`, all of index type; the call returns `(d0, d1)[s0] -> (d0 + (d1 + s0))` on
them, `need` is false on that pair and a second call changes nothing. -/
theorem C9_normalization_idempotent_witness :
    fully2ComposeAffineMapAndOperands exampleEnv true 2 scenarioMap
        [scenarioI, scenarioApply] =
        some (⟨2, 1, [.add (.dim 0) (.add (.dim 1) (.sym 0))]⟩,
          [scenarioI, scenarioJ, scenarioK]) ∧
      composeLoop exampleEnv true 2 scenarioMap [scenarioI, scenarioApply] =
        some (⟨2, 1, [.add (.dim 0) (.add (.dim 1) (.sym 0))]⟩,
          [scenarioI, scenarioJ, scenarioK]) ∧
      (∀ v ∈ [scenarioI, scenarioJ, scenarioK], v.ty = .index) ∧
      (need ⟨2, 1, [.add (.dim 0) (.add (.dim 1) (.sym 0))]⟩
          [scenarioI, scenarioJ, scenarioK] = false ∧
        ∀ fuel2, 0 < fuel2 →
          composeLoop exampleEnv true fuel2 ⟨2, 1, [.add (.dim 0) (.add (.dim 1) (.sym 0))]⟩
              [scenarioI, scenarioJ, scenarioK] =
            some (⟨2, 1, [.add (.dim 0) (.add (.dim 1) (.sym 0))]⟩,
              [scenarioI, scenarioJ, scenarioK]) ∧
          fully2ComposeAffineMapAndOperands exampleEnv true fuel2
              ⟨2, 1, [.add (.dim 0) (.add (.dim 1) (.sym 0))]⟩
              [scenarioI, scenarioJ, scenarioK] =
            some (⟨2, 1, [.add (.dim 0) (.add (.dim 1) (.sym 0))]⟩,
              [scenarioI, scenarioJ, scenarioK])) :=
  ⟨rfl, rfl, by decide,
    C9_normalization_idempotent exampleEnv true 2 scenarioMap [scenarioI, scenarioApply]
      ⟨2, 1, [.add (.dim 0) (.add (.dim 1) (.sym 0))]⟩ [scenarioI, scenarioJ, scenarioK]
      (fun _ => rfl) (fun _ => rfl) (fun _ => rfl) rfl
      (fun _ mL opsL hl => by
        have e : composeLoop exampleEnv true 2 scenarioMap [scenarioI, scenarioApply] =
            some (⟨2, 1, [.add (.dim 0) (.add (.dim 1) (.sym 0))]⟩,
              [scenarioI, scenarioJ, scenarioK]) := rfl
        rw [e] at hl
        cases hl
        decide)⟩

/-- C9 fails as stated: with a builder, the map `()[s0] -> (s0)` on the operand
`5 : i32` defined inside a loop body is returned after no composition step with the
operand replaced by an inserted `arith.index_cast`; on the returned pair `need` is true,
so a second call runs a composition step, whose normalizer replaces the cast by the
constant again. -/
theorem C9_inserted_cast_needs_composition :
    need ⟨0, 1, [.sym 0]⟩ [nestedConstant32] = false ∧
      fully2ComposeAffineMapAndOperands exampleEnv true 1 ⟨0, 1, [.sym 0]⟩ [nestedConstant32] =
        some (⟨0, 1, [.sym 0]⟩, [insertedIndexCast exampleEnv nestedConstant32]) ∧
      need ⟨0, 1, [.sym 0]⟩ [insertedIndexCast exampleEnv nestedConstant32] = true ∧
      (AffineApplyNormalizer.new exampleEnv true ⟨0, 1, [.sym 0]⟩
          [insertedIndexCast exampleEnv nestedConstant32]).map
        AffineApplyNormalizer.getOperands = some [nestedConstant32] :=
  ⟨rfl, rfl, rfl, rfl⟩

theorem isValidSymbolInt_of_constant (recur : Bool) (v : Value) (h : v.isConstantOp = true) :
    isValidSymbolInt recur v = true := by
  cases v with
  | blockArg id ty owner argNo => simp [Value.isConstantOp] at h
  | opResult id ty op resNo =>
    cases op with
    | mk kind place operands tb eb y1 y2 =>
      cases kind <;> simp [Value.isConstantOp] at h
      simp [isValidSymbolInt, isValidSymbolIntOp, OpKind.isConstant]

theorem isValidSymbolInt_of_top (recur : Bool) (v : Value) (h : isTopLevelValue v = true) :
    isValidSymbolInt recur v = true := by
  cases v with
  | blockArg id ty owner argNo => simpa [isValidSymbolInt] using h
  | opResult id ty op resNo => simp [isValidSymbolInt, h]

/-- C10 (as the code has it): `isValidSymbolInt` with `recur = true` is true on
`select(cond, x, y)` when `cond`, `x` and `y` are constants; it is false on a select that
is not top level when `x` is the result of a call (or of any operation it does not know)
that is not top level; and it is true when `x` is the result of a call that stands at the
top level of the affine scope and `cond`, `y` are constants, because a top-level value is
always a valid symbol. -/
theorem C10_select_symbol (sid : Nat) (sty : Ty) (cond x y : Value) :
    (∀ splace, cond.isConstantOp = true → x.isConstantOp = true → y.isConstantOp = true →
      isValidSymbolInt true
        (.opResult sid sty (.mk .select splace [cond, x, y] [] [] [] []) 0) = true) ∧
    (∀ xid xty name args,
      isValidSymbolInt true
        (.opResult sid sty
          (.mk .select .nested
            [cond, .opResult xid xty (.mk (.other name) .nested args [] [] [] []) 0, y]
            [] [] [] []) 0) = false) ∧
    (∀ xid xty name args splace, cond.isConstantOp = true → y.isConstantOp = true →
      isValidSymbolInt true
        (.opResult sid sty
          (.mk .select splace
            [cond, .opResult xid xty (.mk (.other name) .top args [] [] [] []) 0, y]
            [] [] [] []) 0) = true) := by
  refine ⟨?_, ?_, ?_⟩
  · intro splace hc hx hy
    have h1 := isValidSymbolInt_of_constant true cond hc
    have h2 := isValidSymbolInt_of_constant true x hx
    have h3 := isValidSymbolInt_of_constant true y hy
    simp [isValidSymbolInt, isValidSymbolIntOp, isValidSymbolIntAll, OpKind.isSymbolArith,
      h1, h2, h3]
  · intro xid xty name args
    simp [isValidSymbolInt, isValidSymbolIntOp, isValidSymbolIntAll, OpKind.isSymbolArith,
      OpKind.isConstant, isTopLevelValue, affineIsValidSymbol]
  · intro xid xty name args splace hc hy
    have h1 := isValidSymbolInt_of_constant true cond hc
    have h3 := isValidSymbolInt_of_constant true y hy
    have h2 : isValidSymbolInt true
        (.opResult xid xty (.mk (.other name) .top args [] [] [] []) 0) = true :=
      isValidSymbolInt_of_top _ _ rfl
    simp [isValidSymbolIntOp, isValidSymbolIntAll, OpKind.isSymbolArith, h1, h2, h3,
      isValidSymbolInt.eq_2]

/-- C10 on a select inside a loop body with the condition `true` and the constant `1`:
valid with a constant `x`, not valid with a call result defined inside the loop body,
valid with a call result defined at top level. -/
theorem C10_select_symbol_witness :
    isValidSymbolInt true
        (selectValue 71 (mkConstant 72 (.int 1) 1 .top) (mkConstant 74 .index 1 .top)
          (mkConstant 73 .index 1 .top)) = true ∧
      isValidSymbolInt true
        (selectValue 71 (mkConstant 72 (.int 1) 1 .top) (callResult 70 .nested)
          (mkConstant 73 .index 1 .top)) = false ∧
      isValidSymbolInt true
        (selectValue 71 (mkConstant 72 (.int 1) 1 .top) (callResult 70 .top)
          (mkConstant 73 .index 1 .top)) = true :=
  ⟨(C10_select_symbol 71 .index (mkConstant 72 (.int 1) 1 .top) (mkConstant 74 .index 1 .top)
      (mkConstant 73 .index 1 .top)).1 .nested rfl rfl rfl,
    (C10_select_symbol 71 .index (mkConstant 72 (.int 1) 1 .top) (callResult 70 .nested)
      (mkConstant 73 .index 1 .top)).2.1 70 .index "func.call" [],
    (C10_select_symbol 71 .index (mkConstant 72 (.int 1) 1 .top) (callResult 70 .top)
      (mkConstant 73 .index 1 .top)).2.2 70 .index "func.call" [] .nested rfl rfl⟩

/-- C10 fails as stated: with `x` the result of a call standing at the top level of the
affine scope, `isValidSymbolInt` is true on the select inside a loop body. -/
theorem C10_top_level_call_is_symbol :
    isTopLevelValue (callResult 70 .top) = true ∧
      isValidSymbolInt true
        (selectValue 71 (mkConstant 72 (.int 1) 1 .top) (callResult 70 .top)
          (mkConstant 73 .index 1 .top)) = true :=
  ⟨rfl, rfl⟩

/-! ### Loop legality -/

theorem collectParallel_eq (ops : List LoopOp) :
    collectParallel ops =
      if ops.any LoopOp.unmodelledEffect then none
      else some (ops.filter LoopOp.isCollected) := by
  induction ops with
  | nil => rfl
  | cons op ops ih =>
    unfold collectParallel
    rw [ih]
    cases hk : op.kind <;>
      by_cases ha : ops.any LoopOp.unmodelledEffect = true <;>
      cases hl : isLocallyDefined op.memref <;>
      cases hao : op.allocOnly <;> cases hmf : op.memoryEffectFree <;>
      simp [List.filter_cons, LoopOp.unmodelledEffect, LoopOp.isCollected, hk, ha, hl, hao,
        hmf]

theorem collectLockStep_eq (ops : List LoopOp) :
    collectLockStep ops =
      if ops.any LoopOp.notReadNone then none
      else some (ops.filter LoopOp.isCollected) := by
  induction ops with
  | nil => rfl
  | cons op ops ih =>
    unfold collectLockStep
    rw [ih]
    cases hk : op.kind <;>
      by_cases ha : ops.any LoopOp.notReadNone = true <;>
      cases hl : isLocallyDefined op.memref <;>
      cases hrn : op.readNone <;>
      simp [List.filter_cons, LoopOp.notReadNone, LoopOp.isCollected, hk, ha, hl, hrn]

theorem noDependenceFrom_iff (oracle : DependenceOracle) (depth : Nat) (src : LoopOp)
    (ds : List LoopOp) :
    noDependenceFrom oracle depth src ds = true ↔
      ∀ dst ∈ ds, oracle src dst depth = .NoDependence := by
  induction ds with
  | nil => simp [noDependenceFrom]
  | cons d ds ih =>
    unfold noDependenceFrom
    by_cases h : oracle src d depth = .NoDependence
    · simp [h, ih]
    · simp [h]

theorem noDependenceAmong_iff (oracle : DependenceOracle) (depth : Nat)
    (all ss : List LoopOp) :
    noDependenceAmong oracle depth all ss = true ↔
      ∀ src ∈ ss, ∀ dst ∈ all, oracle src dst depth = .NoDependence := by
  induction ss with
  | nil => simp [noDependenceAmong]
  | cons s ss ih =>
    unfold noDependenceAmong
    by_cases h : noDependenceFrom oracle depth s all = true
    · have h2 := (noDependenceFrom_iff oracle depth s all).mp h
      simp [h, ih]
      exact fun _ => h2
    · have h2 : ¬ ∀ dst ∈ all, oracle s dst depth = .NoDependence :=
        fun hh => h ((noDependenceFrom_iff oracle depth s all).mpr hh)
      simp [h]
      intro hh
      exact absurd hh h2

theorem isLoopMemoryParallel_iff (oracle : DependenceOracle) (forOp : AffineForLoop) :
    isLoopMemoryParallel oracle forOp = true ↔
      (∀ r ∈ forOp.resultIsMemRef, r = false) ∧
      (∀ op ∈ forOp.walk, op.unmodelledEffect = false) ∧
      (∀ src ∈ forOp.walk.filter LoopOp.isCollected,
        ∀ dst ∈ forOp.walk.filter LoopOp.isCollected,
          oracle src dst (getNestingDepth forOp.parents + 1) = .NoDependence) := by
  unfold isLoopMemoryParallel
  rw [collectParallel_eq]
  by_cases hr : forOp.resultIsMemRef.any id = true
  · simp only [hr, if_true]
    constructor
    · intro h; cases h
    · rintro ⟨h1, -⟩
      obtain ⟨r, hr1, hr2⟩ := List.any_eq_true.mp hr
      have := h1 r hr1
      simp_all
  · have hr2 : ∀ r ∈ forOp.resultIsMemRef, r = false := by
      intro r hmem
      cases hrv : r
      · rfl
      · exact absurd (List.any_eq_true.mpr ⟨r, hmem, by simp [hrv]⟩) hr
    simp only [hr, Bool.false_eq_true, if_false]
    by_cases hw : forOp.walk.any LoopOp.unmodelledEffect = true
    · simp only [hw, if_true]
      constructor
      · intro h; cases h
      · rintro ⟨-, h2, -⟩
        obtain ⟨op, ho1, ho2⟩ := List.any_eq_true.mp hw
        have := h2 op ho1
        simp_all
    · have hw2 : ∀ op ∈ forOp.walk, op.unmodelledEffect = false := by
        intro op hmem
        cases hov : op.unmodelledEffect
        · rfl
        · exact absurd (List.any_eq_true.mpr ⟨op, hmem, hov⟩) hw
      simp only [hw, Bool.false_eq_true, if_false]
      rw [noDependenceAmong_iff]
      exact ⟨fun h => ⟨hr2, hw2, h⟩, fun h => h.2.2⟩

theorem lockStepPair_of_common (oracle : DependenceOracle) (forId depth : Nat)
    (src dst : LoopOp) (b : Bool)
    (hb : srcAppearsBeforeDstInAncestralBlock src.ancestors dst.ancestors = some b) :
    lockStepPair oracle forId depth src dst =
      some (!lockStepDisqualifies oracle forId depth src dst) := by
  unfold lockStepPair lockStepDisqualifies
  rw [hb]
  cases ho : oracle src dst depth <;>
    by_cases hs : src.parentFor = forId <;>
    by_cases hd : dst.parentFor = forId <;>
    by_cases hi : src.id = dst.id <;>
    cases b <;>
    cases ht : getDepType src dst <;>
    simp [hs, hd, hi]

theorem lockStepFrom_of_common (oracle : DependenceOracle) (forId depth : Nat)
    (src : LoopOp) (ds : List LoopOp)
    (hc : ∀ dst ∈ ds,
      srcAppearsBeforeDstInAncestralBlock src.ancestors dst.ancestors ≠ none) :
    lockStepFrom oracle forId depth src ds =
      some (ds.all (fun dst => !lockStepDisqualifies oracle forId depth src dst)) := by
  induction ds with
  | nil => rfl
  | cons d ds ih =>
    unfold lockStepFrom
    cases hb : srcAppearsBeforeDstInAncestralBlock src.ancestors d.ancestors with
    | none => exact absurd hb (hc d (List.mem_cons_self _ _))
    | some b =>
      rw [lockStepPair_of_common oracle forId depth src d b hb,
        ih (fun dst hm => hc dst (List.mem_cons_of_mem _ hm))]
      cases hq : lockStepDisqualifies oracle forId depth src d <;> simp [List.all_cons, hq]

theorem lockStepAmong_of_common (oracle : DependenceOracle) (forId depth : Nat)
    (all ss : List LoopOp)
    (hc : ∀ src ∈ ss, ∀ dst ∈ all,
      srcAppearsBeforeDstInAncestralBlock src.ancestors dst.ancestors ≠ none) :
    lockStepAmong oracle forId depth all ss =
      some (ss.all (fun src =>
        all.all (fun dst => !lockStepDisqualifies oracle forId depth src dst))) := by
  induction ss with
  | nil => rfl
  | cons s ss ih =>
    unfold lockStepAmong
    rw [lockStepFrom_of_common oracle forId depth s all (hc s (List.mem_cons_self _ _)),
      ih (fun src hm => hc src (List.mem_cons_of_mem _ hm))]
    cases hq : all.all (fun dst => !lockStepDisqualifies oracle forId depth s dst) <;>
      simp only [List.all_cons, hq, Bool.true_and, Bool.false_and]

theorem isLoopMemoryLockStepExecutable_eq (oracle : DependenceOracle)
    (forOp : AffineForLoop)
    (hc : ∀ src ∈ forOp.walk.filter LoopOp.isCollected,
      ∀ dst ∈ forOp.walk.filter LoopOp.isCollected,
        srcAppearsBeforeDstInAncestralBlock src.ancestors dst.ancestors ≠ none) :
    isLoopMemoryLockStepExecutable oracle forOp =
      some (!forOp.resultIsMemRef.any id && !forOp.walk.any LoopOp.notReadNone &&
        (forOp.walk.filter LoopOp.isCollected).all (fun src =>
          (forOp.walk.filter LoopOp.isCollected).all (fun dst =>
            !lockStepDisqualifies oracle forOp.id (getNestingDepth forOp.parents + 1)
              src dst))) := by
  unfold isLoopMemoryLockStepExecutable
  rw [collectLockStep_eq]
  cases forOp.resultIsMemRef.any id
  · cases forOp.walk.any LoopOp.notReadNone
    · simp only [Bool.false_eq_true, if_false]
      rw [lockStepAmong_of_common _ _ _ _ _ hc]
      simp
    · simp
  · simp

theorem isLocallyDefined_eq_allocatedInside (v : MemRefValue) :
    isLocallyDefined v = v.allocatedInside := by
  induction v with
  | blockArg id => rfl
  | result id allocates insideLoop =>
    simp [isLocallyDefined, MemRefValue.allocatedInside, MemRefValue.viewChain,
      MemRefValue.allocatedHere]
  | view id allocates insideLoop source ih =>
    unfold MemRefValue.allocatedInside at ih
    simp [isLocallyDefined, MemRefValue.allocatedInside, MemRefValue.viewChain,
      MemRefValue.allocatedHere, ih]

theorem getNestingDepth_eq_enclosingLoopDims (parents : List EnclosingOp) :
    getNestingDepth parents = enclosingLoopDims parents := by
  induction parents with
  | nil => rfl
  | cons p ps ih =>
    unfold enclosingLoopDims at ih
    cases p <;> simp [getNestingDepth, enclosingLoopDims, ih] <;> omega

theorem srcAppearsBefore_eq_appearsBefore (a b : List (Nat × Nat)) :
    srcAppearsBeforeDstInAncestralBlock a b = appearsBefore a b := by
  induction a generalizing b with
  | nil => simp [srcAppearsBeforeDstInAncestralBlock, appearsBefore, commonBlocks]
  | cons x r1 ih =>
    obtain ⟨b1, p1⟩ := x
    cases b with
    | nil => simp [srcAppearsBeforeDstInAncestralBlock, appearsBefore, commonBlocks]
    | cons y r2 =>
      obtain ⟨b2, p2⟩ := y
      unfold srcAppearsBeforeDstInAncestralBlock
      by_cases hb : b1 = b2
      · have ih2 := ih r2
        unfold appearsBefore at ih2
        rw [ih2]
        have hc : commonBlocks ((b1, p1) :: r1) ((b2, p2) :: r2) =
            (p1, p2) :: commonBlocks r1 r2 := by
          simp [commonBlocks, List.takeWhile_cons, hb]
        unfold appearsBefore
        rw [hc]
        cases hcb : commonBlocks r1 r2 with
        | nil => simp [hb]
        | cons z zs =>
          have hne : (z :: zs).getLast? ≠ none := by simp
          cases hl : (z :: zs).getLast? with
          | none => exact absurd hl hne
          | some q => simp [hb, List.getLast?_cons_cons, hl]
      · simp [hb, appearsBefore, commonBlocks, List.takeWhile_cons]

theorem getDepType_eq_dependenceKind (src dst : LoopOp) :
    getDepType src dst = dependenceKind src dst := by
  unfold getDepType dependenceKind LoopOp.isWrite
  by_cases hs : src.kind = .affineWrite <;> by_cases hd : dst.kind = .affineWrite <;>
    simp [hs, hd]

theorem isCollected_eq_isOutsideAccess :
    LoopOp.isCollected = LoopOp.isOutsideAccess := by
  funext op
  simp [LoopOp.isCollected, LoopOp.isOutsideAccess, isLocallyDefined_eq_allocatedInside]

theorem filter_isCollected_eq_accesses (forOp : AffineForLoop) :
    forOp.walk.filter LoopOp.isCollected = forOp.accesses := by
  rw [isCollected_eq_isOutsideAccess]
  rfl

theorem lockStepDisqualifies_eq_pairDisqualifies (oracle : DependenceOracle)
    (forId depth : Nat) (src dst : LoopOp) :
    lockStepDisqualifies oracle forId depth src dst =
      pairDisqualifies oracle forId depth src dst := by
  simp [lockStepDisqualifies, pairDisqualifies, srcAppearsBefore_eq_appearsBefore,
    getDepType_eq_dependenceKind]

/-- C11: `isLoopMemoryParallel` returns true exactly when no result of the loop has a
memref type, the walk meets no operation with unmodelled memory effects, and the
dependence oracle, called at the enclosing affine nesting depth plus one, answers
`NoDependence` for every ordered pair of affine reads and writes of memrefs not allocated
inside the loop (the pairs of an access with itself included); so an answer `Failure` for
some pair makes the result false just as `HasDependence` does. The depth the code computes
with `getNestingDepth` is that number of enclosing loop dimensions, and the memrefs it
exempts with `isLocallyDefined` are those allocated inside the loop. -/
theorem C11_memory_parallel_iff (oracle : DependenceOracle) (forOp : AffineForLoop) :
    (isLoopMemoryParallel oracle forOp = true ↔
      (∀ r ∈ forOp.resultIsMemRef, r = false) ∧
      (∀ op ∈ forOp.walk, op.unmodelledEffect = false) ∧
      (∀ src ∈ forOp.accesses, ∀ dst ∈ forOp.accesses,
        oracle src dst (enclosingLoopDims forOp.parents + 1) = .NoDependence)) ∧
    (∀ src ∈ forOp.accesses, ∀ dst ∈ forOp.accesses,
      (oracle src dst (enclosingLoopDims forOp.parents + 1) = .Failure ∨
        oracle src dst (enclosingLoopDims forOp.parents + 1) = .HasDependence) →
      isLoopMemoryParallel oracle forOp = false) ∧
    getNestingDepth forOp.parents = enclosingLoopDims forOp.parents ∧
    (∀ v : MemRefValue, isLocallyDefined v = v.allocatedInside) := by
  have hiff := isLoopMemoryParallel_iff oracle forOp
  rw [filter_isCollected_eq_accesses, getNestingDepth_eq_enclosingLoopDims] at hiff
  refine ⟨hiff, ?_, getNestingDepth_eq_enclosingLoopDims _,
    isLocallyDefined_eq_allocatedInside⟩
  intro src hs dst hd h
  cases hres : isLoopMemoryParallel oracle forOp
  · rfl
  · have h3 := (hiff.mp hres).2.2 src hs dst hd
    rw [h3] at h
    rcases h with h | h <;> cases h

/-- C11 at loop 200 over `[0, 10)`, which lies at depth 3 and accesses `a[i]` and element
0 of a scratch buffer allocated in its body, directly and through a view: with the test
that is exact at depth 4 the loop is memory parallel, the accesses to the scratch buffer
being exempt; with the test that answers at depth 1 only, the failure of the oracle makes
it not parallel. -/
theorem C11_memory_parallel_iff_witness :
    nestedLoopWithScratch.accesses =
        [nestedOp 203 .affineRead arrayA [.dim 0] false false 2,
          nestedOp 206 .affineWrite arrayA [.dim 0] false false 5] ∧
      enclosingLoopDims nestedLoopWithScratch.parents + 1 = 4 ∧
      isLoopMemoryParallel (exactOracleAt 4 0 10) nestedLoopWithScratch = true ∧
      isLoopMemoryParallel (exactOracleAt 1 0 10) nestedLoopWithScratch = false :=
  ⟨by decide, by decide,
    (C11_memory_parallel_iff (exactOracleAt 4 0 10) nestedLoopWithScratch).1.mpr
      ⟨by decide, by decide, by decide⟩,
    (C11_memory_parallel_iff (exactOracleAt 1 0 10) nestedLoopWithScratch).2.1
      (nestedOp 203 .affineRead arrayA [.dim 0] false false 2) (by decide)
      (nestedOp 206 .affineWrite arrayA [.dim 0] false false 5) (by decide)
      (Or.inl (by decide))⟩

/-- C12: `isLoopParallel` returns false when the loop has iter operands and no reduction
vector is passed, and returns false when a vector is passed and its size after
`getSupportedReductions` (for the empty vector of the caller: the number of recognized
reductions) differs from the number of iter operands; in every remaining case its result
is that of `isLoopMemoryParallel`. -/
theorem C12_loop_parallel_cases (oracle : DependenceOracle)
    (supported : List LoopReduction) (forOp : AffineForLoop) :
    (0 < forOp.numIterOperands → isLoopParallel oracle supported forOp none = false) ∧
    (supported.length ≠ forOp.numIterOperands →
      isLoopParallel oracle supported forOp (some []) = false) ∧
    (∀ given : List LoopReduction,
      given.length + supported.length ≠ forOp.numIterOperands →
      isLoopParallel oracle supported forOp (some given) = false) ∧
    (forOp.numIterOperands = 0 →
      isLoopParallel oracle supported forOp none = isLoopMemoryParallel oracle forOp) ∧
    (∀ given : List LoopReduction,
      given.length + supported.length = forOp.numIterOperands →
      isLoopParallel oracle supported forOp (some given) =
        isLoopMemoryParallel oracle forOp) := by
  refine ⟨?_, ?_, ?_, ?_, ?_⟩
  · intro h
    simp [isLoopParallel, h]
  · intro h
    simp [isLoopParallel, h]
  · intro given h
    simp [isLoopParallel, h]
  · intro h
    simp [isLoopParallel, h]
  · intro given h
    simp [isLoopParallel, h]

/-- C12 at concrete loops: a loop with one iter operand and no reduction vector, a loop
with one iter operand and no recognized reduction, and the loop `a[i] = a[i] + 1`
without iter operands. -/
theorem C12_loop_parallel_cases_witness :
    isLoopParallel (exactOracle 0 10) []
        { loopSameElement with numIterOperands := 1 } none = false ∧
      isLoopParallel (exactOracle 0 10) []
        { loopSameElement with numIterOperands := 1 } (some []) = false ∧
      isLoopParallel (exactOracle 0 10) [] loopSameElement none =
        isLoopMemoryParallel (exactOracle 0 10) loopSameElement :=
  ⟨(C12_loop_parallel_cases (exactOracle 0 10) []
      { loopSameElement with numIterOperands := 1 }).1 (by decide),
    (C12_loop_parallel_cases (exactOracle 0 10) []
      { loopSameElement with numIterOperands := 1 }).2.1 (by decide),
    (C12_loop_parallel_cases (exactOracle 0 10) [] loopSameElement).2.2.2.1 rfl⟩

/-- C13: when every two collected accesses have a common block in the affine scope (the
assertion of the source), `isLoopMemoryLockStepExecutable` returns false if some ordered
pair of collected accesses disqualifies the loop (oracle failure; an access whose nearest
enclosing `affine.for` is another loop; a dependence of an access on itself; a RAW or WAW
dependence whose source does not appear before its destination), and returns true if no
pair does, the walk meets no operation that is not read-none and no result has a memref
type. A dependence whose source is a read (WAR or RAR) between two different accesses of
the loop never disqualifies, wherever the two appear; and `getDepType` classifies a pair
as the table does: write to write WAW, write to read RAW, read to write WAR, read to read
RAR. -/
theorem C13_lock_step_cases (oracle : DependenceOracle) (forOp : AffineForLoop)
    (hcommon : ∀ src ∈ forOp.accesses, ∀ dst ∈ forOp.accesses,
      appearsBefore src.ancestors dst.ancestors ≠ none) :
    ((∃ src ∈ forOp.accesses, ∃ dst ∈ forOp.accesses,
        pairDisqualifies oracle forOp.id (enclosingLoopDims forOp.parents + 1)
          src dst = true) →
      isLoopMemoryLockStepExecutable oracle forOp = some false) ∧
    ((∀ src ∈ forOp.accesses, ∀ dst ∈ forOp.accesses,
        pairDisqualifies oracle forOp.id (enclosingLoopDims forOp.parents + 1)
          src dst = false) →
      (∀ op ∈ forOp.walk, op.notReadNone = false) →
      (∀ r ∈ forOp.resultIsMemRef, r = false) →
      isLoopMemoryLockStepExecutable oracle forOp = some true) ∧
    (∀ src dst : LoopOp, src.kind = .affineRead →
      oracle src dst (enclosingLoopDims forOp.parents + 1) = .HasDependence →
      src.parentFor = forOp.id → dst.parentFor = forOp.id → src.id ≠ dst.id →
      (dependenceKind src dst = .WAR ∨ dependenceKind src dst = .RAR) ∧
        pairDisqualifies oracle forOp.id (enclosingLoopDims forOp.parents + 1)
          src dst = false) ∧
    (∀ src dst : LoopOp, getDepType src dst = dependenceKind src dst) := by
  have hc : ∀ src ∈ forOp.walk.filter LoopOp.isCollected,
      ∀ dst ∈ forOp.walk.filter LoopOp.isCollected,
        srcAppearsBeforeDstInAncestralBlock src.ancestors dst.ancestors ≠ none := by
    rw [filter_isCollected_eq_accesses]
    intro src hs dst hd
    rw [srcAppearsBefore_eq_appearsBefore]
    exact hcommon src hs dst hd
  have heq := isLoopMemoryLockStepExecutable_eq oracle forOp hc
  rw [filter_isCollected_eq_accesses, getNestingDepth_eq_enclosingLoopDims] at heq
  simp only [lockStepDisqualifies_eq_pairDisqualifies] at heq
  refine ⟨?_, ?_, ?_, getDepType_eq_dependenceKind⟩
  · rintro ⟨src, hs, dst, hd, h⟩
    rw [heq]
    have hall : (forOp.accesses.all (fun src =>
        forOp.accesses.all (fun dst =>
          !pairDisqualifies oracle forOp.id (enclosingLoopDims forOp.parents + 1)
            src dst))) = false := by
      cases hv : (forOp.accesses.all (fun src =>
        forOp.accesses.all (fun dst =>
          !pairDisqualifies oracle forOp.id (enclosingLoopDims forOp.parents + 1)
            src dst)))
      · rfl
      · have h1 := List.all_eq_true.mp hv src hs
        have h2 := List.all_eq_true.mp h1 dst hd
        rw [h] at h2
        cases h2
    rw [hall]
    simp
  · intro hpairs hwalk hres
    rw [heq]
    have h1 : forOp.resultIsMemRef.any id = false := by
      cases hv : forOp.resultIsMemRef.any id
      · rfl
      · obtain ⟨r, hr1, hr2⟩ := List.any_eq_true.mp hv
        have := hres r hr1
        simp_all
    have h2 : forOp.walk.any LoopOp.notReadNone = false := by
      cases hv : forOp.walk.any LoopOp.notReadNone
      · rfl
      · obtain ⟨op, ho1, ho2⟩ := List.any_eq_true.mp hv
        have := hwalk op ho1
        simp_all
    have h3 : (forOp.accesses.all (fun src =>
        forOp.accesses.all (fun dst =>
          !pairDisqualifies oracle forOp.id (enclosingLoopDims forOp.parents + 1)
            src dst))) = true := by
      apply List.all_eq_true.mpr
      intro src hs
      apply List.all_eq_true.mpr
      intro dst hd
      rw [hpairs src hs dst hd]
      rfl
    rw [h1, h2, h3]
    rfl
  · intro src dst hk ho hs hd hi
    have hw : ¬ src.kind = .affineWrite := by rw [hk]; decide
    constructor
    · unfold dependenceKind
      by_cases hdw : dst.kind = .affineWrite <;> simp [hw, hdw]
    · unfold pairDisqualifies dependenceKind
      by_cases hdw : dst.kind = .affineWrite <;> simp [hw, hdw, ho, hs, hd, hi]

/-- C13 over `[0, 10)`. The loop `a[i] = a[i - 1]` fails on the RAW dependence from the
store to the load, which appears first, and the loop `a[i - 1] = x; a[i] = y` on the WAW
dependence from the second store to the first. The loop `a[i] = x; y = a[i + 1]` is
accepted although a dependence runs from the load to the store that appears before it
(a WAR dependence from the later access to the earlier one, which does not disqualify),
and so is a loop of two loads between which a dependence is reported. -/
theorem C13_lock_step_cases_witness :
    isLoopMemoryLockStepExecutable (exactOracle 0 10) loopReadBehind = some false ∧
      isLoopMemoryLockStepExecutable (exactOracle 0 10) loopTwoStores = some false ∧
      (exactOracle 0 10 (accessOp 103 .affineRead (.add (.dim 0) (.const 1)) 2)
          (accessOp 101 .affineWrite (.dim 0) 0) 1 = .HasDependence ∧
        appearsBefore (accessOp 103 .affineRead (.add (.dim 0) (.const 1)) 2).ancestors
          (accessOp 101 .affineWrite (.dim 0) 0).ancestors = some false ∧
        ((dependenceKind (accessOp 103 .affineRead (.add (.dim 0) (.const 1)) 2)
              (accessOp 101 .affineWrite (.dim 0) 0) = .WAR ∨
            dependenceKind (accessOp 103 .affineRead (.add (.dim 0) (.const 1)) 2)
              (accessOp 101 .affineWrite (.dim 0) 0) = .RAR) ∧
          pairDisqualifies (exactOracle 0 10) loopStoreThenReadAhead.id
            (enclosingLoopDims loopStoreThenReadAhead.parents + 1)
            (accessOp 103 .affineRead (.add (.dim 0) (.const 1)) 2)
            (accessOp 101 .affineWrite (.dim 0) 0) = false) ∧
        isLoopMemoryLockStepExecutable (exactOracle 0 10) loopStoreThenReadAhead =
          some true) ∧
      isLoopMemoryLockStepExecutable distinctOracle loopTwoLoads = some true :=
  ⟨(C13_lock_step_cases (exactOracle 0 10) loopReadBehind (by decide)).1
      ⟨accessOp 103 .affineWrite (.dim 0) 2, by decide,
        accessOp 101 .affineRead (.add (.dim 0) (.const (-1))) 0, by decide, by decide⟩,
    (C13_lock_step_cases (exactOracle 0 10) loopTwoStores (by decide)).1
      ⟨accessOp 103 .affineWrite (.dim 0) 2, by decide,
        accessOp 101 .affineWrite (.add (.dim 0) (.const (-1))) 0, by decide, by decide⟩,
    ⟨by decide, by decide,
      (C13_lock_step_cases (exactOracle 0 10) loopStoreThenReadAhead (by decide)).2.2.1
        (accessOp 103 .affineRead (.add (.dim 0) (.const 1)) 2)
        (accessOp 101 .affineWrite (.dim 0) 0) rfl (by decide) rfl rfl (by decide),
      (C13_lock_step_cases (exactOracle 0 10) loopStoreThenReadAhead (by decide)).2.1
        (by decide) (by decide) (by decide)⟩,
    (C13_lock_step_cases distinctOracle loopTwoLoads (by decide)).2.1
      (by decide) (by decide) (by decide)⟩

theorem dependsInLoop_iff (lb ub : Int) (src dst : LoopOp) :
    dependsInLoop lb ub src dst = true ↔
      (src.isWrite = true ∨ dst.isWrite = true) ∧
        ∃ a b : Nat, a < b ∧ b < (ub - lb).toNat ∧
          sameElement (lb + a) (lb + b) src dst = true := by
  unfold dependsInLoop
  simp only [Bool.and_eq_true, Bool.or_eq_true, List.any_eq_true, List.mem_range,
    decide_eq_true_eq]
  constructor
  · rintro ⟨hw, a, -, b, hb, hab, hs⟩
    exact ⟨hw, a, b, hab, hb, hs⟩
  · rintro ⟨hw, a, b, hab, hb, hs⟩
    exact ⟨hw, a, lt_trans hab hb, b, hb, hab, hs⟩

theorem sameElement_accessOp (x y : Int) (i1 i2 : Nat) (k1 k2 : LoopOpKind)
    (e1 e2 : AffineExpr) (p1 p2 : Nat) :
    sameElement x y (accessOp i1 k1 e1 p1) (accessOp i2 k2 e2 p2) =
      decide (e1.eval [x] [] = e2.eval [y] []) := by
  simp [sameElement, accessOp]

theorem exactOracle_reads (lb ub : Int) (i1 i2 : Nat) (e1 e2 : AffineExpr) (p1 p2 : Nat) :
    exactOracle lb ub (accessOp i1 .affineRead e1 p1) (accessOp i2 .affineRead e2 p2) 1 =
      .NoDependence := by
  have h : dependsInLoop lb ub (accessOp i1 .affineRead e1 p1)
      (accessOp i2 .affineRead e2 p2) = false := by
    simp [dependsInLoop, LoopOp.isWrite, accessOp]
  simp [exactOracle, h]

theorem exactOracle_same_index (lb ub : Int) (i1 i2 : Nat) (k1 k2 : LoopOpKind)
    (p1 p2 : Nat) :
    exactOracle lb ub (accessOp i1 k1 (.dim 0) p1) (accessOp i2 k2 (.dim 0) p2) 1 =
      .NoDependence := by
  have h : dependsInLoop lb ub (accessOp i1 k1 (.dim 0) p1)
      (accessOp i2 k2 (.dim 0) p2) = false := by
    rw [Bool.eq_false_iff]
    intro hd
    obtain ⟨-, a, b, hab, -, hs⟩ := (dependsInLoop_iff _ _ _ _).mp hd
    rw [sameElement_accessOp] at hs
    simp [AffineExpr.eval] at hs
    omega
  simp [exactOracle, h]

theorem exactOracle_store_then_read_ahead (lb ub : Int) (i1 i2 : Nat) (p1 p2 : Nat) :
    exactOracle lb ub (accessOp i1 .affineWrite (.dim 0) p1)
      (accessOp i2 .affineRead (.add (.dim 0) (.const 1)) p2) 1 = .NoDependence := by
  have h : dependsInLoop lb ub (accessOp i1 .affineWrite (.dim 0) p1)
      (accessOp i2 .affineRead (.add (.dim 0) (.const 1)) p2) = false := by
    rw [Bool.eq_false_iff]
    intro hd
    obtain ⟨-, a, b, hab, -, hs⟩ := (dependsInLoop_iff _ _ _ _).mp hd
    rw [sameElement_accessOp] at hs
    simp [AffineExpr.eval] at hs
    omega
  simp [exactOracle, h]

theorem exactOracle_store_then_read_behind (lb ub : Int) (h2 : lb + 2 ≤ ub)
    (i1 i2 : Nat) (p1 p2 : Nat) :
    exactOracle lb ub (accessOp i1 .affineWrite (.dim 0) p1)
      (accessOp i2 .affineRead (.add (.dim 0) (.const (-1))) p2) 1 = .HasDependence := by
  have h : dependsInLoop lb ub (accessOp i1 .affineWrite (.dim 0) p1)
      (accessOp i2 .affineRead (.add (.dim 0) (.const (-1))) p2) = true := by
    rw [dependsInLoop_iff]
    refine ⟨Or.inl (by simp [LoopOp.isWrite, accessOp]), 0, 1, by decide, by omega, ?_⟩
    rw [sameElement_accessOp]
    simp [AffineExpr.eval]
  simp [exactOracle, h]

theorem exactOracle_ne_failure (lb ub : Int) (src dst : LoopOp) :
    exactOracle lb ub src dst 1 ≠ .Failure := by
  unfold exactOracle
  cases dependsInLoop lb ub src dst <;> simp

theorem loadComputeStore_collected (load store : LoopOp)
    (hl : load.isCollected = true) (hs : store.isCollected = true) :
    (loadComputeStore load store).walk.filter LoopOp.isCollected = [load, store] := by
  have h1 : (pureOp 102 1).isCollected = false := by decide
  have h2 : (yieldOp 104 3).isCollected = false := by decide
  have h3 : selfOp.isCollected = false := by decide
  simp [loadComputeStore, List.filter_cons, hl, hs, h1, h2, h3]

theorem notReadNone_of_isCollected (op : LoopOp) (h : op.isCollected = true) :
    op.notReadNone = false := by
  unfold LoopOp.isCollected at h
  unfold LoopOp.notReadNone
  cases hk : op.kind <;> simp_all

theorem loadComputeStore_common (load store : LoopOp)
    (hl : load.isCollected = true) (hs : store.isCollected = true)
    (h : ∀ src ∈ [load, store], ∀ dst ∈ [load, store],
      srcAppearsBeforeDstInAncestralBlock src.ancestors dst.ancestors ≠ none) :
    ∀ src ∈ (loadComputeStore load store).walk.filter LoopOp.isCollected,
      ∀ dst ∈ (loadComputeStore load store).walk.filter LoopOp.isCollected,
        srcAppearsBeforeDstInAncestralBlock src.ancestors dst.ancestors ≠ none := by
  rw [loadComputeStore_collected load store hl hs]
  exact h

theorem loadComputeStore_lockStep (oracle : DependenceOracle) (load store : LoopOp)
    (hl : load.isCollected = true) (hs : store.isCollected = true)
    (h : ∀ src ∈ [load, store], ∀ dst ∈ [load, store],
      srcAppearsBeforeDstInAncestralBlock src.ancestors dst.ancestors ≠ none)
    (hasReductions : Bool) :
    isLoopLockStepExecutable oracle (loadComputeStore load store) hasReductions =
      some (!lockStepDisqualifies oracle 100 1 load load &&
        !lockStepDisqualifies oracle 100 1 load store &&
        !lockStepDisqualifies oracle 100 1 store load &&
        !lockStepDisqualifies oracle 100 1 store store) := by
  have h0 : isLoopLockStepExecutable oracle (loadComputeStore load store) hasReductions =
      isLoopMemoryLockStepExecutable oracle (loadComputeStore load store) := by
    simp [isLoopLockStepExecutable, loadComputeStore]
  rw [h0, isLoopMemoryLockStepExecutable_eq oracle _ (loadComputeStore_common load store hl hs h),
    loadComputeStore_collected load store hl hs]
  have h1 : (pureOp 102 1).notReadNone = false := by decide
  have h2 : (yieldOp 104 3).notReadNone = false := by decide
  have h3 : selfOp.notReadNone = false := by decide
  simp [loadComputeStore, getNestingDepth, notReadNone_of_isCollected load hl,
    notReadNone_of_isCollected store hs, h1, h2, h3, Bool.and_assoc]

/-- C14: for the loop `a[i] = a[i] + 1` over any bounds, with any oracle that is exact at
depth 1, `isLoopParallel` without reduction recognition reports the loop as parallel:
each iteration touches its own element only. -/
theorem C14_same_element_loop_is_parallel (lb ub : Int) (oracle : DependenceOracle)
    (hexact : ∀ src dst, oracle src dst 1 = exactOracle lb ub src dst 1)
    (supported : List LoopReduction) :
    isLoopParallel oracle supported loopSameElement none = true := by
  have h0 : isLoopParallel oracle supported loopSameElement none =
      isLoopMemoryParallel oracle loopSameElement := by
    simp [isLoopParallel, loopSameElement, loadComputeStore]
  rw [h0, isLoopMemoryParallel_iff]
  refine ⟨by decide, by decide, ?_⟩
  have hc : loopSameElement.walk.filter LoopOp.isCollected =
      [accessOp 101 .affineRead (.dim 0) 0, accessOp 103 .affineWrite (.dim 0) 2] :=
    loadComputeStore_collected _ _ (by decide) (by decide)
  have hd : getNestingDepth loopSameElement.parents + 1 = 1 := rfl
  rw [hc, hd]
  intro src hs dst hd
  rw [hexact]
  simp only [List.mem_cons, List.mem_singleton, List.not_mem_nil, or_false] at hs hd
  rcases hs with rfl | rfl <;> rcases hd with rfl | rfl <;>
    exact exactOracle_same_index lb ub _ _ _ _ _ _

/-- C14 at the bounds `[0, 10)` with the exact oracle itself. -/
theorem C14_same_element_loop_is_parallel_witness :
    isLoopParallel (exactOracle 0 10) [] loopSameElement none = true :=
  C14_same_element_loop_is_parallel 0 10 (exactOracle 0 10) (fun _ _ => rfl) []

theorem lockStepDisqualifies_of_noDependence (oracle : DependenceOracle)
    (forId depth : Nat) (src dst : LoopOp)
    (h : oracle src dst depth = .NoDependence)
    (hs : src.parentFor = forId) (hd : dst.parentFor = forId) :
    lockStepDisqualifies oracle forId depth src dst = false := by
  simp [lockStepDisqualifies, h, hs, hd]

theorem lockStepDisqualifies_of_before (oracle : DependenceOracle)
    (forId depth : Nat) (src dst : LoopOp)
    (h : oracle src dst depth ≠ .Failure)
    (hs : src.parentFor = forId) (hd : dst.parentFor = forId) (hi : src.id ≠ dst.id)
    (hb : srcAppearsBeforeDstInAncestralBlock src.ancestors dst.ancestors = some true) :
    lockStepDisqualifies oracle forId depth src dst = false := by
  simp [lockStepDisqualifies, h, hs, hd, hi, hb]

theorem lockStepDisqualifies_of_write_after (oracle : DependenceOracle)
    (forId depth : Nat) (src dst : LoopOp)
    (h : oracle src dst depth = .HasDependence)
    (hb : srcAppearsBeforeDstInAncestralBlock src.ancestors dst.ancestors = some false)
    (hw : src.isWrite = true) :
    lockStepDisqualifies oracle forId depth src dst = true := by
  cases hdw : dst.isWrite <;> simp [lockStepDisqualifies, h, hb, getDepType, hw, hdw]

/-- C14 as stated fails: for the loop `a[i] = a[i] + 1` over `[0, 10)` with the exact
oracle the analysis does not report "not parallel". -/
theorem C14_same_element_loop_not_rejected :
    isLoopParallel (exactOracle 0 10) [] loopSameElement none ≠ false := by
  decide

/-- C15: for the loop `a[i] = a[i + 1]` (load of `a[i + 1]`, then store to `a[i]`) over
any bounds, with any oracle that is exact at depth 1, `isLoopLockStepExecutable` returns
true: the only dependence runs from the load to the store, which appears later. The loop
it rejects is `a[i] = a[i - 1]` with at least two iterations, where the store of one
iteration feeds the load of the next. -/
theorem C15_read_ahead_is_lock_step (lb ub : Int) (oracle : DependenceOracle)
    (hexact : ∀ src dst, oracle src dst 1 = exactOracle lb ub src dst 1)
    (hasReductions : Bool) :
    isLoopLockStepExecutable oracle loopReadAhead hasReductions = some true ∧
      (lb + 2 ≤ ub →
        isLoopLockStepExecutable oracle loopReadBehind hasReductions = some false) := by
  constructor
  · unfold loopReadAhead
    rw [loadComputeStore_lockStep oracle _ _ (by decide) (by decide) (by decide)]
    rw [lockStepDisqualifies_of_noDependence oracle 100 1 _ _
        (by rw [hexact]; exact exactOracle_reads lb ub _ _ _ _ _ _) rfl rfl,
      lockStepDisqualifies_of_before oracle 100 1
        (accessOp 101 .affineRead (.add (.dim 0) (.const 1)) 0)
        (accessOp 103 .affineWrite (.dim 0) 2)
        (by rw [hexact]; exact exactOracle_ne_failure lb ub _ _) rfl rfl (by decide) rfl,
      lockStepDisqualifies_of_noDependence oracle 100 1 _ _
        (by rw [hexact]; exact exactOracle_store_then_read_ahead lb ub _ _ _ _) rfl rfl,
      lockStepDisqualifies_of_noDependence oracle 100 1 _ _
        (by rw [hexact]; exact exactOracle_same_index lb ub _ _ _ _ _ _) rfl rfl]
    rfl
  · intro h2
    unfold loopReadBehind
    rw [loadComputeStore_lockStep oracle _ _ (by decide) (by decide) (by decide)]
    rw [lockStepDisqualifies_of_write_after oracle 100 1
        (accessOp 103 .affineWrite (.dim 0) 2)
        (accessOp 101 .affineRead (.add (.dim 0) (.const (-1))) 0)
        (by rw [hexact]; exact exactOracle_store_then_read_behind lb ub h2 _ _ _ _) rfl rfl]
    simp

/-- C15 at the bounds `[0, 10)` with the exact oracle itself. -/
theorem C15_read_ahead_is_lock_step_witness :
    isLoopLockStepExecutable (exactOracle 0 10) loopReadAhead false = some true ∧
      ((0 : Int) + 2 ≤ 10 ∧
        isLoopLockStepExecutable (exactOracle 0 10) loopReadBehind false = some false) :=
  ⟨(C15_read_ahead_is_lock_step 0 10 (exactOracle 0 10) (fun _ _ => rfl) false).1,
    by decide,
    (C15_read_ahead_is_lock_step 0 10 (exactOracle 0 10) (fun _ _ => rfl) false).2
      (by decide)⟩

/-- C15 as stated fails: for the loop `a[i] = a[i + 1]` over `[0, 10)` with the exact
oracle `isLoopLockStepExecutable` does not return false. -/
theorem C15_read_ahead_not_rejected :
    isLoopLockStepExecutable (exactOracle 0 10) loopReadAhead false ≠ some false := by
  decide

/-- C16: for the loop `tmp = a[i]; a[i] = tmp * 2` (load of `a[i]`, a pure multiply,
store to `a[i]`) over any bounds, with any oracle that is exact at depth 1,
`isLoopLockStepExecutable` returns true. -/
theorem C16_load_scale_store_is_lock_step (lb ub : Int) (oracle : DependenceOracle)
    (hexact : ∀ src dst, oracle src dst 1 = exactOracle lb ub src dst 1)
    (hasReductions : Bool) :
    isLoopLockStepExecutable oracle loopSameElement hasReductions = some true := by
  unfold loopSameElement
  rw [loadComputeStore_lockStep oracle _ _ (by decide) (by decide) (by decide)]
  rw [lockStepDisqualifies_of_noDependence oracle 100 1 _ _
      (by rw [hexact]; exact exactOracle_same_index lb ub _ _ _ _ _ _) rfl rfl,
    lockStepDisqualifies_of_noDependence oracle 100 1 _ _
      (by rw [hexact]; exact exactOracle_same_index lb ub _ _ _ _ _ _) rfl rfl,
    lockStepDisqualifies_of_noDependence oracle 100 1 _ _
      (by rw [hexact]; exact exactOracle_same_index lb ub _ _ _ _ _ _) rfl rfl,
    lockStepDisqualifies_of_noDependence oracle 100 1 _ _
      (by rw [hexact]; exact exactOracle_same_index lb ub _ _ _ _ _ _) rfl rfl]
  rfl

/-- C16 at the bounds `[0, 10)` with the exact oracle itself. -/
theorem C16_load_scale_store_is_lock_step_witness :
    isLoopLockStepExecutable (exactOracle 0 10) loopSameElement false = some true :=
  C16_load_scale_store_is_lock_step 0 10 (exactOracle 0 10) (fun _ _ => rfl) false

/-! ### Ranges of block arguments, `affine.if` conditions, valid indices -/

/-- C17: for the iter argument `%acc` (argument number 1) of
`affine.for %i = max (0, 5) to min (10, 20) iter_args(%acc = %init)`, `valueCmp` answers
`%acc >= 0` from the second result `5` of the lower bound map, although the argument
holds the initial value in the first iteration, here `-1`. -/
theorem C17_iter_arg_judged_by_bounds :
    valueCmp .GE iterArgAcc (.int 64 0) = true ∧
      iterArgAcc.denote (fun _ => -1) = -1 ∧
      evalCmp 64 .sge (iterArgAcc.denote (fun _ => -1)) 0 = false :=
  ⟨rfl, rfl, rfl⟩

theorem isOne_isZero_exclusive (v : Value) : (v.isOne && v.isZero) = false := by
  unfold Value.isOne Value.isZero
  cases v.constantValue with
  | none => rfl
  | some c =>
    by_cases h : c % 2 ^ v.ty.width = 1
    · simp [h]
    · simp [h]

/-- C18: `handle(AffineIfOp)` never returns true: it reads both `tval` and `fval` from
the terminator of the then block, and no constant matches both `m_One` and `m_Zero`. On
every result position of the `affine.if` it returns false and leaves the lists alone,
also for the encoding "then yields 1, else yields 0". -/
theorem C18_affine_if_never_compiled (set : IntegerSet) (operands thenYield : List Value)
    (idx : Nat) (st : CondState) (negated : Bool) :
    handleAffineIf set operands thenYield idx st negated =
        (if idx < thenYield.length then some (false, st) else none) ∧
      handleAffineIf ⟨0, 1, [.sym 0], [false]⟩ [scenarioK]
          [mkConstant 86 (.int 1) 1 .nested] 0 ⟨[], [], []⟩ false =
        some (false, ⟨[], [], []⟩) ∧
      compileCondition exampleEnv 1 5 (affineIfValue 1 0) false =
        some (false, ⟨[], [], []⟩) := by
  refine ⟨?_, rfl, rfl⟩
  unfold handleAffineIf
  by_cases h : idx < thenYield.length
  · simp only [h, if_true]
    rw [List.get?_eq_get h]
    have hx := isOne_isZero_exclusive (thenYield.get ⟨idx, h⟩)
    simp only [Bool.and_assoc, hx, Bool.and_false, Bool.false_eq_true, if_false]
  · simp only [h, if_false]
    rw [List.get?_eq_none.mpr (Nat.le_of_not_lt h)]

theorem isValidIndex_binaryOp (id : Nat) (ty : Ty) (kind : OpKind) (x s : Value) :
    isValidIndex (binaryOp id ty kind x s) =
      ((match kind with
        | .affineApply _ => true
        | _ => false) ||
      isValidSymbolInt true (binaryOp id ty kind x s) ||
      (match kind with
        | .indexCast => isValidIndex x
        | .indexCastUI => isValidIndex x
        | .truncI => isValidIndex x
        | .extSI => isValidIndex x
        | .extUI => isValidIndex x
        | .addI => isValidIndex x && isValidIndex s
        | .mulI =>
          (isValidIndex x && isValidSymbolInt true s) ||
            (isValidIndex s && isValidSymbolInt true x)
        | .divSI => isValidIndex x && isValidSymbolInt true s
        | .divUI => isValidIndex x && isValidSymbolInt true s
        | .remSI => isValidIndex x && s.isConstantOp
        | .remUI => isValidIndex x && s.isConstantOp
        | .subI => isValidIndex x && isValidIndex s
        | .shRUI => isValidIndex x && s.isConstantOp
        | .shLI => isValidIndex x && s.isConstantOp
        | .constant _ => true
        | _ => false)) := by
  unfold binaryOp
  cases kind <;> simp [isValidIndex]

/-- C20: for a valid index `x` and a valid symbol `s`, `isValidIndex` accepts the product
of the two in either operand order and the quotients `divsi` and `divui` of `x` by `s`.
A remainder (`remsi`, `remui`) of `x` by `s` or a shift (`shli`, `shrui`) of `x` by `s`
is accepted when `s` is defined by `arith.constant`; when it is not, the verdict is that
of `isValidSymbolInt` on the whole value. -/
theorem C20_valid_index_shapes (id : Nat) (ty : Ty) (x s : Value)
    (hx : isValidIndex x = true) (hs : isValidSymbolInt true s = true) :
    isValidIndex (binaryOp id ty .mulI x s) = true ∧
      isValidIndex (binaryOp id ty .mulI s x) = true ∧
      isValidIndex (binaryOp id ty .divSI x s) = true ∧
      isValidIndex (binaryOp id ty .divUI x s) = true ∧
      (s.isConstantOp = true →
        isValidIndex (binaryOp id ty .remSI x s) = true ∧
          isValidIndex (binaryOp id ty .remUI x s) = true ∧
          isValidIndex (binaryOp id ty .shLI x s) = true ∧
          isValidIndex (binaryOp id ty .shRUI x s) = true) ∧
      (s.isConstantOp = false →
        isValidIndex (binaryOp id ty .remSI x s) =
            isValidSymbolInt true (binaryOp id ty .remSI x s) ∧
          isValidIndex (binaryOp id ty .remUI x s) =
            isValidSymbolInt true (binaryOp id ty .remUI x s) ∧
          isValidIndex (binaryOp id ty .shLI x s) =
            isValidSymbolInt true (binaryOp id ty .shLI x s) ∧
          isValidIndex (binaryOp id ty .shRUI x s) =
            isValidSymbolInt true (binaryOp id ty .shRUI x s)) := by
  refine ⟨?_, ?_, ?_, ?_, ?_, ?_⟩
  · simp [isValidIndex_binaryOp, hx, hs]
  · simp [isValidIndex_binaryOp, hx, hs]
  · simp [isValidIndex_binaryOp, hx, hs]
  · simp [isValidIndex_binaryOp, hx, hs]
  · intro hc
    simp [isValidIndex_binaryOp, hx, hc]
  · intro hc
    simp [isValidIndex_binaryOp, hx, hc]

/-- C20 at the loop variable `i` with the constant `4` (all eight shapes accepted). -/
theorem C20_valid_index_shapes_witness :
    isValidIndex scenarioI = true ∧
      isValidSymbolInt true (mkConstant 91 .index 4 .nested) = true ∧
      isValidIndex (binaryOp 90 .index .mulI scenarioI (mkConstant 91 .index 4 .nested)) =
        true ∧
      isValidIndex (binaryOp 90 .index .remSI scenarioI (mkConstant 91 .index 4 .nested)) =
        true ∧
      isValidIndex (binaryOp 90 .index .shLI scenarioI (mkConstant 91 .index 4 .nested)) =
        true :=
  ⟨by decide, by decide,
    (C20_valid_index_shapes 90 .index scenarioI (mkConstant 91 .index 4 .nested)
      (by decide) (by decide)).1,
    ((C20_valid_index_shapes 90 .index scenarioI (mkConstant 91 .index 4 .nested)
      (by decide) (by decide)).2.2.2.2.1 (by decide)).1,
    ((C20_valid_index_shapes 90 .index scenarioI (mkConstant 91 .index 4 .nested)
      (by decide) (by decide)).2.2.2.2.1 (by decide)).2.2.1⟩

/-- C20 as stated fails: the loop variable `i` is a valid index and the function argument
`k` a valid symbol, but `isValidIndex` rejects `i remsi k`, `i remui k`, `i shli k` and
`i shrui k`. -/
theorem C20_remainder_by_symbol_rejected :
    isValidIndex scenarioI = true ∧ isValidSymbolInt true scenarioK = true ∧
      isValidIndex (binaryOp 90 .index .remSI scenarioI scenarioK) = false ∧
      isValidIndex (binaryOp 90 .index .remUI scenarioI scenarioK) = false ∧
      isValidIndex (binaryOp 90 .index .shLI scenarioI scenarioK) = false ∧
      isValidIndex (binaryOp 90 .index .shRUI scenarioI scenarioK) = false := by
  decide

/-! ### The condition worklist -/

theorem evalCond_of_isOne (truth : Value → Bool) (b : Value) (h : b.isOne = true) :
    evalCond truth b = true := by
  cases b with
  | blockArg id ty owner argNo => simp [Value.isOne, Value.constantValue] at h
  | opResult id ty op resNo =>
    cases op with
    | mk kind place operands tb eb y1 y2 =>
      cases kind <;> simp [Value.isOne, Value.constantValue] at h
      rename_i c
      unfold evalCond
      simp only [decide_eq_true_eq]
      have hw : (Value.opResult id ty (Operation.mk (OpKind.constant c) place operands tb eb
          y1 y2) resNo).ty.width ≠ 0 := by
        intro h0
        rw [h0] at h
        simp at h
      obtain ⟨k, hk⟩ := Nat.exists_eq_succ_of_ne_zero hw
      rw [hk] at h
      have hd : (2 : Int) ∣ 2 ^ (k + 1) := Dvd.intro_left (2 ^ k) (by ring)
      have := Int.emod_emod_of_dvd c hd
      rw [h] at this
      omega

theorem todoTruth_append (truth : Value → Bool) (xs ys : List (Value × Bool)) :
    todoTruth truth (xs ++ ys) = (todoTruth truth xs && todoTruth truth ys) := by
  simp [todoTruth, List.all_append]

theorem compileLoop_sound (env : Env) (fuel : Nat) (ρ : Nat → Int) (truth : Value → Bool)
    (inv : CondState → Prop) :
    ∀ (steps : Nat) (todo : List (Value × Bool)) (st st1 : CondState), inv st →
      (∀ item ∈ todo, ∀ leaf ∈ condLeaves item.1, LeafSound env fuel ρ truth inv leaf) →
      compileLoop env fuel steps todo st = some (true, st1) →
      inv st1 ∧ st1.satisfied ρ = (st.satisfied ρ && todoTruth truth todo) := by
  intro steps
  induction steps with
  | zero =>
    intro todo st st1 hinv _ h
    cases todo with
    | nil =>
      simp only [compileLoop, Option.some.injEq, Prod.mk.injEq, true_and] at h
      subst h
      exact ⟨hinv, by simp [todoTruth]⟩
    | cons item todo => simp [compileLoop] at h
  | succ steps ih =>
    intro todo st st1 hinv hleaves h
    cases todo with
    | nil =>
      simp only [compileLoop, Option.some.injEq, Prod.mk.injEq, true_and] at h
      subst h
      exact ⟨hinv, by simp [todoTruth]⟩
    | cons item todo =>
      obtain ⟨cur, negated⟩ := item
      have hcur : ∀ leaf ∈ condLeaves cur, LeafSound env fuel ρ truth inv leaf :=
        hleaves (cur, negated) (List.mem_cons_self _ _)
      have hrest : ∀ item ∈ todo, ∀ leaf ∈ condLeaves item.1,
          LeafSound env fuel ρ truth inv leaf :=
        fun item hm => hleaves item (List.mem_cons_of_mem _ hm)
      unfold compileLoop at h
      split at h
      · -- comparison
        rename_i id ty pred place l r rest tb eb y1 y2 resNo
        have hl := hcur (.opResult id ty (.mk (.cmpI pred) place (l :: r :: rest) tb eb y1 y2)
          resNo) (by simp [condLeaves]) st negated
        cases hh : handleCmp env fuel pred l r st negated with
        | none => simp [hh] at h
        | some res =>
          obtain ⟨ok, st2⟩ := res
          cases ok with
          | false => simp [hh] at h
          | true =>
            simp only [hh] at h
            obtain ⟨hinv2, hsat2⟩ := hl st2 hinv (by simpa [handleLeaf] using hh)
            obtain ⟨hinv1, hsat1⟩ := ih todo st2 st1 hinv2 hrest h
            refine ⟨hinv1, ?_⟩
            rw [hsat1, hsat2]
            simp [todoTruth, evalCond, Bool.and_assoc]
      · -- and
        rename_i id ty place a b rest tb eb y1 y2 resNo
        cases negated with
        | true => simp at h
        | false =>
          simp only [Bool.not_false, if_true] at h
          have hl : ∀ item ∈ todo ++ [(a, false), (b, false)], ∀ leaf ∈ condLeaves item.1,
              LeafSound env fuel ρ truth inv leaf := by
            intro item hm leaf hleaf
            rcases List.mem_append.mp hm with hm | hm
            · exact hrest item hm leaf hleaf
            · simp only [List.mem_cons, List.mem_singleton, List.not_mem_nil, or_false] at hm
              rcases hm with rfl | rfl
              · exact hcur leaf (by simp [condLeaves]; exact Or.inl hleaf)
              · exact hcur leaf (by simp [condLeaves]; exact Or.inr hleaf)
          obtain ⟨hinv1, hsat1⟩ := ih _ st st1 hinv hl h
          refine ⟨hinv1, ?_⟩
          rw [hsat1, todoTruth_append]
          simp only [todoTruth, List.all_cons, List.all_nil, evalCond]
          cases evalCond truth a <;> cases evalCond truth b <;> simp
      · -- or
        rename_i id ty place a b rest tb eb y1 y2 resNo
        cases negated with
        | false => simp at h
        | true =>
          simp only [if_true] at h
          have hl : ∀ item ∈ todo ++ [(a, true), (b, true)], ∀ leaf ∈ condLeaves item.1,
              LeafSound env fuel ρ truth inv leaf := by
            intro item hm leaf hleaf
            rcases List.mem_append.mp hm with hm | hm
            · exact hrest item hm leaf hleaf
            · simp only [List.mem_cons, List.mem_singleton, List.not_mem_nil, or_false] at hm
              rcases hm with rfl | rfl
              · exact hcur leaf (by simp [condLeaves]; exact Or.inl hleaf)
              · exact hcur leaf (by simp [condLeaves]; exact Or.inr hleaf)
          obtain ⟨hinv1, hsat1⟩ := ih _ st st1 hinv hl h
          refine ⟨hinv1, ?_⟩
          rw [hsat1, todoTruth_append]
          simp only [todoTruth, List.all_cons, List.all_nil, evalCond]
          cases evalCond truth a <;> cases evalCond truth b <;> simp
      · -- xor
        rename_i id ty place a b rest tb eb y1 y2 resNo
        cases hb : b.isOne with
        | false => simp [hb] at h
        | true =>
          simp only [hb, if_true] at h
          have hl : ∀ item ∈ todo ++ [(a, !negated)], ∀ leaf ∈ condLeaves item.1,
              LeafSound env fuel ρ truth inv leaf := by
            intro item hm leaf hleaf
            rcases List.mem_append.mp hm with hm | hm
            · exact hrest item hm leaf hleaf
            · simp only [List.mem_singleton] at hm
              subst hm
              exact hcur leaf (by simpa [condLeaves] using hleaf)
          obtain ⟨hinv1, hsat1⟩ := ih _ st st1 hinv hl h
          refine ⟨hinv1, ?_⟩
          rw [hsat1, todoTruth_append]
          simp only [todoTruth, List.all_cons, List.all_nil, evalCond,
            evalCond_of_isOne truth b hb]
          cases evalCond truth a <;> cases negated <;> simp
      · -- affine.if
        rename_i id ty set place operands tb eb thenYield y2 resNo
        have hl := hcur (.opResult id ty (.mk (.affineIf set) place operands tb eb thenYield y2)
          resNo) (by simp [condLeaves]) st negated
        cases hh : handleAffineIf set operands thenYield resNo st negated with
        | none => simp [hh] at h
        | some res =>
          obtain ⟨ok, st2⟩ := res
          cases ok with
          | false => simp [hh] at h
          | true =>
            simp only [hh] at h
            obtain ⟨hinv2, hsat2⟩ := hl st2 hinv (by simpa [handleLeaf] using hh)
            obtain ⟨hinv1, hsat1⟩ := ih todo st2 st1 hinv2 hrest h
            refine ⟨hinv1, ?_⟩
            rw [hsat1, hsat2]
            simp [todoTruth, evalCond, Bool.and_assoc]
      · simp at h

theorem eval_append_of_symBound (e : AffineExpr) (xs ys : List Int)
    (h : e.symBound ≤ xs.length) : e.eval [] (xs ++ ys) = e.eval [] xs := by
  induction e with
  | const c => rfl
  | dim i => rfl
  | sym i =>
    simp only [AffineExpr.symBound] at h
    simp only [AffineExpr.eval]
    exact List.getD_append _ _ _ _ h
  | add l r ihl ihr =>
    simp only [AffineExpr.symBound, max_le_iff] at h
    simp only [AffineExpr.eval, ihl h.1, ihr h.2]
  | mul l r ihl ihr =>
    simp only [AffineExpr.symBound, max_le_iff] at h
    simp only [AffineExpr.eval, ihl h.1, ihr h.2]
  | floorDiv l r ihl ihr =>
    simp only [AffineExpr.symBound, max_le_iff] at h
    simp only [AffineExpr.eval, ihl h.1, ihr h.2]
  | ceilDiv l r ihl ihr =>
    simp only [AffineExpr.symBound, max_le_iff] at h
    simp only [AffineExpr.eval, ihl h.1, ihr h.2]
  | mod l r ihl ihr =>
    simp only [AffineExpr.symBound, max_le_iff] at h
    simp only [AffineExpr.eval, ihl h.1, ihr h.2]

theorem constraintsHold_of_symBound (xs ys : List Int) :
    ∀ (es : List AffineExpr) (fs : List Bool), (∀ e ∈ es, e.symBound ≤ xs.length) →
      constraintsHold (xs ++ ys) es fs = constraintsHold xs es fs := by
  intro es
  induction es with
  | nil => intro fs _; simp [constraintsHold]
  | cons e es ih =>
    intro fs h
    cases fs with
    | nil => simp [constraintsHold]
    | cons f fs =>
      simp only [constraintsHold, constraintHolds,
        eval_append_of_symBound e xs ys (h e (List.mem_cons_self _ _)),
        ih fs (fun e1 hm => h e1 (List.mem_cons_of_mem _ hm))]

theorem constraintsHold_append_one (syms : List Int) :
    ∀ (es : List AffineExpr) (fs : List Bool) (e : AffineExpr) (f : Bool),
      fs.length = es.length →
      constraintsHold syms (es ++ [e]) (fs ++ [f]) =
        (constraintsHold syms es fs && constraintHolds syms e f) := by
  intro es
  induction es with
  | nil =>
    intro fs e f h
    cases fs with
    | nil => simp [constraintsHold]
    | cons f1 fs => simp at h
  | cons e1 es ih =>
    intro fs e f h
    cases fs with
    | nil => simp at h
    | cons f1 fs =>
      simp only [List.length_cons, Nat.add_right_cancel_iff] at h
      have hi := ih fs e f h
      simp only [List.cons_append, constraintsHold, Bool.and_assoc]
      exact congrArg (fun t => constraintHolds syms e1 f1 && t) hi

theorem signedConstraint_symBound (pred : CmpIPredicate) (n : Nat)
    (hp : pred = .sge ∨ pred = .sgt ∨ pred = .sle ∨ pred = .slt) :
    (signedConstraint pred (.sym (2 * n)) (.sym (2 * n + 1))).symBound ≤ 2 * n + 2 := by
  rcases hp with h | h | h | h <;> subst h <;>
    simp [signedConstraint, AffineExpr.sub, AffineExpr.neg, AffineExpr.subConst,
      AffineExpr.symBound]

/-- Appending one constraint of two fresh operands to well-formed lists: the lists stay
well formed and are satisfied exactly when the old lists are and the new constraint
holds. -/
theorem push_sound (ρ : Nat → Int) (st : CondState) (a b : ValueOrInt)
    (mk : AffineExpr → AffineExpr → AffineExpr) (hwf : st.wellFormed)
    (hb : (mk (.sym (2 * st.exprs.length)) (.sym (2 * st.exprs.length + 1))).symBound ≤
      2 * st.exprs.length + 2) :
    (st.push false a b mk).wellFormed ∧
      (st.push false a b mk).satisfied ρ =
        (st.satisfied ρ &&
          constraintHolds ((st.applies ++ [a, b]).map (ValueOrInt.denote ρ))
            (mk (.sym (2 * st.exprs.length)) (.sym (2 * st.exprs.length + 1))) false) := by
  obtain ⟨h1, h2, h3⟩ := hwf
  constructor
  · refine ⟨by simp [CondState.push, h1], by simp [CondState.push, h2]; omega, ?_⟩
    intro e he
    simp only [CondState.push, List.mem_append, List.mem_singleton] at he
    simp only [CondState.push, List.length_append, List.length_cons, List.length_nil]
    rcases he with he | he
    · have := h3 e he
      omega
    · subst he
      omega
  · simp only [CondState.satisfied, CondState.push]
    rw [constraintsHold_append_one _ _ _ _ _ h1]
    congr 1
    rw [List.map_append]
    exact constraintsHold_of_symBound _ _ _ _ (by simpa using h3)

theorem evalCmp_invert_signed (w : Nat) (pred : CmpIPredicate) (x y : Int)
    (hp : pred = .sge ∨ pred = .sgt ∨ pred = .sle ∨ pred = .slt) :
    evalCmp w (invertPredicate pred) x y = !evalCmp w pred x y := by
  rcases hp with h | h | h | h <;> subst h <;>
    simp only [invertPredicate, evalCmp] <;>
    by_cases hxy : x < y <;> by_cases hyx : y < x <;>
    by_cases hle : x ≤ y <;> by_cases hge : y ≤ x <;>
    simp [hxy, hyx, hle, hge] <;> omega

theorem invertPredicate_signed (pred : CmpIPredicate)
    (hp : pred = .sge ∨ pred = .sgt ∨ pred = .sle ∨ pred = .slt) :
    invertPredicate pred = .sge ∨ invertPredicate pred = .sgt ∨
      invertPredicate pred = .sle ∨ invertPredicate pred = .slt := by
  rcases hp with h | h | h | h <;> subst h <;> simp [invertPredicate]

theorem handleCmp_signed_sound_pos (env : Env) (fuel : Nat) (ρ : Nat → Int) (w : Nat)
    (pred : CmpIPredicate) (lhs rhs : Value) (st st1 : CondState)
    (hp : pred = .sge ∨ pred = .sgt ∨ pred = .sle ∨ pred = .slt)
    (hl : isValidIndex lhs = true) (hr : isValidIndex rhs = true) (hwf : st.wellFormed)
    (h : handleCmp env fuel pred lhs rhs st false = some (true, st1)) :
    st1.wellFormed ∧
      st1.satisfied ρ =
        (st.satisfied ρ && evalCmp w pred (lhs.denote ρ) (rhs.denote ρ)) := by
  rw [handleCmp_signed env fuel pred lhs rhs st hp hl hr] at h
  simp only [Option.some.injEq, Prod.mk.injEq, true_and] at h
  subst h
  have hm := signed_constraint_meaning pred lhs rhs st hp hwf.2.1 ρ w
  cases hv : (ValueOrInt.ofValue lhs).isValue
  · simp only [Bool.false_eq_true, if_false]
    have hps := push_sound ρ st (ValueOrInt.ofValue rhs) (ValueOrInt.ofValue lhs)
      (signedConstraint (swapPredicate pred)) hwf
      (signedConstraint_symBound _ _ (swapPredicate_signed pred hp))
    rw [hm.2.2] at hps
    exact hps
  · simp only [if_true]
    have hps := push_sound ρ st (ValueOrInt.ofValue lhs) (ValueOrInt.ofValue rhs)
      (signedConstraint pred) hwf (signedConstraint_symBound _ _ hp)
    rw [hm.1.2] at hps
    exact hps

/-- A signed inequality comparison of two single valid indices is compiled soundly, in
both polarities, with the well-formedness of the lists as invariant. -/
theorem signed_leaf_sound (env : Env) (fuel : Nat) (ρ : Nat → Int) (id : Nat) (ty : Ty)
    (pred : CmpIPredicate) (place : Place) (l r : Value) (rest : List Value)
    (tb eb : List Operation) (y1 y2 : List Value) (resNo : Nat)
    (hp : pred = .sge ∨ pred = .sgt ∨ pred = .sle ∨ pred = .slt)
    (hl : isValidIndex l = true) (hr : isValidIndex r = true) :
    LeafSound env fuel ρ (cmpTruth ρ) CondState.wellFormed
      (.opResult id ty (.mk (.cmpI pred) place (l :: r :: rest) tb eb y1 y2) resNo) := by
  intro st negated st1 hwf h
  simp only [handleLeaf] at h
  simp only [cmpTruth]
  cases negated with
  | false =>
    have := handleCmp_signed_sound_pos env fuel ρ l.ty.width pred l r st st1 hp hl hr hwf h
    simpa using this
  | true =>
    rw [handleCmp_negated] at h
    have := handleCmp_signed_sound_pos env fuel ρ l.ty.width (invertPredicate pred) l r st st1
      (invertPredicate_signed pred hp) hl hr hwf h
    rw [evalCmp_invert_signed _ _ _ _ hp] at this
    simpa using this

theorem compileLoop_other (env : Env) (fuel steps : Nat) (cur : Value) (negated : Bool)
    (todo : List (Value × Bool)) (st : CondState) (h : isCondNode cur.kind = false) :
    compileLoop env fuel (steps + 1) ((cur, negated) :: todo) st = some (false, st) := by
  cases cur with
  | blockArg id ty owner argNo => simp [compileLoop]
  | opResult id ty op resNo =>
    cases op with
    | mk kind place operands tb eb y1 y2 =>
      cases kind <;> simp [isCondNode, Value.kind, Value.definingOp, Operation.kind] at h <;>
        simp [compileLoop]

/-- C19: in the worklist of `MoveIfToAffine`, `and(p, q)` under `negated = false` and
`or(p, q)` under `negated = true` are replaced by the items `(p, negated)` and
`(q, negated)`, `xor(p, 1)` by `(p, !negated)`; `and` under `negated = true`, `or` under
`negated = false`, `xor` with another second operand and every value that is not defined
by a comparison, `and`, `or`, `xor` or `affine.if` fail the attempt. Hence, when an
attempt started with polarity `n` succeeds and every reachable leaf is compiled soundly,
the emitted constraints are satisfied exactly when the condition is true for `n = false`
and false for `n = true`. -/
theorem C19_worklist_polarity (env : Env) (fuel : Nat) :
    (∀ (steps id : Nat) (ty : Ty) (place : Place) (p q : Value) (rest : List Value)
        (tb eb : List Operation) (y1 y2 : List Value) (resNo : Nat)
        (todo : List (Value × Bool)) (st : CondState),
      compileLoop env fuel (steps + 1)
          ((.opResult id ty (.mk .andI place (p :: q :: rest) tb eb y1 y2) resNo, false) ::
            todo) st =
        compileLoop env fuel steps (todo ++ [(p, false), (q, false)]) st ∧
      compileLoop env fuel (steps + 1)
          ((.opResult id ty (.mk .orI place (p :: q :: rest) tb eb y1 y2) resNo, true) ::
            todo) st =
        compileLoop env fuel steps (todo ++ [(p, true), (q, true)]) st ∧
      (∀ negated : Bool, q.isOne = true →
        compileLoop env fuel (steps + 1)
            ((.opResult id ty (.mk .xOrI place (p :: q :: rest) tb eb y1 y2) resNo,
              negated) :: todo) st =
          compileLoop env fuel steps (todo ++ [(p, !negated)]) st) ∧
      compileLoop env fuel (steps + 1)
          ((.opResult id ty (.mk .andI place (p :: q :: rest) tb eb y1 y2) resNo, true) ::
            todo) st = some (false, st) ∧
      compileLoop env fuel (steps + 1)
          ((.opResult id ty (.mk .orI place (p :: q :: rest) tb eb y1 y2) resNo, false) ::
            todo) st = some (false, st) ∧
      (∀ negated : Bool, q.isOne = false →
        compileLoop env fuel (steps + 1)
            ((.opResult id ty (.mk .xOrI place (p :: q :: rest) tb eb y1 y2) resNo,
              negated) :: todo) st = some (false, st))) ∧
    (∀ (steps : Nat) (cur : Value) (negated : Bool) (todo : List (Value × Bool))
        (st : CondState), isCondNode cur.kind = false →
      compileLoop env fuel (steps + 1) ((cur, negated) :: todo) st = some (false, st)) ∧
    (∀ (ρ : Nat → Int) (truth : Value → Bool) (inv : CondState → Prop) (cond : Value)
        (n : Bool) (steps : Nat) (st : CondState),
      inv ⟨[], [], []⟩ →
      (∀ leaf ∈ condLeaves cond, LeafSound env fuel ρ truth inv leaf) →
      compileCondition env fuel steps cond n = some (true, st) →
      (st.satisfied ρ = true ↔ evalCond truth cond = !n)) := by
  refine ⟨?_, ?_, ?_⟩
  · intro steps id ty place p q rest tb eb y1 y2 resNo todo st
    refine ⟨by simp [compileLoop], by simp [compileLoop], ?_, by simp [compileLoop],
      by simp [compileLoop], ?_⟩
    · intro negated hq
      simp [compileLoop, hq]
    · intro negated hq
      simp [compileLoop, hq]
  · intro steps cur negated todo st h
    exact compileLoop_other env fuel steps cur negated todo st h
  · intro ρ truth inv cond n steps st hinv hleaves h
    have hl : ∀ item ∈ [(cond, n)], ∀ leaf ∈ condLeaves item.1,
        LeafSound env fuel ρ truth inv leaf := by
      intro item hm
      simp only [List.mem_singleton] at hm
      subst hm
      exact hleaves
    have hs := (compileLoop_sound env fuel ρ truth inv steps [(cond, n)] ⟨[], [], []⟩ st hinv
      hl h).2
    rw [hs]
    simp only [CondState.satisfied, constraintsHold, todoTruth, List.all_cons, List.all_nil,
      Bool.true_and, Bool.and_true]
    cases evalCond truth cond <;> cases n <;> simp

/-- C19 at the condition `(i < j) and not (j < k)` with `i = 1`, `j = 2`, `k = 2`: the
attempt with polarity false succeeds with the constraints `j - i - 1 >= 0` and
`j - k >= 0`, both leaves are signed comparisons of valid indices, and the constraints
are satisfied as the condition is true. -/
theorem C19_worklist_polarity_witness :
    compileCondition exampleEnv 1 10 exampleCondition false =
        some (true,
          ⟨[(AffineExpr.sub (.sym 1) (.sym 0)).subConst 1, AffineExpr.sub (.sym 2) (.sym 3)],
            [false, false],
            [.value scenarioI, .value scenarioJ, .value scenarioJ, .value scenarioK]⟩) ∧
      (CondState.satisfied (fun id => if id = 3 then 2 else id)
          ⟨[(AffineExpr.sub (.sym 1) (.sym 0)).subConst 1, AffineExpr.sub (.sym 2) (.sym 3)],
            [false, false],
            [.value scenarioI, .value scenarioJ, .value scenarioJ, .value scenarioK]⟩ =
          true ↔
        evalCond (cmpTruth (fun id => if id = 3 then 2 else id)) exampleCondition =
          !false) ∧
      evalCond (cmpTruth (fun id => if id = 3 then 2 else id)) exampleCondition = true :=
  ⟨rfl,
    (C19_worklist_polarity exampleEnv 1).2.2 (fun id => if id = 3 then 2 else id)
      (cmpTruth (fun id => if id = 3 then 2 else id)) CondState.wellFormed exampleCondition
      false 10 _ ⟨rfl, rfl, by simp⟩
      (by
        intro leaf hm
        have hc : condLeaves exampleCondition =
            [cmpValue 110 .slt scenarioI scenarioJ, cmpValue 111 .slt scenarioJ scenarioK] :=
          rfl
        rw [hc] at hm
        simp only [List.mem_cons, List.mem_singleton, List.not_mem_nil, or_false] at hm
        rcases hm with rfl | rfl
        · exact signed_leaf_sound exampleEnv 1 _ 110 (.int 1) .slt .nested scenarioI
            scenarioJ [] [] [] [] [] 0 (by simp) (by decide) (by decide)
        · exact signed_leaf_sound exampleEnv 1 _ 111 (.int 1) .slt .nested scenarioJ
            scenarioK [] [] [] [] [] 0 (by simp) (by decide) (by decide))
      rfl,
    by decide⟩

/-! ### Promotion of arithmetic operands -/

theorem wrapSigned_of_nonneg (w : Nat) (x : Int) (h0 : 0 ≤ x) (h1 : x < 2 ^ (w - 1)) :
    wrapSigned w x = x := by
  unfold wrapSigned
  by_cases hw : w = 0
  · subst hw
    simp at h1
    simp
    omega
  · obtain ⟨k, rfl⟩ := Nat.exists_eq_succ_of_ne_zero hw
    simp only [Nat.succ_ne_zero, if_false]
    simp only [Nat.succ_sub_one] at h1
    have hp : (2 : Int) ^ (k + 1) = 2 * 2 ^ k := by ring
    have hlt : x < 2 ^ (k + 1) := by
      rw [hp]
      omega
    rw [Int.emod_eq_of_lt h0 hlt]
    simp [h1]

theorem toUnsigned_of_nonneg (w : Nat) (x : Int) (h0 : 0 ≤ x) (h1 : x < 2 ^ (w - 1)) :
    toUnsigned w x = x := by
  unfold toUnsigned
  have hle : (2 : Int) ^ (w - 1) ≤ 2 ^ w :=
    pow_le_pow_right₀ (by norm_num) (Nat.sub_le w 1)
  exact Int.emod_eq_of_lt h0 (lt_of_lt_of_le h1 hle)

theorem decompose_binaryOp_constant (id : Nat) (ty : Ty) (kind : OpKind) (x y : Value)
    (c : Int) (hc : y.constantValue = some c)
    (hk : kind = .divSI ∨ kind = .divUI ∨ kind = .remSI ∨ kind = .remUI) :
    decompose (binaryOp id ty kind x y) =
      some (⟨0, 1, [if kind = .divSI ∨ kind = .divUI then .floorDiv (.sym 0) (.const c)
        else .mod (.sym 0) (.const c)]⟩, [x]) := by
  rcases hk with h | h | h | h <;> subst h <;>
    simp [decompose, binaryOp, Value.kind, Value.operand, Value.definingOp, Operation.kind,
      Operation.operands, hc]

theorem decompose_binaryOp_symbol (id : Nat) (ty : Ty) (kind : OpKind) (x y : Value)
    (hc : y.constantValue = none)
    (hk : kind = .divSI ∨ kind = .divUI ∨ kind = .remSI ∨ kind = .remUI) :
    decompose (binaryOp id ty kind x y) =
      some (⟨0, 2, [if kind = .divSI ∨ kind = .divUI then .floorDiv (.sym 0) (.sym 1)
        else .mod (.sym 0) (.sym 1)]⟩, [x, y]) := by
  rcases hk with h | h | h | h <;> subst h <;>
    simp [decompose, binaryOp, Value.kind, Value.operand, Value.definingOp, Operation.kind,
      Operation.operands, hc]

theorem arithBinary_div_rem_nonneg (w : Nat) (kind : OpKind) (a b : Int)
    (hk : kind = .divSI ∨ kind = .divUI ∨ kind = .remSI ∨ kind = .remUI)
    (ha : 0 ≤ a) (haw : a < 2 ^ (w - 1)) (hb : 0 < b) (hbw : b < 2 ^ (w - 1)) :
    arithBinary w kind a b =
      some (if kind = .divSI ∨ kind = .divUI then Int.fdiv a b else Int.fmod a b) := by
  have hb0 : b ≠ 0 := ne_of_gt hb
  have hq0 : 0 ≤ a / b := Int.ediv_nonneg ha (le_of_lt hb)
  have hq1 : a / b < 2 ^ (w - 1) :=
    lt_of_le_of_lt (Int.ediv_le_self b ha) haw
  have hr0 : 0 ≤ a % b := Int.emod_nonneg a hb0
  have hr1 : a % b < 2 ^ (w - 1) := lt_trans (Int.emod_lt_of_pos a hb) hbw
  have hua := toUnsigned_of_nonneg w a ha haw
  have hub := toUnsigned_of_nonneg w b (le_of_lt hb) hbw
  rcases hk with h | h | h | h <;> subst h
  · simp only [arithBinary, hb0, if_false, true_or, if_true,
      Int.tdiv_eq_ediv ha (le_of_lt hb), Int.fdiv_eq_ediv a (le_of_lt hb),
      wrapSigned_of_nonneg w _ hq0 hq1]
  · simp only [arithBinary, hua, hub, hb0, if_false, or_true, if_true,
      Int.fdiv_eq_ediv a (le_of_lt hb), wrapSigned_of_nonneg w _ hq0 hq1]
  · simp [arithBinary, hb0, Int.tmod_eq_emod ha (le_of_lt hb),
      Int.fmod_eq_emod a (le_of_lt hb), wrapSigned_of_nonneg w _ hr0 hr1]
  · simp [arithBinary, hua, hub, hb0, Int.fmod_eq_emod a (le_of_lt hb),
      wrapSigned_of_nonneg w _ hr0 hr1]

/-- Where the decomposition keeps the value: an operand defined by `arith.divsi`,
`arith.divui`, `arith.remsi` or `arith.remui` is decomposed into `s0 floordiv c` resp.
`s0 mod c` over the dividend (the divisor being a constant `c`) or into `s0 floordiv s1`
resp. `s0 mod s1` over dividend and divisor, and for every non-negative dividend and
positive divisor that fit the signed range of the width the expression has the value of
the arith operation. -/
theorem div_rem_promotion_of_nonneg (w id : Nat) (ty : Ty) (kind : OpKind) (x y : Value)
    (ρ : Nat → Int)
    (hk : kind = .divSI ∨ kind = .divUI ∨ kind = .remSI ∨ kind = .remUI)
    (hx : 0 ≤ x.denote ρ) (hxw : x.denote ρ < 2 ^ (w - 1))
    (hy : 0 < y.denote ρ) (hyw : y.denote ρ < 2 ^ (w - 1)) :
    ∃ m ops, decompose (binaryOp id ty kind x y) = some (m, ops) ∧
      (ops = [x] ∨ ops = [x, y]) ∧
      evalPromoted ρ m ops = arithBinary w kind (x.denote ρ) (y.denote ρ) := by
  rw [arithBinary_div_rem_nonneg w kind _ _ hk hx hxw hy hyw]
  cases hc : y.constantValue with
  | none =>
    refine ⟨_, _, decompose_binaryOp_symbol id ty kind x y hc hk, Or.inr rfl, ?_⟩
    by_cases hd : kind = .divSI ∨ kind = .divUI <;>
      simp [evalPromoted, hd, AffineExpr.eval]
  | some c =>
    refine ⟨_, _, decompose_binaryOp_constant id ty kind x y c hc hk, Or.inl rfl, ?_⟩
    have hyc : y.denote ρ = c := by simp [Value.denote, hc]
    by_cases hd : kind = .divSI ∨ kind = .divUI <;>
      simp [evalPromoted, hd, AffineExpr.eval, hyc]

/-- C21: with `%a` the variable of `affine.for %a = -5 to 10`, the operands `%a divsi 2`,
`%a remsi 2` and `%a divui 2` satisfy the promotion condition, and the normalizer
replaces them on the map `()[s0] -> (s0)` by `s0 floordiv 2`, `s0 mod 2` and
`s0 floordiv 2` over `[%a]`, with no test on the sign of the dividend. In the first
iteration, `%a = -5`, the arith operations give `-2`, `-1` and (on 64 bits)
`9223372036854775805`, the expressions that replace them `-3`, `1` and `-3`. -/
theorem C21_negative_dividend_differs :
    signedVarA = inductionVar 5 (-5) 10 ∧
      promoteCond nullFixEnv true
          (binaryOp 130 .index .divSI signedVarA (mkConstant 131 .index 2 .nested))
          (binaryOp 130 .index .divSI signedVarA (mkConstant 131 .index 2 .nested)) =
        some true ∧
      (AffineApplyNormalizer.new nullFixEnv true ⟨0, 1, [.sym 0]⟩
          [binaryOp 130 .index .divSI signedVarA (mkConstant 131 .index 2 .nested)]).map
          (fun n => (n.getAffineMap, n.getOperands)) =
        some (⟨0, 1, [.floorDiv (.sym 0) (.const 2)]⟩, [signedVarA]) ∧
      evalPromoted (fun _ => -5) ⟨0, 1, [.floorDiv (.sym 0) (.const 2)]⟩ [signedVarA] =
        some (-3) ∧
      arithBinary 64 .divSI (signedVarA.denote (fun _ => -5)) 2 = some (-2) ∧
      (AffineApplyNormalizer.new nullFixEnv true ⟨0, 1, [.sym 0]⟩
          [binaryOp 130 .index .remSI signedVarA (mkConstant 131 .index 2 .nested)]).map
          (fun n => (n.getAffineMap, n.getOperands)) =
        some (⟨0, 1, [.mod (.sym 0) (.const 2)]⟩, [signedVarA]) ∧
      evalPromoted (fun _ => -5) ⟨0, 1, [.mod (.sym 0) (.const 2)]⟩ [signedVarA] =
        some 1 ∧
      arithBinary 64 .remSI (signedVarA.denote (fun _ => -5)) 2 = some (-1) ∧
      (AffineApplyNormalizer.new nullFixEnv true ⟨0, 1, [.sym 0]⟩
          [binaryOp 130 .index .divUI signedVarA (mkConstant 131 .index 2 .nested)]).map
          (fun n => (n.getAffineMap, n.getOperands)) =
        some (⟨0, 1, [.floorDiv (.sym 0) (.const 2)]⟩, [signedVarA]) ∧
      arithBinary 64 .divUI (signedVarA.denote (fun _ => -5)) 2 =
        some 9223372036854775805 := by
  refine ⟨rfl, rfl, rfl, rfl, ?_, rfl, rfl, ?_, rfl, ?_⟩ <;> decide

/-- C23: the constant of a promoted shift is the C++ expression `1 << k` on `int`. For
`k = 3` it is `8`; for `k = 31` it is `-2^31`, so `%x shrui 31` becomes
`s0 floordiv -2147483648`, which at `%x = 2^31` is `-1` while the shift gives `1`; for
`k = 32` and `k = 40` on a 64-bit value the expression is undefined, although such an
operand satisfies the promotion condition. -/
theorem C23_shift_constant_is_int_shift :
    decompose (shiftByConstant .shRUI 3) =
        some (⟨0, 1, [.floorDiv (.sym 0) (.const 8)]⟩, [.blockArg 121 (.int 64) .func 0]) ∧
      shlOne 31 = some (-2147483648) ∧
      decompose (shiftByConstant .shRUI 31) =
        some (⟨0, 1, [.floorDiv (.sym 0) (.const (-2147483648))]⟩,
          [.blockArg 121 (.int 64) .func 0]) ∧
      evalPromoted (fun _ => 2147483648) ⟨0, 1, [.floorDiv (.sym 0) (.const (-2147483648))]⟩
          [.blockArg 121 (.int 64) .func 0] = some (-1) ∧
      arithBinary 64 .shRUI 2147483648 31 = some 1 ∧
      promoteCond exampleEnv true (shiftByConstant .shLI 40) (shiftByConstant .shLI 40) =
        some true ∧
      shlOne 32 = none ∧ shlOne 40 = none ∧
      decompose (shiftByConstant .shLI 32) = none ∧
      decompose (shiftByConstant .shLI 40) = none ∧
      arithBinary 64 .shLI 1 40 = some 1099511627776 := by
  refine ⟨rfl, rfl, rfl, ?_, ?_, rfl, rfl, rfl, rfl, rfl, ?_⟩ <;> decide

/-! ### The lists of the condition compiler stay in step -/

theorem pairsFrom_append_one (es : List AffineExpr) (e : AffineExpr) :
    ∀ j : Nat, pairsFrom j (es ++ [e]) = (pairsFrom j es && e.readsPair (j + es.length)) := by
  induction es with
  | nil => intro j; simp [pairsFrom]
  | cons e1 es ih =>
    intro j
    have hj : j + 1 + es.length = j + (es.length + 1) := by omega
    have hi := ih (j + 1)
    rw [hj] at hi
    simp only [List.cons_append, pairsFrom, List.length_cons, Bool.and_assoc]
    exact congrArg (fun t => e1.readsPair j && t) hi

theorem push_inStep (st : CondState) (eq : Bool) (a b : ValueOrInt)
    (mk : AffineExpr → AffineExpr → AffineExpr)
    (hmk : ∀ n : Nat, (mk (.sym (2 * n)) (.sym (2 * n + 1))).readsPair n = true)
    (h : st.inStep) : (st.push eq a b mk).inStep := by
  obtain ⟨h1, h2, h3⟩ := h
  refine ⟨by simp [CondState.push, h1], by simp [CondState.push, h2]; omega, ?_⟩
  simp only [CondState.push]
  rw [pairsFrom_append_one, h3]
  simpa using hmk st.exprs.length

theorem foldl_inStep {α : Type} (f : CondState → α → CondState)
    (hf : ∀ s x, s.inStep → (f s x).inStep) :
    ∀ (xs : List α) (s : CondState), s.inStep → (xs.foldl f s).inStep := by
  intro xs
  induction xs with
  | nil => intro s h; exact h
  | cons x xs ih => intro s h; exact ih (f s x) (hf s x h)

theorem emitGreater_inStep (strict : Bool) (lhs rhs : List ValueOrInt) (st : CondState)
    (h : st.inStep) : (emitGreater strict lhs rhs st).inStep := by
  unfold emitGreater
  refine foldl_inStep _ ?_ lhs st h
  intro s l hs
  refine foldl_inStep _ ?_ rhs s hs
  intro s2 r hs2
  refine push_inStep s2 false l r _ ?_ hs2
  intro n
  cases strict <;>
    simp [AffineExpr.sub, AffineExpr.neg, AffineExpr.subConst, AffineExpr.readsPair]

theorem emitLess_inStep (strict : Bool) (lhs rhs : List ValueOrInt) (st : CondState)
    (h : st.inStep) : (emitLess strict lhs rhs st).inStep := by
  unfold emitLess
  refine foldl_inStep _ ?_ lhs st h
  intro s l hs
  refine foldl_inStep _ ?_ rhs s hs
  intro s2 r hs2
  refine push_inStep s2 false l r _ ?_ hs2
  intro n
  cases strict <;>
    simp [AffineExpr.sub, AffineExpr.neg, AffineExpr.subConst, AffineExpr.readsPair]

theorem emitLhsNonNeg_inStep (lhs : List ValueOrInt) (st : CondState) (h : st.inStep) :
    (emitLhsNonNeg lhs st).inStep := by
  unfold emitLhsNonNeg
  refine foldl_inStep _ ?_ lhs st h
  intro s l hs
  by_cases hv : valueCmpInt .GE l 0 = true
  · simpa [hv] using hs
  · simp only [hv, Bool.not_false, if_true]
    exact push_inStep s false l l _ (by intro n; simp [AffineExpr.readsPair]) hs

theorem emitNonZero_inStep (env : Env) (fuel : Nat) :
    ∀ (lhs : List ValueOrInt) (st : CondState) (res : Bool × CondState), st.inStep →
      emitNonZero env fuel lhs st = some res → res.2.inStep := by
  intro lhs
  induction lhs with
  | nil =>
    intro st res h hr
    simp only [emitNonZero, Option.some.injEq] at hr
    subst hr
    exact h
  | cons l ls ih =>
    intro st res h hr
    have hp : (st.push false l l (fun d0 _ => d0.subConst 1)).inStep :=
      push_inStep st false l l _
        (by intro n; simp [AffineExpr.subConst, AffineExpr.readsPair]) h
    unfold emitNonZero at hr
    by_cases hv : valueCmpInt .GE l 0 = true
    · simp only [hv, if_true] at hr
      exact ih _ res hp hr
    · simp only [hv, Bool.false_eq_true, if_false] at hr
      cases l with
      | value v =>
        simp only at hr
        cases hc : composedAtLeastZero env fuel v with
        | none => simp [hc] at hr
        | some b =>
          cases b with
          | true =>
            simp only [hc] at hr
            exact ih _ res hp hr
          | false =>
            simp only [hc, Option.some.injEq] at hr
            subst hr
            exact h
      | int w i =>
        simp only [Option.some.injEq] at hr
        subst hr
        exact h

theorem handleSwitch_inStep (env : Env) (fuel : Nat) (lhsMin lhsMax rhsMin rhsMax : Bool)
    (pred : CmpIPredicate) (lhs rhs : List ValueOrInt) (st : CondState)
    (res : Bool × CondState) (h : st.inStep)
    (hr : handleSwitch env fuel lhsMin lhsMax rhsMin rhsMax pred lhs rhs st = some res) :
    res.2.inStep := by
  have hg := fun strict => emitGreater_inStep strict lhs rhs st h
  have hn := emitLhsNonNeg_inStep lhs st h
  have hl := fun strict => emitLess_inStep strict lhs rhs st h
  have hln := fun strict => emitLess_inStep strict lhs rhs _ hn
  cases pred <;> unfold handleSwitch at hr <;> simp only at hr
  case eq =>
    split at hr
    · simp only [Option.some.injEq] at hr; subst hr; exact h
    · split at hr
      · simp only [Option.some.injEq] at hr
        subst hr
        exact push_inStep st true _ _ _
          (by intro n; simp [AffineExpr.sub, AffineExpr.neg, AffineExpr.readsPair]) h
      · simp at hr
  case ne =>
    split at hr
    · exact emitNonZero_inStep env fuel lhs st res h hr
    · simp only [Option.some.injEq] at hr; subst hr; exact h
  all_goals
    repeat' split at hr
    all_goals
      simp only [Option.some.injEq] at hr
      subst hr
      first
        | exact h
        | exact hg _
        | exact hn
        | exact hl _
        | exact hln _

theorem handleCmp_inStep (env : Env) (fuel : Nat) (pred : CmpIPredicate) (l r : Value)
    (st : CondState) (negated : Bool) (res : Bool × CondState) (h : st.inStep)
    (hr : handleCmp env fuel pred l r st negated = some res) : res.2.inStep := by
  unfold handleCmp at hr
  cases hl : handleMinMax l with
  | none =>
    simp only [hl, Option.some.injEq] at hr
    subst hr
    exact h
  | some lm =>
    cases hrm : handleMinMax r with
    | none =>
      simp only [hl, hrm, Option.some.injEq] at hr
      subst hr
      exact h
    | some rm =>
      simp only [hl, hrm] at hr
      exact handleSwitch_inStep env fuel _ _ _ _ _ _ _ st res h hr

theorem handleAffineIf_result (set : IntegerSet) (operands thenYield : List Value)
    (idx : Nat) (st : CondState) (negated : Bool) :
    handleAffineIf set operands thenYield idx st negated =
      if idx < thenYield.length then some (false, st) else none := by
  unfold handleAffineIf
  by_cases h : idx < thenYield.length
  · simp only [h, if_true]
    rw [List.get?_eq_get h]
    have hx := isOne_isZero_exclusive (thenYield.get ⟨idx, h⟩)
    simp only [Bool.and_assoc, hx, Bool.and_false, Bool.false_eq_true, if_false]
  · simp only [h, if_false]
    rw [List.get?_eq_none.mpr (Nat.le_of_not_lt h)]

theorem compileLoop_inStep (env : Env) (fuel : Nat) :
    ∀ (steps : Nat) (todo : List (Value × Bool)) (st : CondState) (res : Bool × CondState),
      st.inStep → compileLoop env fuel steps todo st = some res → res.2.inStep := by
  intro steps
  induction steps with
  | zero =>
    intro todo st res h hr
    cases todo with
    | nil =>
      simp only [compileLoop, Option.some.injEq] at hr
      subst hr
      exact h
    | cons item todo => simp [compileLoop] at hr
  | succ steps ih =>
    intro todo st res h hr
    cases todo with
    | nil =>
      simp only [compileLoop, Option.some.injEq] at hr
      subst hr
      exact h
    | cons item todo =>
      obtain ⟨cur, negated⟩ := item
      unfold compileLoop at hr
      split at hr
      · rename_i id ty pred place l r rest tb eb y1 y2 resNo
        cases hh : handleCmp env fuel pred l r st negated with
        | none => simp [hh] at hr
        | some r1 =>
          obtain ⟨ok, st2⟩ := r1
          have h2 := handleCmp_inStep env fuel pred l r st negated (ok, st2) h hh
          cases ok with
          | false =>
            simp only [hh, Option.some.injEq] at hr
            subst hr
            exact h2
          | true =>
            simp only [hh] at hr
            exact ih todo st2 res h2 hr
      · split at hr
        · exact ih _ st res h hr
        · simp only [Option.some.injEq] at hr; subst hr; exact h
      · split at hr
        · exact ih _ st res h hr
        · simp only [Option.some.injEq] at hr; subst hr; exact h
      · split at hr
        · exact ih _ st res h hr
        · simp only [Option.some.injEq] at hr; subst hr; exact h
      · rename_i id ty set place operands tb eb thenYield y2 resNo
        rw [handleAffineIf_result] at hr
        by_cases hlt : resNo < thenYield.length
        · simp only [hlt, if_true, Option.some.injEq] at hr
          subst hr
          exact h
        · simp [hlt] at hr
      · simp only [Option.some.injEq] at hr; subst hr; exact h

/-- C24: every call of `handle` on a comparison leaves the lists in step if they were
(one flag and two operands per constraint, constraint `j` over the symbols `2 * j` and
`2 * j + 1` only), whether it returns true or false; every call of `handle` on an
`affine.if` returns false and leaves the lists as they were, so none returns true with
lists out of step; and the integer set a successful attempt of `MoveIfToAffine` builds
with no dims and `2 * exprs.size()` symbols has as many inputs as there are operands and
one flag per constraint. -/
theorem C24_lists_in_step (env : Env) (fuel : Nat) :
    (∀ (pred : CmpIPredicate) (l r : Value) (st : CondState) (negated : Bool)
        (res : Bool × CondState), st.inStep →
      handleCmp env fuel pred l r st negated = some res → res.2.inStep) ∧
    (∀ (set : IntegerSet) (operands thenYield : List Value) (idx : Nat) (st : CondState)
        (negated : Bool) (res : Bool × CondState), st.inStep →
      handleAffineIf set operands thenYield idx st negated = some res →
      res.1 = false ∧ res.2 = st ∧ res.2.inStep) ∧
    (∀ (steps : Nat) (cond : Value) (n : Bool) (st : CondState),
      compileCondition env fuel steps cond n = some (true, st) →
      st.inStep ∧
        st.integerSet.numDims + st.integerSet.numSymbols = st.applies.length ∧
        st.integerSet.eqFlags.length = st.integerSet.constraints.length) := by
  refine ⟨?_, ?_, ?_⟩
  · intro pred l r st negated res h hr
    exact handleCmp_inStep env fuel pred l r st negated res h hr
  · intro set operands thenYield idx st negated res h hr
    rw [handleAffineIf_result] at hr
    by_cases hlt : idx < thenYield.length
    · simp only [hlt, if_true, Option.some.injEq] at hr
      subst hr
      exact ⟨rfl, rfl, h⟩
    · simp [hlt] at hr
  · intro steps cond n st hr
    have h0 : CondState.inStep ⟨[], [], []⟩ := ⟨rfl, rfl, rfl⟩
    have h := compileLoop_inStep env fuel steps [(cond, n)] ⟨[], [], []⟩ (true, st) h0 hr
    refine ⟨h, ?_, ?_⟩
    · simp [CondState.integerSet, h.2.1]
    · simp [CondState.integerSet, h.1]

/-- C24 at two conditions. For `(i < j) and not (j < k)` the attempt with polarity false
succeeds with two constraints, two flags and four operands, the first constraint over
`s0`, `s1` and the second over `s2`, `s3`. For `(i < j) and %r`, with `%r` the result of an
`affine.if` that yields 1 and 0, the comparison adds one constraint over `s0`, `s1` with
its two operands, and the call of `handle` on the `affine.if` returns false and leaves
these lists as they are. -/
theorem C24_lists_in_step_witness :
    (compileCondition exampleEnv 1 10 exampleCondition false =
        some (true,
          ⟨[(AffineExpr.sub (.sym 1) (.sym 0)).subConst 1, AffineExpr.sub (.sym 2) (.sym 3)],
            [false, false],
            [.value scenarioI, .value scenarioJ, .value scenarioJ, .value scenarioK]⟩) ∧
      CondState.inStep
        ⟨[(AffineExpr.sub (.sym 1) (.sym 0)).subConst 1, AffineExpr.sub (.sym 2) (.sym 3)],
          [false, false],
          [.value scenarioI, .value scenarioJ, .value scenarioJ, .value scenarioK]⟩) ∧
      (handleCmp exampleEnv 1 .slt scenarioI scenarioJ ⟨[], [], []⟩ false =
          some (true,
            ⟨[(AffineExpr.sub (.sym 1) (.sym 0)).subConst 1], [false],
              [.value scenarioI, .value scenarioJ]⟩) ∧
        CondState.inStep
          ⟨[(AffineExpr.sub (.sym 1) (.sym 0)).subConst 1], [false],
            [.value scenarioI, .value scenarioJ]⟩) ∧
      (compileCondition exampleEnv 1 10
          (binaryOp 116 (.int 1) .andI (cmpValue 110 .slt scenarioI scenarioJ)
            (affineIfValue 1 0)) false =
          some (false,
            ⟨[(AffineExpr.sub (.sym 1) (.sym 0)).subConst 1], [false],
              [.value scenarioI, .value scenarioJ]⟩) ∧
        handleAffineIf ⟨0, 1, [.sym 0], [false]⟩ [scenarioK]
            [mkConstant 86 (.int 1) 1 .nested] 0
            ⟨[(AffineExpr.sub (.sym 1) (.sym 0)).subConst 1], [false],
              [.value scenarioI, .value scenarioJ]⟩ false =
          some (false,
            ⟨[(AffineExpr.sub (.sym 1) (.sym 0)).subConst 1], [false],
              [.value scenarioI, .value scenarioJ]⟩) ∧
        CondState.inStep
          ⟨[(AffineExpr.sub (.sym 1) (.sym 0)).subConst 1], [false],
            [.value scenarioI, .value scenarioJ]⟩) :=
  ⟨⟨rfl, ((C24_lists_in_step exampleEnv 1).2.2 10 exampleCondition false _ rfl).1⟩,
    ⟨rfl, (C24_lists_in_step exampleEnv 1).1 .slt scenarioI scenarioJ ⟨[], [], []⟩ false
      (true, ⟨[(AffineExpr.sub (.sym 1) (.sym 0)).subConst 1], [false],
        [.value scenarioI, .value scenarioJ]⟩) ⟨rfl, rfl, rfl⟩ rfl⟩,
    ⟨rfl, rfl,
      ((C24_lists_in_step exampleEnv 1).2.1 ⟨0, 1, [.sym 0], [false]⟩ [scenarioK]
        [mkConstant 86 (.int 1) 1 .nested] 0
        ⟨[(AffineExpr.sub (.sym 1) (.sym 0)).subConst 1], [false],
          [.value scenarioI, .value scenarioJ]⟩ false
        (false, ⟨[(AffineExpr.sub (.sym 1) (.sym 0)).subConst 1], [false],
          [.value scenarioI, .value scenarioJ]⟩) ⟨rfl, rfl, rfl⟩ rfl).2.2⟩⟩

/-! ### Soundness of `valueCmp` on affine expressions -/

theorem valueCmpConst_sound (ρ : Nat → Int) (cmp : Cmp) (c : Int) (val : ValueOrInt)
    (h : valueCmpConst cmp c val = true) : Cmp.eval cmp c (val.denote ρ) = true := by
  cases val with
  | value v => cases cmp <;> simp [valueCmpConst, ValueOrInt.eqInt, ValueOrInt.ltInt,
      ValueOrInt.leInt, ValueOrInt.gtInt, ValueOrInt.geInt] at h
  | int w i =>
    cases cmp <;>
      simp [valueCmpConst, ValueOrInt.eqInt, ValueOrInt.ltInt, ValueOrInt.leInt,
        ValueOrInt.gtInt, ValueOrInt.geInt] at h <;>
      simp [Cmp.eval, ValueOrInt.denote] <;> omega

theorem denote_of_eqInt_zero (ρ : Nat → Int) (val : ValueOrInt) (h : val.eqInt 0 = true) :
    val.denote ρ = 0 := by
  cases val with
  | value v => simp [ValueOrInt.eqInt] at h
  | int w i => simpa [ValueOrInt.eqInt, ValueOrInt.denote] using h

theorem valueCmpExpr_sound (leaf : Cmp → Nat → ValueOrInt → Bool) (numDim : Nat)
    (ρ : Nat → Int) (xs : List Int)
    (hleaf : ∀ cmp i val, leaf cmp i val = true →
      Cmp.eval cmp (xs.getD i 0) (val.denote ρ) = true) :
    ∀ (e : AffineExpr) (cmp : Cmp) (val : ValueOrInt), e.dimBound ≤ numDim →
      valueCmpExpr leaf numDim cmp e val = true →
      Cmp.eval cmp (e.eval (xs.take numDim) (xs.drop numDim)) (val.denote ρ) = true := by
  have hz : ValueOrInt.zero.denote ρ = 0 := rfl
  intro e
  induction e with
  | const c =>
    intro cmp val _ h
    exact valueCmpConst_sound ρ cmp c val (by simpa [valueCmpExpr] using h)
  | dim pos =>
    intro cmp val hb h
    simp only [AffineExpr.dimBound] at hb
    have := hleaf cmp pos val (by simpa [valueCmpExpr] using h)
    have he : (AffineExpr.dim pos).eval (xs.take numDim) (xs.drop numDim) = xs.getD pos 0 := by
      simp only [AffineExpr.eval, List.getD_eq_getElem?_getD]
      rw [List.getElem?_take_of_lt (by omega)]
    rw [he]
    exact this
  | sym pos =>
    intro cmp val _ h
    have := hleaf cmp (pos + numDim) val (by simpa [valueCmpExpr] using h)
    have he : (AffineExpr.sym pos).eval (xs.take numDim) (xs.drop numDim) =
        xs.getD (pos + numDim) 0 := by
      simp only [AffineExpr.eval, List.getD_eq_getElem?_getD, List.getElem?_drop]
      rw [Nat.add_comm]
    rw [he]
    exact this
  | add l r ihl ihr =>
    intro cmp val hb h
    simp only [AffineExpr.dimBound, max_le_iff] at hb
    have il := fun c v hh => ihl c v hb.1 hh
    have ir := fun c v hh => ihr c v hb.2 hh
    simp only [AffineExpr.eval]
    cases cmp <;>
      simp only [valueCmpExpr, Bool.or_eq_true, Bool.and_eq_true] at h
    · rcases h with ⟨h1, h2⟩ | ⟨h1, h2⟩ <;>
        have a1 := il _ _ h1 <;> have a2 := ir _ _ h2 <;>
        simp only [Cmp.eval, hz, decide_eq_true_eq] at a1 a2 ⊢ <;> omega
    · rcases h with ((⟨h1, h2⟩ | ⟨h1, h2⟩) | ⟨h1, h2⟩) | ⟨h1, h2⟩ <;>
        have a1 := il _ _ h1 <;> have a2 := ir _ _ h2 <;>
        simp only [Cmp.eval, hz, decide_eq_true_eq] at a1 a2 ⊢ <;> omega
    · rcases h with ⟨h1, h2⟩ | ⟨h1, h2⟩ <;>
        have a1 := il _ _ h1 <;> have a2 := ir _ _ h2 <;>
        simp only [Cmp.eval, hz, decide_eq_true_eq] at a1 a2 ⊢ <;> omega
    · rcases h with ((⟨h1, h2⟩ | ⟨h1, h2⟩) | ⟨h1, h2⟩) | ⟨h1, h2⟩ <;>
        have a1 := il _ _ h1 <;> have a2 := ir _ _ h2 <;>
        simp only [Cmp.eval, hz, decide_eq_true_eq] at a1 a2 ⊢ <;> omega
    · rcases h with ⟨h1, h2⟩ | ⟨h1, h2⟩ <;>
        have a1 := il _ _ h1 <;> have a2 := ir _ _ h2 <;>
        simp only [Cmp.eval, hz, decide_eq_true_eq] at a1 a2 ⊢ <;> omega
  | mul l r ihl ihr =>
    intro cmp val hb h
    simp only [AffineExpr.dimBound, max_le_iff] at hb
    have il := fun c v hh => ihl c v hb.1 hh
    have ir := fun c v hh => ihr c v hb.2 hh
    simp only [valueCmpExpr, Bool.and_eq_true] at h
    obtain ⟨hv, h⟩ := h
    have hv0 := denote_of_eqInt_zero ρ val hv
    simp only [AffineExpr.eval]
    cases cmp <;> simp only [Bool.or_eq_true, Bool.and_eq_true] at h
    · rcases h with h1 | h1
      · have a1 := il _ _ h1
        simp only [Cmp.eval, hv0, decide_eq_true_eq] at a1 ⊢
        rw [a1, zero_mul]
      · have a1 := ir _ _ h1
        simp only [Cmp.eval, hv0, decide_eq_true_eq] at a1 ⊢
        rw [a1, mul_zero]
    · rcases h with ⟨h1, h2⟩ | ⟨h1, h2⟩ <;>
        have a1 := il _ _ h1 <;> have a2 := ir _ _ h2 <;>
        simp only [Cmp.eval, hz, hv0, decide_eq_true_eq] at a1 a2 ⊢
      · exact mul_neg_of_neg_of_pos a1 a2
      · exact mul_neg_of_pos_of_neg a1 a2
    · rcases h with (h1 | h1) | (⟨h1, h2⟩ | ⟨h1, h2⟩)
      · have a1 := il _ _ h1
        simp only [Cmp.eval, hv0, decide_eq_true_eq] at a1 ⊢
        rw [a1, zero_mul]
      · have a1 := ir _ _ h1
        simp only [Cmp.eval, hv0, decide_eq_true_eq] at a1 ⊢
        rw [a1, mul_zero]
      · have a1 := il _ _ h1
        have a2 := ir _ _ h2
        simp only [Cmp.eval, hz, hv0, decide_eq_true_eq] at a1 a2 ⊢
        exact mul_nonpos_of_nonneg_of_nonpos a1 a2
      · have a1 := il _ _ h1
        have a2 := ir _ _ h2
        simp only [Cmp.eval, hz, hv0, decide_eq_true_eq] at a1 a2 ⊢
        exact mul_nonpos_of_nonpos_of_nonneg a1 a2
    · rcases h with ⟨h1, h2⟩ | ⟨h1, h2⟩ <;>
        have a1 := il _ _ h1 <;> have a2 := ir _ _ h2 <;>
        simp only [Cmp.eval, hz, hv0, decide_eq_true_eq] at a1 a2 ⊢
      · exact mul_pos_of_neg_of_neg a1 a2
      · exact mul_pos a1 a2
    · rcases h with (h1 | h1) | (⟨h1, h2⟩ | ⟨h1, h2⟩)
      · have a1 := il _ _ h1
        simp only [Cmp.eval, hv0, decide_eq_true_eq] at a1 ⊢
        rw [a1, zero_mul]
      · have a1 := ir _ _ h1
        simp only [Cmp.eval, hv0, decide_eq_true_eq] at a1 ⊢
        rw [a1, mul_zero]
      · have a1 := il _ _ h1
        have a2 := ir _ _ h2
        simp only [Cmp.eval, hz, hv0, decide_eq_true_eq] at a1 a2 ⊢
        exact mul_nonneg a1 a2
      · have a1 := il _ _ h1
        have a2 := ir _ _ h2
        simp only [Cmp.eval, hz, hv0, decide_eq_true_eq] at a1 a2 ⊢
        exact mul_nonneg_of_nonpos_of_nonpos a1 a2
  | floorDiv l r ihl _ =>
    intro cmp val hb h
    simp only [AffineExpr.dimBound, max_le_iff] at hb
    simp only [valueCmpExpr, Bool.and_eq_true] at h
    obtain ⟨⟨hv, hc⟩, h⟩ := h
    have hv0 := denote_of_eqInt_zero ρ val hv
    cases r <;> simp only [Bool.false_eq_true, decide_eq_true_eq] at hc
    rename_i c
    cases cmp <;> simp only [Bool.false_eq_true] at h
    have a1 := ihl _ _ hb.1 h
    simp only [Cmp.eval, hv0, decide_eq_true_eq, AffineExpr.eval] at a1 ⊢
    rw [Int.fdiv_eq_ediv _ (le_of_lt hc)]
    exact Int.ediv_nonneg a1 (le_of_lt hc)
  | ceilDiv l r _ _ =>
    intro cmp val _ h
    simp [valueCmpExpr] at h
  | mod l r ihl _ =>
    intro cmp val hb h
    simp only [AffineExpr.dimBound, max_le_iff] at hb
    simp only [valueCmpExpr, Bool.and_eq_true] at h
    obtain ⟨⟨hv, hc⟩, h⟩ := h
    have hv0 := denote_of_eqInt_zero ρ val hv
    cases r <;> simp only [Bool.false_eq_true, decide_eq_true_eq] at hc
    rename_i c
    cases cmp <;> simp only [Bool.false_eq_true] at h
    simp only [Cmp.eval, hv0, decide_eq_true_eq, AffineExpr.eval]
    rw [Int.fmod_eq_emod _ (le_of_lt hc)]
    exact Int.emod_nonneg _ (ne_of_gt hc)

/-- C25: the rules of `valueCmp` on affine expressions are sound over the integers:
when every answer on an operand is true only if the fact it stands for holds, a true
answer on an expression (constants, dims, symbols, sums, products compared with 0, and
`mod` and `floordiv` by a positive constant compared with 0) means that the value of the
expression stands in the relation to the value compared with. -/
theorem C25_value_cmp_rules_sound (leaf : Cmp → Nat → ValueOrInt → Bool) (numDim : Nat)
    (ρ : Nat → Int) (xs : List Int) (e : AffineExpr) (cmp : Cmp) (val : ValueOrInt)
    (hleaf : ∀ c i v, leaf c i v = true → Cmp.eval c (xs.getD i 0) (v.denote ρ) = true)
    (hdims : e.dimBound ≤ numDim)
    (h : valueCmpExpr leaf numDim cmp e val = true) :
    Cmp.eval cmp (e.eval (xs.take numDim) (xs.drop numDim)) (val.denote ρ) = true :=
  valueCmpExpr_sound leaf numDim ρ xs hleaf e cmp val hdims h

/-- C25 with every sub-answer replaced by the truth of the fact it stands for: the rule
for `l + r > k` at `l = 3`, `r = -2`, `k = -2`, the rule for `l * r > 0` at `l = -3`,
`r = -2`, and the rules for `l mod 4 >= 0` and `l floordiv 4 >= 0` at `l = 3`. -/
theorem C25_value_cmp_rules_sound_witness :
    (valueCmpExpr (truthLeaf (fun _ => 0) [3, -2]) 0 .GT (.add (.sym 0) (.sym 1))
          (.int 64 (-2)) = true ∧
        Cmp.eval .GT ((AffineExpr.add (.sym 0) (.sym 1)).eval [] [3, -2]) (-2) = true) ∧
      (valueCmpExpr (truthLeaf (fun _ => 0) [-3, -2]) 0 .GT (.mul (.sym 0) (.sym 1))
          (.int 64 0) = true ∧
        Cmp.eval .GT ((AffineExpr.mul (.sym 0) (.sym 1)).eval [] [-3, -2]) 0 = true) ∧
      (valueCmpExpr (truthLeaf (fun _ => 0) [3]) 0 .GE (.mod (.sym 0) (.const 4))
          (.int 64 0) = true ∧
        Cmp.eval .GE ((AffineExpr.mod (.sym 0) (.const 4)).eval [] [3]) 0 = true) ∧
      (valueCmpExpr (truthLeaf (fun _ => 0) [3]) 0 .GE (.floorDiv (.sym 0) (.const 4))
          (.int 64 0) = true ∧
        Cmp.eval .GE ((AffineExpr.floorDiv (.sym 0) (.const 4)).eval [] [3]) 0 = true) :=
  ⟨⟨by decide,
      C25_value_cmp_rules_sound (truthLeaf (fun _ => 0) [3, -2]) 0 (fun _ => 0) [3, -2]
        (.add (.sym 0) (.sym 1)) .GT (.int 64 (-2)) (fun _ _ _ h => h) (by decide)
        (by decide)⟩,
    ⟨by decide,
      C25_value_cmp_rules_sound (truthLeaf (fun _ => 0) [-3, -2]) 0 (fun _ => 0) [-3, -2]
        (.mul (.sym 0) (.sym 1)) .GT (.int 64 0) (fun _ _ _ h => h) (by decide)
        (by decide)⟩,
    ⟨by decide,
      C25_value_cmp_rules_sound (truthLeaf (fun _ => 0) [3]) 0 (fun _ => 0) [3]
        (.mod (.sym 0) (.const 4)) .GE (.int 64 0) (fun _ _ _ h => h) (by decide)
        (by decide)⟩,
    ⟨by decide,
      C25_value_cmp_rules_sound (truthLeaf (fun _ => 0) [3]) 0 (fun _ => 0) [3]
        (.floorDiv (.sym 0) (.const 4)) .GE (.int 64 0) (fun _ _ _ h => h) (by decide)
        (by decide)⟩⟩

/-! ### Lock-step legality with iter operands, and the rewrite patterns -/

/-- C26: `isLoopLockStepExecutable` with a non-null `parallelReductions` never looks at
reductions: its result is that of the memory test, whatever the number of iter operands.
For the loop `a[i] = a[i] + 1` with one loop-carried scalar and no recognized reduction
it returns true, where `isLoopParallel` returns false. -/
theorem C26_lock_step_ignores_reductions :
    (∀ (oracle : DependenceOracle) (forOp : AffineForLoop),
      isLoopLockStepExecutable oracle forOp true =
        isLoopMemoryLockStepExecutable oracle forOp) ∧
      loopWithCarriedScalar.numIterOperands = 1 ∧
      isLoopLockStepExecutable (exactOracle 0 10) loopWithCarriedScalar true = some true ∧
      isLoopParallel (exactOracle 0 10) [] loopWithCarriedScalar (some []) = false := by
  refine ⟨?_, rfl, by decide, by decide⟩
  intro oracle forOp
  simp [isLoopLockStepExecutable]

theorem sameOperands_refl (operands : List Value) : sameOperands operands operands = true := by
  induction operands with
  | nil => rfl
  | cons v vs ih => simp [sameOperands, Value.same, ih]

/-- C27: the walk over the enclosing `affine.if` operations compares constraint
expressions, dim and symbol counts and operands but not the equality flags, so any
constraint is found removable under an enclosing `affine.if` with the same expression,
whatever the two flags. On `affine.if (s0 == 0)[%k]` inside the then region of
`affine.if (s0 >= 0)[%k]` the equality is dropped and the inner `affine.if` is replaced
by its then region, although at `%k = 5` the enclosing set holds and the inner does
not. -/
theorem C27_equality_dropped_under_inequality :
    (∀ (numDims numSymbols : Nat) (operands : List Value) (cst : AffineExpr)
        (flag : Bool),
      canRemoveByIf numDims numSymbols operands cst
        [⟨⟨numDims, numSymbols, [cst], [flag]⟩, operands, false⟩] = true) ∧
      affineIfSimplification ⟨0, 1, [.sym 0], [true]⟩ [scenarioK] true
          [⟨⟨0, 1, [.sym 0], [false]⟩, [scenarioK], false⟩] [] = .inlineThen ∧
      IntegerSet.satisfied ⟨0, 1, [.sym 0], [false]⟩ [5] = true ∧
      IntegerSet.satisfied ⟨0, 1, [.sym 0], [true]⟩ [5] = false := by
  refine ⟨?_, rfl, by decide, by decide⟩
  intro numDims numSymbols operands cst flag
  simp [canRemoveByIf, sameOperands_refl]

theorem raisedValues_length (loop : ScfForLoop) (lb ub : Int)
    (hb : ForOpRaising.bounds loop = some (lb, ub))
    (hs : 0 < ForOpRaising.getStep loop) (hlt : lb < ub) :
    (ForOpRaising.raisedValues loop).map List.length =
      some ((ub - lb + ForOpRaising.getStep loop - 1) / ForOpRaising.getStep loop).toNat := by
  unfold ForOpRaising.raisedValues
  rw [hb]
  simp only [Option.map]
  rw [List.length_map]
  unfold loopValues
  rw [if_pos ⟨hs, hlt⟩, List.length_map, List.length_range]

/-- C28: for `scf.for %i = 0 to 16 step 4` on `i32` with the step an `arith.constant` of
type `i32`, the raised `affine.for` runs from `0` to `(4 - 1 + 16 - 0) /u 4 = 4` with the
step `getStep = 4` and recomputes `%i = 0 + iv * 4`: the variable takes the value `0`
only, not `0, 4, 8, 12`. For a symbol step `2` with `lb = 5 > ub = 0` the `scf.for` has no
iteration but the raised loop runs from `0` to `(2 - 1 + 0 - 5) /u 2 = 2^63 - 2` with
step 1, that is `2^63 - 2` times. With a symbol step and `lb <= ub` (`3` to `16` step
`4`) the values are preserved. -/
theorem C28_raised_loop_iterations :
    ScfForLoop.values ⟨32, 0, 16, 4, .intConstant⟩ = [0, 4, 8, 12] ∧
      ForOpRaising.bounds ⟨32, 0, 16, 4, .intConstant⟩ = some (0, 4) ∧
      ForOpRaising.getStep ⟨32, 0, 16, 4, .intConstant⟩ = 4 ∧
      ForOpRaising.raisedValues ⟨32, 0, 16, 4, .intConstant⟩ = some [0] ∧
      ScfForLoop.values ⟨64, 5, 0, 2, .symbol⟩ = [] ∧
      ForOpRaising.bounds ⟨64, 5, 0, 2, .symbol⟩ = some (0, 9223372036854775806) ∧
      ForOpRaising.getStep ⟨64, 5, 0, 2, .symbol⟩ = 1 ∧
      (ForOpRaising.raisedValues ⟨64, 5, 0, 2, .symbol⟩).map List.length =
        some 9223372036854775806 ∧
      ScfForLoop.values ⟨64, 3, 16, 4, .symbol⟩ = [3, 7, 11, 15] ∧
      ForOpRaising.raisedValues ⟨64, 3, 16, 4, .symbol⟩ = some [3, 7, 11, 15] := by
  refine ⟨by decide, by decide, by decide, by decide, by decide, by decide, by decide, ?_,
    by decide, by decide⟩
  rw [raisedValues_length ⟨64, 5, 0, 2, .symbol⟩ 0 9223372036854775806 (by decide)
    (by decide) (by decide)]
  decide

/-- C29: `areOpposite` accepts `xor(a, 1)` and `a` at every width, and `SimplifyAndOr`
rewrites `and(xor(a, 1), or(a, b))` on `i8` to `and(xor(a, 1), b)`; at `a = 2`, `b = 0`
the original value is `3 and 2 = 2` and the rewritten one `3 and 0 = 0`. -/
theorem C29_and_of_opposite_on_bytes :
    areOpposite (byteArg 140)
        (binaryOp 143 (.int 8) .xOrI (byteArg 140) (mkConstant 142 (.int 8) 1 .nested)) =
        true ∧
      simplifyAndOr andOfOpposite =
        some (binaryOp 145 (.int 8) .andI
          (binaryOp 143 (.int 8) .xOrI (byteArg 140) (mkConstant 142 (.int 8) 1 .nested))
          (byteArg 141)) ∧
      evalArith 8 (fun id => if id = 140 then 2 else 0) andOfOpposite = some 2 ∧
      evalArith 8 (fun id => if id = 140 then 2 else 0)
          (binaryOp 145 (.int 8) .andI
            (binaryOp 143 (.int 8) .xOrI (byteArg 140) (mkConstant 142 (.int 8) 1 .nested))
            (byteArg 141)) = some 0 := by
  refine ⟨rfl, rfl, ?_, ?_⟩ <;> decide

theorem toUnsigned_wrapSigned (w : Nat) (x : Int) :
    toUnsigned w (wrapSigned w x) = x % 2 ^ w := by
  unfold toUnsigned wrapSigned
  by_cases hw : w = 0
  · subst hw
    simp
  · simp only [hw, if_false]
    split
    · exact Int.emod_emod_of_dvd x (dvd_refl _)
    · rw [Int.sub_emod, Int.emod_self, sub_zero, Int.emod_emod_of_dvd _ (dvd_refl _),
        Int.emod_emod_of_dvd x (dvd_refl _)]

theorem evalArith_binaryOp (w : Nat) (ρ : Nat → Int) (id : Nat) (ty : Ty) (kind : OpKind)
    (a b : Value) (x y : Int) (hk : kind.isArith = true)
    (ha : evalArith w ρ a = some x) (hb : evalArith w ρ b = some y) :
    evalArith w ρ (binaryOp id ty kind a b) = arithBinary w kind x y := by
  unfold binaryOp evalArith
  cases kind <;> simp [OpKind.isArith] at hk <;> simp [OpKind.isArith, ha, hb]

theorem remui_of_sum (w : Nat) (va vb vc : Int)
    (hno : toUnsigned w va * toUnsigned w vc + toUnsigned w vb < 2 ^ w) :
    toUnsigned w (wrapSigned w (wrapSigned w (va * vc) + vb)) % toUnsigned w vc =
      toUnsigned w vb % toUnsigned w vc := by
  have hm : (0 : Int) < 2 ^ w := by positivity
  have ha0 : 0 ≤ toUnsigned w va := Int.emod_nonneg _ (ne_of_gt hm)
  have hb0 : 0 ≤ toUnsigned w vb := Int.emod_nonneg _ (ne_of_gt hm)
  have hc0 : 0 ≤ toUnsigned w vc := Int.emod_nonneg _ (ne_of_gt hm)
  have hp0 : 0 ≤ toUnsigned w va * toUnsigned w vc := mul_nonneg ha0 hc0
  have hlt : toUnsigned w va * toUnsigned w vc < 2 ^ w := by linarith
  have h1 : toUnsigned w (wrapSigned w (wrapSigned w (va * vc) + vb)) =
      toUnsigned w va * toUnsigned w vc + toUnsigned w vb := by
    rw [toUnsigned_wrapSigned, Int.add_emod]
    have h2 : wrapSigned w (va * vc) % 2 ^ w = toUnsigned w va * toUnsigned w vc := by
      have := toUnsigned_wrapSigned w (va * vc)
      unfold toUnsigned at this
      rw [this, Int.mul_emod]
      exact Int.emod_eq_of_lt hp0 hlt
    rw [h2]
    exact Int.emod_eq_of_lt (add_nonneg hp0 hb0) hno
  rw [h1, add_comm]
  exact Int.add_mul_emod_self

/-- Where the rewrite of `OptimizeRem` keeps the value: `remui(addi(muli(a, c), b), c)`
and `remui(addi(b, muli(a, c)), c)` (`b` not itself a product) are replaced by
`remui(b, c)`, and the two have the same value whenever `c != 0` and `a * c + b`, on the
unsigned values, does not wrap at the width. -/
theorem optimizeRem_preserves_without_wrap (w : Nat) (ρ : Nat → Int) (a b c : Value)
    (va vb vc : Int) (ha : evalArith w ρ a = some va) (hb : evalArith w ρ b = some vb)
    (hc : evalArith w ρ c = some vc) (hbk : b.kind ≠ some .mulI)
    (hvc : toUnsigned w vc ≠ 0)
    (hno : toUnsigned w va * toUnsigned w vc + toUnsigned w vb < 2 ^ w) :
    optimizeRem (remOfSum a b c) = some (binaryOp 153 (.int 8) .remUI b c) ∧
      optimizeRem (remOfSumSwapped a b c) = some (binaryOp 153 (.int 8) .remUI b c) ∧
      evalArith w ρ (remOfSum a b c) = evalArith w ρ (binaryOp 153 (.int 8) .remUI b c) ∧
      evalArith w ρ (remOfSumSwapped a b c) =
        evalArith w ρ (binaryOp 153 (.int 8) .remUI b c) := by
  have hsame : c.same c = true := by simp [Value.same]
  have hmul := evalArith_binaryOp w ρ 151 (.int 8) .mulI a c va vc rfl ha hc
  have hnew := evalArith_binaryOp w ρ 153 (.int 8) .remUI b c vb vc rfl hb hc
  have hrem := remui_of_sum w va vb vc hno
  refine ⟨?_, ?_, ?_, ?_⟩
  · simp [optimizeRem, optimizeRemOperand, remOfSum, binaryOp, hsame]
  · cases b with
    | blockArg id ty owner argNo =>
      simp [optimizeRem, optimizeRemOperand, remOfSumSwapped, binaryOp, hsame]
    | opResult id ty op resNo =>
      cases op with
      | mk kind place operands tb eb y1 y2 =>
        cases kind <;>
          simp [Value.kind, Value.definingOp, Operation.kind] at hbk <;>
          simp [optimizeRem, optimizeRemOperand, remOfSumSwapped, binaryOp, hsame]
  · have hadd := evalArith_binaryOp w ρ 152 (.int 8) .addI _ b _ vb rfl hmul hb
    have hold := evalArith_binaryOp w ρ 153 (.int 8) .remUI _ c _ vc rfl hadd hc
    unfold remOfSum
    rw [hold, hnew]
    simp only [arithBinary, hvc, if_false, hrem]
  · have hadd := evalArith_binaryOp w ρ 152 (.int 8) .addI b _ vb _ rfl hb hmul
    have hold := evalArith_binaryOp w ρ 153 (.int 8) .remUI _ c _ vc rfl hadd hc
    unfold remOfSumSwapped
    rw [hold, hnew]
    have hcomm : vb + wrapSigned w (va * vc) = wrapSigned w (va * vc) + vb := add_comm _ _
    simp only [arithBinary, hvc, if_false, hcomm, hrem]

/-- C30: `OptimizeRem` replaces `remui(addi(muli(a, c), b), c)` and
`remui(addi(b, muli(a, c)), c)` by `remui(b, c)` without a test that the sum does not
wrap. On 8 bits at `a = 85`, `b = 1`, `c = 3` the product `85 * 3 = 255` and the sum
`255 + 1` wraps to `0`, so both originals are `0` while the `remui(b, c)` that replaces
them is `1`. -/
theorem C30_rem_of_wrapped_sum_differs :
    optimizeRem (remOfSum (byteArg 160) (byteArg 161) (byteArg 162)) =
        some (binaryOp 153 (.int 8) .remUI (byteArg 161) (byteArg 162)) ∧
      optimizeRem (remOfSumSwapped (byteArg 160) (byteArg 161) (byteArg 162)) =
        some (binaryOp 153 (.int 8) .remUI (byteArg 161) (byteArg 162)) ∧
      evalArith 8 (fun id => if id = 160 then 85 else if id = 161 then 1 else 3)
          (remOfSum (byteArg 160) (byteArg 161) (byteArg 162)) = some 0 ∧
      evalArith 8 (fun id => if id = 160 then 85 else if id = 161 then 1 else 3)
          (remOfSumSwapped (byteArg 160) (byteArg 161) (byteArg 162)) = some 0 ∧
      evalArith 8 (fun id => if id = 160 then 85 else if id = 161 then 1 else 3)
          (binaryOp 153 (.int 8) .remUI (byteArg 161) (byteArg 162)) = some 1 := by
  refine ⟨rfl, rfl, ?_, ?_, ?_⟩ <;> decide

end AffineCFG
